import Mathlib

/-!
# Ear-clipping triangulation (`triangulate.h`)

A shallow embedding of the single-header polygon triangulation library.

Conventions of the embedding:

* `float` coordinates are exact rationals; the only place where IEEE arithmetic
  differs from field arithmetic on exact values is the division by a zero
  determinant in `triinside`, which is modelled explicitly.
* `int` values are integers (`Int`); the entries of the index buffer are
  `unsigned int` values (`Nat`).  Offsets are computed in `int`, so the run is
  undefined when `3 * npoints` exceeds `INT_MAX`.
* The index buffer is a list whose length is its capacity.  Every access outside
  of it is undefined behaviour in C and makes the embedded function return `none`.
* The coordinate array is a total function of the offset.  With a buffer of exactly
  `3 * npoints` slots every index the buffer ever holds is below `npoints`, so no read
  of `points` leaves the `2 * npoints` coordinates.
* `for` loops whose counter and bound are not touched by the body are unrolled as
  recursion on the number of remaining iterations.
-/

namespace Triangulate

/-- Largest value of the C type `int` (32 bits). -/
def INT_MAX : Int := 2147483647

/-- The record `struct tristate`: the read-only coordinates, the working buffer and
the four `int` fields. -/
structure tristate where
  points : Nat → ℚ
  indices : List Nat
  npoints : Int
  r : Int
  c : Int
  e : Int

/-- Read `indices[k]`; `none` when `k` lies outside the buffer. -/
def rd (buf : List Nat) (k : Int) : Option Nat :=
  if 0 ≤ k then buf[k.toNat]? else none

/-- Write `indices[k] = v`; `none` when `k` lies outside the buffer. -/
def wr (buf : List Nat) (k : Int) (v : Nat) : Option (List Nat) :=
  if 0 ≤ k ∧ k.toNat < buf.length then some (buf.set k.toNat v) else none

/-- The pair `&points[2 * k]`, i.e. `(points[2 * k + 0], points[2 * k + 1])`. -/
def pointAt (points : Nat → ℚ) (k : Nat) : ℚ × ℚ :=
  (points (2 * k + 0), points (2 * k + 1))

/-- Element `ear[i]` of the local array `unsigned int ear[3]`. -/
def earAt (ear : Nat × Nat × Nat) (i : Int) : Nat :=
  if i = 0 then ear.1 else if i = 1 then ear.2.1 else ear.2.2

/-- `triconvex(s, i)`: the sign test `x2 * y1 - x1 * y2 > 0` on record `i`. -/
def triconvex (s : tristate) (i : Int) : Option Bool := do
  let i1 ← rd s.indices (3 * i + 1)
  let x := s.points (2 * i1 + 0)
  let y := s.points (2 * i1 + 1)
  let i0 ← rd s.indices (3 * i + 0)
  let x1 := s.points (2 * i0 + 0) - x
  let y1 := s.points (2 * i0 + 1) - y
  let i2 ← rd s.indices (3 * i + 2)
  let x2 := s.points (2 * i2 + 0) - x
  let y2 := s.points (2 * i2 + 1) - y
  pure (decide (x2 * y1 - x1 * y2 > 0))

/-- `triinside(p, a, b, c)`.  When the determinant `d00 * d11 - d01 * d01` is zero the
C code computes `inv = 1.f / 0`, an infinity, so `u` and `v` are infinities or NaN and
the final conjunction of comparisons is false. -/
def triinside (p a b c : ℚ × ℚ) : Bool :=
  let v0 : ℚ × ℚ := (c.1 - a.1, c.2 - a.2)
  let v1 : ℚ × ℚ := (b.1 - a.1, b.2 - a.2)
  let v2 : ℚ × ℚ := (p.1 - a.1, p.2 - a.2)
  let d00 := v0.1 * v0.1 + v0.2 * v0.2
  let d01 := v0.1 * v1.1 + v0.2 * v1.2
  let d02 := v0.1 * v2.1 + v0.2 * v2.2
  let d11 := v1.1 * v1.1 + v1.2 * v1.2
  let d12 := v1.1 * v2.1 + v1.2 * v2.2
  if d00 * d11 - d01 * d01 = 0 then false
  else
    let inv := 1 / (d00 * d11 - d01 * d01)
    let u := (d11 * d02 - d01 * d12) * inv
    let v := (d00 * d12 - d01 * d02) * inv
    decide (u ≥ 0) && decide (v ≥ 0) && decide (u + v < 1)

/-- The loop of `triempty`: `j` runs over the offsets `3 * r, 3 * r + 3, ...` below
`3 * c`; the first argument counts the iterations that remain. -/
def triemptyScan (s : tristate) (ia ib ic : Nat) : Nat → Int → Option Bool
  | 0, _ => some true
  | m + 1, j => do
    let j1 ← rd s.indices (j + 1)
    if j1 = ia ∨ j1 = ib ∨ j1 = ic then
      triemptyScan s ia ib ic m (j + 3)
    else if triinside (pointAt s.points j1) (pointAt s.points ia) (pointAt s.points ib)
        (pointAt s.points ic) then
      some false
    else
      triemptyScan s ia ib ic m (j + 3)

/-- `triempty(s, i)`: no vertex of the zone `[r, c)` other than the corners of record
`i` is reported by `triinside`. -/
def triempty (s : tristate) (i : Int) : Option Bool := do
  let ia ← rd s.indices (3 * i + 0)
  let ib ← rd s.indices (3 * i + 1)
  let ic ← rd s.indices (3 * i + 2)
  triemptyScan s ia ib ic (s.c - s.r).toNat (3 * s.r)

/-- `tricpy(tmp, src)` with a local destination: reads `src[0], src[1], src[2]`. -/
def rd3 (buf : List Nat) (src : Int) : Option (Nat × Nat × Nat) := do
  let a ← rd buf (src + 0)
  let b ← rd buf (src + 1)
  let c ← rd buf (src + 2)
  pure (a, b, c)

/-- `tricpy(dst, tmp)` with a local source: writes `dst[0], dst[1], dst[2]`. -/
def wr3 (buf : List Nat) (dst : Int) (t : Nat × Nat × Nat) : Option (List Nat) := do
  let b0 ← wr buf (dst + 0) t.1
  let b1 ← wr b0 (dst + 1) t.2.1
  wr b1 (dst + 2) t.2.2

/-- `tricpy(dst, src)` inside the buffer: the three assignments in order, so that an
overlap of the two ranges behaves as in C. -/
def tricpy (buf : List Nat) (dst src : Int) : Option (List Nat) := do
  let x0 ← rd buf (src + 0)
  let b0 ← wr buf (dst + 0) x0
  let x1 ← rd b0 (src + 1)
  let b1 ← wr b0 (dst + 1) x1
  let x2 ← rd b1 (src + 2)
  wr b1 (dst + 2) x2

/-- `triswap(a, b)` on two offsets of the buffer. -/
def triswap (buf : List Nat) (a b : Int) : Option (List Nat) := do
  let tmp ← rd3 buf a
  let b0 ← tricpy buf a b
  wr3 b0 b tmp

/-- The loop of `tripartition`: `i` is the counter, `l` the boundary, the first
argument the number of iterations that remain. -/
def tripartitionLoop (f : tristate → Int → Option Bool) :
    Nat → tristate → Int → Int → Option (tristate × Int)
  | 0, s, _, l => some (s, l)
  | m + 1, s, i, l => do
    let b ← f s i
    if !b then
      let buf ← triswap s.indices (3 * i) (3 * l)
      tripartitionLoop f m { s with indices := buf } (i + 1) (l + 1)
    else
      tripartitionLoop f m s (i + 1) l

/-- `tripartition(s, l, f)`: returns the updated state and the new boundary. -/
def tripartition (s : tristate) (l : Int) (f : tristate → Int → Option Bool) :
    Option (tristate × Int) :=
  tripartitionLoop f (s.npoints - l).toNat s l l

/-- The scan `for (j = s->r; j < s->npoints; j++) if (...) break;` of `triupdate`:
returns the value of `j` after the loop. -/
def trifind (s : tristate) (v : Nat) : Nat → Int → Option Int
  | 0, j => some j
  | m + 1, j => do
    let x ← rd s.indices (3 * j + 1)
    if x = v then some j else trifind s v m (j + 1)

/-- The part of `triupdate` after the relinking ("move the vertex if neccessary"): `j` is
the position found by the scan and `s` already holds the relinked record. -/
def trimove (s : tristate) (j : Int) : Option tristate :=
  if j < s.c then do
    let cv ← triconvex s j
    if !cv then
      pure s
    else
      let s : tristate := { s with c := s.c - 1 }
      let buf ← triswap s.indices (3 * s.c) (3 * j)
      let s : tristate := { s with indices := buf }
      let em ← triempty s s.c
      if em then
        let s : tristate := { s with e := s.e - 1 }
        let buf ← triswap s.indices (3 * s.e) (3 * s.c)
        pure { s with indices := buf }
      else
        pure s
  else if j < s.e then do
    let em ← triempty s j
    if em then
      let s : tristate := { s with e := s.e - 1 }
      let buf ← triswap s.indices (3 * s.e) (3 * j)
      pure { s with indices := buf }
    else
      pure s
  else do
    let cv ← triconvex s j
    let keep ← (if cv then triempty s j else some false)
    if keep then
      pure s
    else
      let buf ← triswap s.indices (3 * s.e) (3 * j)
      let s : tristate := { s with indices := buf, e := s.e + 1 }
      let cv ← triconvex s (s.e - 1)
      if !cv then
        let buf ← triswap s.indices (3 * s.c) (3 * s.e - 1)
        pure { s with indices := buf, c := s.c + 1 }
      else
        pure s

/-- `triupdate(s, ear, i)`: find the vertex `ear[i]`, relink it, move it. -/
def triupdate (s : tristate) (ear : Nat × Nat × Nat) (i : Int) : Option tristate := do
  let j ← trifind s (earAt ear i) (s.npoints - s.r).toNat s.r
  let buf ← wr s.indices (3 * j + 2 - i) (earAt ear (2 - i))
  trimove { s with indices := buf } j

/-- The initialisation loop of `triangulate`, writing the identity ring. -/
def triinit (npoints : Int) : Nat → Int → List Nat → Option (List Nat)
  | 0, _, buf => some buf
  | m + 1, i, buf => do
    let b0 ← wr buf (3 * i + 0) ((i - 1 + npoints) % npoints).toNat
    let b1 ← wr b0 (3 * i + 1) i.toNat
    let b2 ← wr b1 (3 * i + 2) ((i + 1) % npoints).toNat
    triinit npoints m (i + 1) b2

/-- One iteration of the body of `while (s.r < npoints - 3)`. -/
def triremove (s : tristate) : Option tristate := do
  let ear ← rd3 s.indices (3 * s.e)
  let buf ← tricpy s.indices (3 * s.e) (3 * s.c)
  let s : tristate := { s with indices := buf, e := s.e + 1 }
  let buf ← tricpy s.indices (3 * s.c) (3 * s.r)
  let s : tristate := { s with indices := buf, c := s.c + 1 }
  let buf ← wr3 s.indices (3 * s.r) ear
  let s : tristate := { s with indices := buf, r := s.r + 1 }
  let s ← triupdate s ear 0
  triupdate s ear 2

/-- The loop `while (s.r < npoints - 3)`.  The first argument bounds the number of
iterations; `none` is returned when it is exhausted with the condition still true. -/
def triloop : Nat → tristate → Option tristate
  | 0, s => if s.r < s.npoints - 3 then none else some s
  | m + 1, s =>
    if s.r < s.npoints - 3 then do
      let s ← triremove s
      triloop m s
    else some s

/-- The code of `triangulate` from the initialisation loop up to the second bulk
partition.  The offsets `3 * i + k` of the initialisation loop are computed in `int` and
reach `3 * npoints - 1`: beyond `INT_MAX` the behaviour is undefined (`none`). -/
def tribootstrap (points : Nat → ℚ) (npoints : Int) (indices : List Nat) :
    Option tristate :=
  if 3 * npoints ≤ INT_MAX then do
    let buf ← triinit npoints npoints.toNat 0 indices
    let s : tristate :=
      { points := points, indices := buf, npoints := npoints, r := 0, c := 0, e := 0 }
    let (s, c) ← tripartition s s.r triconvex
    let s : tristate := { s with c := c }
    let (s, e) ← tripartition s s.c triempty
    pure { s with e := e }
  else none

/-- `triangulate(points, npoints, indices)`.  A null pointer is `none`.  The result is
the returned `int` together with the buffer as the call leaves it; the outer `none`
stands for undefined behaviour (an access outside the buffer, or `int` overflow in
`3 * npoints`). -/
def triangulate (points : Option (Nat → ℚ)) (npoints : Int) (indices : Option (List Nat)) :
    Option (Int × Option (List Nat)) :=
  if npoints ≤ 0 then some (0, indices)
  else
    match points, indices with
    | some pts, some buf =>
      if 3 * npoints ≤ INT_MAX then do
        let s ← tribootstrap pts npoints buf
        let s ← triloop (npoints - 3).toNat s
        pure (s.r + 1, some s.indices)
      else none
    | _, _ => if 3 * npoints ≤ INT_MAX then some (3 * npoints, indices) else none

/-- Coordinates given as a flat list `x0, y0, x1, y1, ...` (zero beyond its end). -/
def ofCoords (l : List ℚ) : Nat → ℚ := fun k => l.getD k 0

/-- The `k`-th triple of a buffer. -/
def tripleAt (buf : List Nat) (k : Nat) : Option (Nat × Nat × Nat) :=
  rd3 buf (3 * (k : Int))

/-! ## Properties and inputs used in the statements -/

/-- Every entry of the buffer is a vertex index below `n`. -/
def AllLt (n : Int) (buf : List Nat) : Prop := ∀ x ∈ buf, (x : Int) < n

/-- The unit square, counter-clockwise. -/
def unitSquare : Nat → ℚ := ofCoords [0, 0, 1, 0, 1, 1, 0, 1]

/-- The unit square, clockwise. -/
def clockwiseSquare : Nat → ℚ := ofCoords [0, 0, 0, 1, 1, 1, 1, 0]

/-- A right triangle, counter-clockwise. -/
def rightTriangle : Nat → ℚ := ofCoords [0, 0, 1, 0, 0, 1]

/-- A pentagram: the corners of a convex pentagon, every second one in turn. -/
def pentagram : Nat → ℚ := ofCoords [0, -2, 1, 2, -2, 0, 2, 0, -1, 2]

/-- The identity ring as a flat buffer: record `i` is `((i - 1) mod n, i, (i + 1) mod n)`. -/
def identityRing (n : Nat) : List Nat :=
  (List.range (3 * n)).map fun k =>
    if k % 3 = 0 then (k / 3 + n - 1) % n else if k % 3 = 1 then k / 3 else (k / 3 + 1) % n

/-- The buffer `buf` holds the records of `src` at the positions `[0, n)`, in some
order: position `k` of `buf` holds the record that position `σ k` of `src` holds. -/
def RecPerm (n : Int) (src buf : List Nat) : Prop :=
  ∃ σ : Equiv.Perm Int, (∀ k, (k < 0 ∨ n ≤ k) → σ k = k) ∧
    ∀ k, 0 ≤ k → k < n → rd3 buf (3 * k) = rd3 src (3 * σ k)

/-- A right triangle, clockwise. -/
def clockwiseTriangle : Nat → ℚ := ofCoords [0, 0, 0, 1, 1, 0]

/-- Twice the signed area of the triangle `a, b, c`: the cross product
`(b - a) x (c - b)` of two consecutive edge vectors. -/
def cross (pts : Nat → ℚ) (a b c : Nat) : ℚ :=
  (pts (2 * b) - pts (2 * a)) * (pts (2 * c + 1) - pts (2 * b + 1)) -
    (pts (2 * b + 1) - pts (2 * a + 1)) * (pts (2 * c) - pts (2 * b))

/-- The path `a -> b -> c` is a strict left (counter-clockwise) turn. -/
def LeftTurn (pts : Nat → ℚ) (a b c : Nat) : Prop := 0 < cross pts a b c

instance (pts : Nat → ℚ) (a b c : Nat) : Decidable (LeftTurn pts a b c) := by
  unfold LeftTurn
  infer_instance

/-- The buffer of a convex polygon after `r` ears have been clipped in input order:
positions below `r` hold the emitted fan triangles `(n - 1, i, i + 1)`, the others the
ring over the vertices `r, ..., n - 1`. -/
def fanBuf (n r : Nat) : List Nat :=
  (List.range (3 * n)).map fun k =>
    if k % 3 = 0 then (if k / 3 ≤ r then n - 1 else k / 3 - 1)
    else if k % 3 = 1 then k / 3
    else (if k / 3 < r then k / 3 + 1 else if k / 3 = n - 1 then r else k / 3 + 1)

/-- The state of the driver on a convex polygon after `r` ears have been clipped: the three
boundaries coincide and the buffer is `fanBuf n r`. -/
def fanState (pts : Nat → ℚ) (n r : Nat) : tristate :=
  { points := pts, indices := fanBuf n r, npoints := n, r := r, c := r, e := r }

/-- The triangle `a, b, c` is not degenerate: its three corners are not collinear. -/
def Nondegenerate (a b c : ℚ × ℚ) : Prop :=
  (b.1 - a.1) * (c.2 - a.2) - (b.2 - a.2) * (c.1 - a.1) ≠ 0

/-- The point `p` has the coordinates `(u, v)` in the frame of the triangle:
`p = a + u * (c - a) + v * (b - a)`. -/
def Barycentric (p a b c : ℚ × ℚ) (u v : ℚ) : Prop :=
  p.1 = a.1 + u * (c.1 - a.1) + v * (b.1 - a.1) ∧
    p.2 = a.2 + u * (c.2 - a.2) + v * (b.2 - a.2)

/-- The buffer `buf` holds the records of `src`, those at the positions `[lo, hi)` in some
order and those below `lo` in place: position `k` of `buf` holds the record that position
`σ k` of `src` holds. -/
def ZonePerm (lo hi : Int) (src buf : List Nat) : Prop :=
  ∃ σ : Equiv.Perm Int, (∀ k, (k < lo ∨ hi ≤ k) → σ k = k) ∧
    ∀ k, 0 ≤ k → k < hi → rd3 buf (3 * k) = rd3 src (3 * σ k)

/-- The state `t` differs from `s` at most in the buffer slots from offset `3 * l` on. -/
def SameBelow (s : tristate) (l : Int) (t : tristate) : Prop :=
  t.points = s.points ∧ t.npoints = s.npoints ∧ t.r = s.r ∧ t.c = s.c ∧ t.e = s.e ∧
    t.indices.length = s.indices.length ∧ ∀ k : Int, k < 3 * l → rd t.indices k = rd s.indices k

/-- The triangle of the record `t` is blocked: `triinside` reports the point of a vertex
whose record lies in the zone `[r, c)` of `buf` and which is none of the corners of `t`. -/
def Blocked (pts : Nat → ℚ) (buf : List Nat) (r c : Int) (t : Nat × Nat × Nat) : Prop :=
  ∃ m : Int, r ≤ m ∧ m < c ∧ ∃ x, rd buf (3 * m + 1) = some x ∧
    x ≠ t.1 ∧ x ≠ t.2.1 ∧ x ≠ t.2.2 ∧
    triinside (pointAt pts x) (pointAt pts t.1) (pointAt pts t.2.1) (pointAt pts t.2.2) = true

/-- An L-shaped hexagon, counter-clockwise, with one reflex vertex `(1, 1)`. -/
def lShape : Nat → ℚ := ofCoords [0, 0, 2, 0, 2, 1, 1, 1, 1, 2, 0, 2]

/-- The boundaries are ordered and the buffer has room for `npoints` whole records. -/
def WellFormed (s : tristate) : Prop :=
  0 ≤ s.r ∧ s.r ≤ s.c ∧ s.c ≤ s.e ∧ s.e ≤ s.npoints ∧ 3 * s.npoints ≤ s.indices.length

/-- The `self` fields of the active records, those at the positions `[r, npoints)`, are
pairwise distinct. -/
def ActiveDistinct (s : tristate) : Prop :=
  ∀ (j k : Int) (x : Nat), s.r ≤ j → j < s.npoints → s.r ≤ k → k < s.npoints →
    rd s.indices (3 * j + 1) = some x → rd s.indices (3 * k + 1) = some x → j = k

/-- Some active record has `x` as its `self` field. -/
def ActiveHas (s : tristate) (x : Nat) : Prop :=
  ∃ j : Int, s.r ≤ j ∧ j < s.npoints ∧ rd s.indices (3 * j + 1) = some x

/-- What `triupdate(s, ear, i)` does to a record: the record whose `self` is `ear[i]` gets
`ear[2 - i]` as its `next` (for `i = 0`) or as its `prev` (otherwise); any other record
is left as it is. -/
def relinkRec (ear : Nat × Nat × Nat) (i : Int) (t : Nat × Nat × Nat) : Nat × Nat × Nat :=
  if t.2.1 = earAt ear i then
    (if i = 0 then (t.1, t.2.1, earAt ear (2 - i)) else (earAt ear (2 - i), t.2.1, t.2.2))
  else t

/-- The zone of position `k`: 0 for the output zone `[0, r)`, 1 for the reflex zone
`[r, c)`, 2 for the convex zone `[c, e)` and 3 for the ear zone. -/
def zoneOf (r c e k : Int) : Nat :=
  if k < r then 0 else if k < c then 1 else if k < e then 2 else 3

/-- The state of the run on the unit square after the first ear `(3, 0, 1)` has been
copied to the output zone and before its neighbours are updated. -/
def squareCut : tristate :=
  { points := unitSquare, indices := [3, 0, 1, 0, 1, 2, 1, 2, 3, 2, 3, 0], npoints := 4,
    r := 1, c := 1, e := 1 }

/-- A state of the run on the L-shaped hexagon: the ear `(1, 2, 3)` has been copied to the
output zone and its first neighbour updated; the second neighbour, vertex 3, is in the
reflex zone. -/
def lShapeCut : tristate :=
  { points := lShape, indices := [1, 2, 3, 2, 3, 4, 5, 0, 1, 0, 1, 3, 3, 4, 5, 4, 5, 0],
    npoints := 6, r := 1, c := 2, e := 3 }

/-- The state of the run on the pentagram after the first ear `(4, 0, 1)` has been copied
to the output zone and before its neighbours are updated. -/
def pentagramCut : tristate :=
  { points := pentagram, indices := [4, 0, 1, 0, 1, 2, 1, 2, 3, 2, 3, 4, 3, 4, 0], npoints := 5,
    r := 1, c := 1, e := 1 }

/-- The `int` fields and the buffer of a state, without the coordinates. -/
def tristate.view (s : tristate) : List Nat × Int × Int × Int × Int :=
  (s.indices, s.npoints, s.r, s.c, s.e)

/-! ## Buffer accesses -/

theorem rd_eq_some {buf : List Nat} {k : Int} {v : Nat} (h : rd buf k = some v) :
    0 ≤ k ∧ buf[k.toNat]? = some v := by
  unfold rd at h
  split at h
  · exact ⟨by assumption, h⟩
  · exact absurd h (by simp)

theorem rd_bounds {buf : List Nat} {k : Int} {v : Nat} (h : rd buf k = some v) :
    0 ≤ k ∧ k < buf.length := by
  obtain ⟨h0, h1⟩ := rd_eq_some h
  obtain ⟨h2, _⟩ := List.getElem?_eq_some.mp h1
  exact ⟨h0, by omega⟩

theorem rd_mem {buf : List Nat} {k : Int} {v : Nat} (h : rd buf k = some v) : v ∈ buf :=
  List.getElem?_mem (rd_eq_some h).2

theorem rd_isSome (buf : List Nat) (k : Int) (h0 : 0 ≤ k) (h1 : k < buf.length) :
    ∃ v, rd buf k = some v := by
  have h2 : k.toNat < buf.length := by omega
  exact ⟨buf[k.toNat], by simp [rd, h0, List.getElem?_eq_getElem h2]⟩

theorem wr_eq_some {buf b : List Nat} {k : Int} {v : Nat} (h : wr buf k v = some b) :
    0 ≤ k ∧ k < buf.length ∧ b = buf.set k.toNat v := by
  unfold wr at h
  split at h
  · rename_i hk
    simp only [Option.some.injEq] at h
    exact ⟨hk.1, by omega, h.symm⟩
  · exact absurd h (by simp)

theorem wr_length {buf b : List Nat} {k : Int} {v : Nat} (h : wr buf k v = some b) :
    b.length = buf.length := by
  obtain ⟨_, _, rfl⟩ := wr_eq_some h
  simp

theorem wr_isSome (buf : List Nat) (k : Int) (v : Nat) (h0 : 0 ≤ k) (h1 : k < buf.length) :
    wr buf k v = some (buf.set k.toNat v) := by
  have h2 : k.toNat < buf.length := by omega
  simp [wr, h0, h2]

theorem wr_mem {buf b : List Nat} {k : Int} {v x : Nat} (h : wr buf k v = some b)
    (hx : x ∈ b) : x ∈ buf ∨ x = v := by
  obtain ⟨_, _, rfl⟩ := wr_eq_some h
  exact List.mem_or_eq_of_mem_set hx

theorem rd_wr {buf b : List Nat} {k : Int} {v : Nat} (h : wr buf k v = some b) (j : Int) :
    rd b j = if j = k then some v else rd buf j := by
  obtain ⟨h0, h1, rfl⟩ := wr_eq_some h
  unfold rd
  by_cases hj : 0 ≤ j
  · simp only [hj, if_true]
    rw [List.getElem?_set]
    by_cases e : j = k
    · subst e
      have : j.toNat < buf.length := by omega
      simp [this]
    · have : k.toNat ≠ j.toNat := by omega
      simp [this, e]
  · have : j ≠ k := by omega
    simp [hj, this]

theorem wr_self {buf : List Nat} {k : Int} {v : Nat} (h : rd buf k = some v) :
    wr buf k v = some buf := by
  obtain ⟨h0, h1⟩ := rd_bounds h
  rw [wr_isSome buf k v h0 h1]
  congr 1
  apply List.ext_getElem?
  intro n
  rw [List.getElem?_set]
  obtain ⟨_, h2⟩ := rd_eq_some h
  by_cases e : k.toNat = n
  · subst e
    have : k.toNat < buf.length := by omega
    simp [this, h2]
  · simp [e]


/-! ## Whole-record copies -/

theorem rd3_eq_some {buf : List Nat} {k : Int} {t : Nat × Nat × Nat} (h : rd3 buf k = some t) :
    rd buf k = some t.1 ∧ rd buf (k + 1) = some t.2.1 ∧ rd buf (k + 2) = some t.2.2 := by
  unfold rd3 at h
  simp only [bind, Option.bind_eq_some, pure, Option.some.injEq] at h
  obtain ⟨a, ha, b, hb, c, hc, rfl⟩ := h
  exact ⟨by simpa using ha, hb, hc⟩

theorem rd3_of_rd {buf : List Nat} {k : Int} {a b c : Nat} (ha : rd buf k = some a)
    (hb : rd buf (k + 1) = some b) (hc : rd buf (k + 2) = some c) :
    rd3 buf k = some (a, b, c) := by
  simp [rd3, ha, hb, hc]

theorem rd3_isSome {buf : List Nat} {k : Int} (h0 : 0 ≤ k) (h1 : k + 2 < buf.length) :
    ∃ t, rd3 buf k = some t := by
  obtain ⟨a, ha⟩ := rd_isSome (buf) (k) (by omega) (by omega)
  obtain ⟨b, hb⟩ := rd_isSome (buf) (k + 1) (by omega) (by omega)
  obtain ⟨c, hc⟩ := rd_isSome (buf) (k + 2) (by omega) (by omega)
  exact ⟨_, rd3_of_rd ha hb hc⟩

theorem rd3_mem {buf : List Nat} {k : Int} {t : Nat × Nat × Nat} (h : rd3 buf k = some t) :
    t.1 ∈ buf ∧ t.2.1 ∈ buf ∧ t.2.2 ∈ buf := by
  obtain ⟨ha, hb, hc⟩ := rd3_eq_some h
  exact ⟨rd_mem ha, rd_mem hb, rd_mem hc⟩

theorem wr3_eq_some {buf b : List Nat} {k : Int} {t : Nat × Nat × Nat}
    (h : wr3 buf k t = some b) :
    ∃ b0 b1, wr buf k t.1 = some b0 ∧ wr b0 (k + 1) t.2.1 = some b1 ∧
      wr b1 (k + 2) t.2.2 = some b := by
  unfold wr3 at h
  simp only [bind, Option.bind_eq_some] at h
  obtain ⟨b0, h0, b1, h1, h2⟩ := h
  exact ⟨b0, b1, by simpa using h0, h1, h2⟩

theorem wr3_length {buf b : List Nat} {k : Int} {t : Nat × Nat × Nat}
    (h : wr3 buf k t = some b) : b.length = buf.length := by
  obtain ⟨b0, b1, h0, h1, h2⟩ := wr3_eq_some h
  rw [wr_length h2, wr_length h1, wr_length h0]

theorem wr3_mem {buf b : List Nat} {k : Int} {t : Nat × Nat × Nat} {x : Nat}
    (h : wr3 buf k t = some b) (hx : x ∈ b) :
    x ∈ buf ∨ x = t.1 ∨ x = t.2.1 ∨ x = t.2.2 := by
  obtain ⟨b0, b1, h0, h1, h2⟩ := wr3_eq_some h
  rcases wr_mem h2 hx with hx | hx
  · rcases wr_mem h1 hx with hx | hx
    · rcases wr_mem h0 hx with hx | hx
      · exact Or.inl hx
      · exact Or.inr (Or.inl hx)
    · exact Or.inr (Or.inr (Or.inl hx))
  · exact Or.inr (Or.inr (Or.inr hx))

theorem wr3_isSome (buf : List Nat) (k : Int) (t : Nat × Nat × Nat) (h0 : 0 ≤ k)
    (h1 : k + 2 < buf.length) : ∃ b, wr3 buf k t = some b := by
  unfold wr3
  have e0 := wr_isSome (buf) (k + 0) t.1 (by omega) (by omega)
  have e1 := wr_isSome (buf.set (k + 0).toNat t.1) (k + 1) t.2.1 (by omega)
    (by simp; omega)
  have e2 := wr_isSome ((buf.set (k + 0).toNat t.1).set (k + 1).toNat t.2.1)
    (k + 2) t.2.2 (by omega) (by simp; omega)
  simp only [bind, Option.bind, e0, e1, e2]
  exact ⟨_, rfl⟩

theorem wr3_self {buf : List Nat} {k : Int} {t : Nat × Nat × Nat} (h : rd3 buf k = some t) :
    wr3 buf k t = some buf := by
  obtain ⟨ha, hb, hc⟩ := rd3_eq_some h
  simp [wr3, wr_self ha, wr_self hb, wr_self hc]

theorem tricpy_eq_some {buf b : List Nat} {d s : Int} (h : tricpy buf d s = some b) :
    ∃ x0 b0 x1 b1 x2, rd buf s = some x0 ∧ wr buf d x0 = some b0 ∧
      rd b0 (s + 1) = some x1 ∧ wr b0 (d + 1) x1 = some b1 ∧
      rd b1 (s + 2) = some x2 ∧ wr b1 (d + 2) x2 = some b := by
  unfold tricpy at h
  simp only [bind, Option.bind_eq_some] at h
  obtain ⟨x0, r0, b0, w0, x1, r1, b1, w1, x2, r2, w2⟩ := h
  exact ⟨x0, b0, x1, b1, x2, by simpa using r0, by simpa using w0, r1, w1, r2, w2⟩

theorem tricpy_length {buf b : List Nat} {d s : Int} (h : tricpy buf d s = some b) :
    b.length = buf.length := by
  obtain ⟨x0, b0, x1, b1, x2, r0, w0, r1, w1, r2, w2⟩ := tricpy_eq_some h
  rw [wr_length w2, wr_length w1, wr_length w0]

theorem tricpy_subset {buf b : List Nat} {d s : Int} (h : tricpy buf d s = some b) :
    b ⊆ buf := by
  obtain ⟨x0, b0, x1, b1, x2, r0, w0, r1, w1, r2, w2⟩ := tricpy_eq_some h
  have s0 : b0 ⊆ buf := fun x hx => by
    rcases wr_mem w0 hx with hx | rfl
    · exact hx
    · exact rd_mem r0
  have s1 : b1 ⊆ buf := fun x hx => by
    rcases wr_mem w1 hx with hx | rfl
    · exact s0 hx
    · exact s0 (rd_mem r1)
  intro x hx
  rcases wr_mem w2 hx with hx | rfl
  · exact s1 hx
  · exact s1 (rd_mem r2)

theorem tricpy_isSome (buf : List Nat) (d s : Int) (hd : 0 ≤ d) (hd2 : d + 2 < buf.length)
    (hs : 0 ≤ s) (hs2 : s + 2 < buf.length) : ∃ b, tricpy buf d s = some b := by
  unfold tricpy
  obtain ⟨x0, r0⟩ := rd_isSome (buf) (s + 0) (by omega) (by omega)
  have w0 := wr_isSome (buf) (d + 0) x0 (by omega) (by omega)
  obtain ⟨x1, r1⟩ := rd_isSome (buf.set (d + 0).toNat x0) (s + 1) (by omega)
    (by simp; omega)
  have w1 := wr_isSome (buf.set (d + 0).toNat x0) (d + 1) x1 (by omega)
    (by simp; omega)
  obtain ⟨x2, r2⟩ := rd_isSome ((buf.set (d + 0).toNat x0).set (d + 1).toNat x1)
    (s + 2) (by omega) (by simp; omega)
  have w2 := wr_isSome ((buf.set (d + 0).toNat x0).set (d + 1).toNat x1)
    (d + 2) x2 (by omega) (by simp; omega)
  simp only [bind, Option.bind, r0, w0, r1, w1, r2, w2]
  exact ⟨_, rfl⟩

theorem tricpy_self {buf : List Nat} {k : Int} {t : Nat × Nat × Nat}
    (h : rd3 buf k = some t) : tricpy buf k k = some buf := by
  obtain ⟨ha, hb, hc⟩ := rd3_eq_some h
  simp [tricpy, ha, hb, hc, wr_self ha, wr_self hb, wr_self hc]

theorem triswap_eq_some {buf b : List Nat} {x y : Int} (h : triswap buf x y = some b) :
    ∃ t b0, rd3 buf x = some t ∧ tricpy buf x y = some b0 ∧ wr3 b0 y t = some b := by
  unfold triswap at h
  simp only [bind, Option.bind_eq_some] at h
  obtain ⟨t, h0, b0, h1, h2⟩ := h
  exact ⟨t, b0, h0, h1, h2⟩

theorem triswap_length {buf b : List Nat} {x y : Int} (h : triswap buf x y = some b) :
    b.length = buf.length := by
  obtain ⟨t, b0, h0, h1, h2⟩ := triswap_eq_some h
  rw [wr3_length h2, tricpy_length h1]

theorem triswap_subset {buf b : List Nat} {x y : Int} (h : triswap buf x y = some b) :
    b ⊆ buf := by
  obtain ⟨t, b0, h0, h1, h2⟩ := triswap_eq_some h
  obtain ⟨m0, m1, m2⟩ := rd3_mem h0
  intro v hv
  rcases wr3_mem h2 hv with hv | rfl | rfl | rfl
  · exact tricpy_subset h1 hv
  · exact m0
  · exact m1
  · exact m2

theorem triswap_isSome (buf : List Nat) (x y : Int) (hx : 0 ≤ x) (hx2 : x + 2 < buf.length)
    (hy : 0 ≤ y) (hy2 : y + 2 < buf.length) : ∃ b, triswap buf x y = some b := by
  obtain ⟨t, h0⟩ := rd3_isSome hx hx2
  obtain ⟨b0, h1⟩ := tricpy_isSome buf x y hx hx2 hy hy2
  obtain ⟨b, h2⟩ := wr3_isSome b0 y t hy (by rw [tricpy_length h1]; exact hy2)
  exact ⟨b, by simp [triswap, h0, h1, h2]⟩

theorem triswap_self {buf : List Nat} {k : Int} {t : Nat × Nat × Nat}
    (h : rd3 buf k = some t) : triswap buf k k = some buf := by
  simp [triswap, h, tricpy_self h, wr3_self h]



/-! ## Frame properties: what the procedures leave alone -/

theorem trimove_frame {s t : tristate} {j : Int} (h : trimove s j = some t) :
    t.points = s.points ∧ t.npoints = s.npoints ∧ t.r = s.r ∧
      t.indices.length = s.indices.length ∧ t.indices ⊆ s.indices := by
  unfold trimove at h
  split at h
  · simp only [bind, Option.bind_eq_some, pure] at h
    obtain ⟨cv, -, h⟩ := h
    split at h
    · cases h
      simp
    · simp only [Option.bind_eq_some] at h
      obtain ⟨b1, hb1, em, -, h⟩ := h
      split at h
      · simp only [Option.bind_eq_some] at h
        obtain ⟨b2, hb2, h⟩ := h
        cases h
        exact ⟨rfl, rfl, rfl, by simp [triswap_length hb2, triswap_length hb1],
          fun x hx => triswap_subset hb1 (triswap_subset hb2 hx)⟩
      · cases h
        exact ⟨rfl, rfl, rfl, by simp [triswap_length hb1], triswap_subset hb1⟩
  · split at h
    · simp only [bind, Option.bind_eq_some, pure] at h
      obtain ⟨em, -, h⟩ := h
      split at h
      · simp only [Option.bind_eq_some] at h
        obtain ⟨b1, hb1, h⟩ := h
        cases h
        exact ⟨rfl, rfl, rfl, by simp [triswap_length hb1], triswap_subset hb1⟩
      · cases h
        simp
    · simp only [bind, Option.bind_eq_some, pure] at h
      obtain ⟨cv, -, keep, -, h⟩ := h
      split at h
      · cases h
        simp
      · simp only [Option.bind_eq_some] at h
        obtain ⟨b1, hb1, cv2, -, h⟩ := h
        split at h
        · simp only [Option.bind_eq_some] at h
          obtain ⟨b2, hb2, h⟩ := h
          cases h
          exact ⟨rfl, rfl, rfl, by simp [triswap_length hb2, triswap_length hb1],
            fun x hx => triswap_subset hb1 (triswap_subset hb2 hx)⟩
        · cases h
          exact ⟨rfl, rfl, rfl, by simp [triswap_length hb1], triswap_subset hb1⟩

theorem triupdate_frame {s t : tristate} {ear : Nat × Nat × Nat} {i : Int}
    (h : triupdate s ear i = some t) :
    t.points = s.points ∧ t.npoints = s.npoints ∧ t.r = s.r ∧
      t.indices.length = s.indices.length ∧
      ∀ x ∈ t.indices, x ∈ s.indices ∨ x = earAt ear (2 - i) := by
  unfold triupdate at h
  simp only [bind, Option.bind_eq_some] at h
  obtain ⟨j, -, buf, hw, h⟩ := h
  obtain ⟨h1, h2, h3, h4, h5⟩ := trimove_frame h
  exact ⟨h1, h2, h3, by rw [h4]; exact wr_length hw, fun x hx => wr_mem hw (h5 hx)⟩

theorem triremove_frame {s t : tristate} (h : triremove s = some t) :
    t.points = s.points ∧ t.npoints = s.npoints ∧ t.r = s.r + 1 ∧
      t.indices.length = s.indices.length ∧ t.indices ⊆ s.indices := by
  unfold triremove at h
  simp only [bind, Option.bind_eq_some] at h
  obtain ⟨ear, hear, b1, hb1, b2, hb2, b3, hb3, s1, hs1, h⟩ := h
  obtain ⟨p1, n1, r1, l1, m1⟩ := triupdate_frame hs1
  obtain ⟨p2, n2, r2, l2, m2⟩ := triupdate_frame h
  obtain ⟨e0, e1, e2⟩ := rd3_mem hear
  have hsub3 : b3 ⊆ s.indices := by
    intro x hx
    rcases wr3_mem hb3 hx with hx | rfl | rfl | rfl
    · exact tricpy_subset hb1 (tricpy_subset hb2 hx)
    · exact e0
    · exact e1
    · exact e2
  have hear_mem : ∀ k : Int, earAt ear k ∈ s.indices := by
    intro k
    unfold earAt
    split
    · exact e0
    · split
      · exact e1
      · exact e2
  refine ⟨by rw [p2, p1], by rw [n2, n1], by rw [r2, r1], ?_, ?_⟩
  · rw [l2, l1]
    simp only
    rw [wr3_length hb3, tricpy_length hb2, tricpy_length hb1]
  · intro x hx
    rcases m2 x hx with hx | rfl
    · rcases m1 x hx with hx | rfl
      · exact hsub3 hx
      · exact hear_mem _
    · exact hear_mem _

theorem triloop_frame : ∀ (m : Nat) {s t : tristate}, triloop m s = some t →
    s.r ≤ s.npoints - 3 →
    t.points = s.points ∧ t.npoints = s.npoints ∧ t.r = s.npoints - 3 ∧
      t.indices.length = s.indices.length ∧ t.indices ⊆ s.indices
  | 0, s, t, h, hr => by
    unfold triloop at h
    split at h
    · exact absurd h (by simp)
    · cases h
      exact ⟨rfl, rfl, by omega, rfl, fun _ hx => hx⟩
  | m + 1, s, t, h, hr => by
    unfold triloop at h
    split at h
    · simp only [bind, Option.bind_eq_some] at h
      obtain ⟨s1, hs1, h⟩ := h
      obtain ⟨p1, n1, r1, l1, m1⟩ := triremove_frame hs1
      obtain ⟨p2, n2, r2, l2, m2⟩ := triloop_frame m h (by rw [n1, r1]; omega)
      exact ⟨by rw [p2, p1], by rw [n2, n1], by rw [r2, n1], by rw [l2, l1],
        fun x hx => m1 (m2 hx)⟩
    · cases h
      exact ⟨rfl, rfl, by omega, rfl, fun _ hx => hx⟩

theorem tripartitionLoop_frame (f : tristate → Int → Option Bool) :
    ∀ (m : Nat) {s t : tristate} {i l l' : Int}, tripartitionLoop f m s i l = some (t, l') →
    t.points = s.points ∧ t.npoints = s.npoints ∧ t.r = s.r ∧ t.c = s.c ∧ t.e = s.e ∧
      t.indices.length = s.indices.length ∧ t.indices ⊆ s.indices
  | 0, s, t, i, l, l', h => by
    unfold tripartitionLoop at h
    cases h
    exact ⟨rfl, rfl, rfl, rfl, rfl, rfl, fun _ hx => hx⟩
  | m + 1, s, t, i, l, l', h => by
    unfold tripartitionLoop at h
    simp only [bind, Option.bind_eq_some] at h
    obtain ⟨b, -, h⟩ := h
    split at h
    · simp only [Option.bind_eq_some] at h
      obtain ⟨buf, hbuf, h⟩ := h
      obtain ⟨h1, h2, h3, h4, h5, h6, h7⟩ := tripartitionLoop_frame f m h
      exact ⟨h1, h2, h3, h4, h5, by rw [h6]; exact triswap_length hbuf,
        fun x hx => triswap_subset hbuf (h7 hx)⟩
    · exact tripartitionLoop_frame f m h


theorem tripartition_frame {f : tristate → Int → Option Bool} {s t : tristate} {l l' : Int}
    (h : tripartition s l f = some (t, l')) :
    t.points = s.points ∧ t.npoints = s.npoints ∧ t.r = s.r ∧ t.c = s.c ∧ t.e = s.e ∧
      t.indices.length = s.indices.length ∧ t.indices ⊆ s.indices :=
  tripartitionLoop_frame f _ h

theorem tribootstrap_eq_some {pts : Nat → ℚ} {n : Int} {buf : List Nat} {s : tristate}
    (h : tribootstrap pts n buf = some s) :
    ∃ b0 s1 c s2 e, triinit n n.toNat 0 buf = some b0 ∧
      tripartition { points := pts, indices := b0, npoints := n, r := 0, c := 0, e := 0 } 0
        triconvex = some (s1, c) ∧
      tripartition { s1 with c := c } c triempty = some (s2, e) ∧
      s = { s2 with e := e } := by
  unfold tribootstrap at h
  by_cases hmax : 3 * n ≤ INT_MAX
  swap
  · rw [if_neg hmax] at h
    exact absurd h (by simp)
  rw [if_pos hmax] at h
  simp only [bind, Option.bind_eq_some, pure, Option.some.injEq] at h
  obtain ⟨b0, h0, ⟨s1, c⟩, h1, ⟨s2, e⟩, h2, h3⟩ := h
  exact ⟨b0, s1, c, s2, e, h0, h1, h2, h3.symm⟩

theorem tribootstrap_int_max {pts : Nat → ℚ} {n : Int} {buf : List Nat} {s : tristate}
    (h : tribootstrap pts n buf = some s) : 3 * n ≤ INT_MAX := by
  unfold tribootstrap at h
  by_contra hmax
  rw [if_neg hmax] at h
  exact absurd h (by simp)

theorem tribootstrap_fields {pts : Nat → ℚ} {n : Int} {buf : List Nat} {s : tristate}
    (h : tribootstrap pts n buf = some s) :
    s.points = pts ∧ s.npoints = n ∧ s.r = 0 := by
  obtain ⟨b0, s1, c, s2, e, -, h1, h2, rfl⟩ := tribootstrap_eq_some h
  obtain ⟨p1, n1, r1, -⟩ := tripartition_frame h1
  obtain ⟨p2, n2, r2, -⟩ := tripartition_frame h2
  exact ⟨by simp [p2, p1], by simp [n2, n1], by simp [r2, r1]⟩

theorem triangulate_eq_some {pts : Nat → ℚ} {n : Int} {buf : List Nat}
    {res : Int × Option (List Nat)} (hn : 0 < n)
    (h : triangulate (some pts) n (some buf) = some res) :
    3 * n ≤ INT_MAX ∧ ∃ s0 s1, tribootstrap pts n buf = some s0 ∧
      triloop (n - 3).toNat s0 = some s1 ∧ res = (s1.r + 1, some s1.indices) := by
  unfold triangulate at h
  rw [if_neg (by omega)] at h
  simp only at h
  split at h
  · simp only [bind, Option.bind_eq_some, pure, Option.some.injEq] at h
    obtain ⟨s0, h0, s1, h1, h2⟩ := h
    exact ⟨by assumption, s0, s1, h0, h1, h2.symm⟩
  · exact absurd h (by simp)



/-! ## The initialisation loop -/

theorem buf_ext {b b2 : List Nat} (hl : b.length = b2.length)
    (h : ∀ k : Int, 0 ≤ k → k < b.length → rd b k = rd b2 k) : b = b2 := by
  apply List.ext_getElem?
  intro m
  by_cases hm : m < b.length
  · have := h (m : Int) (by omega) (by omega)
    simpa [rd] using this
  · rw [List.getElem?_eq_none (by omega), List.getElem?_eq_none (by omega)]

theorem rd_identityRing_nat (n k : Nat) (h : k < 3 * n) :
    rd (identityRing n) (k : Int) = some (if k % 3 = 0 then (k / 3 + n - 1) % n
      else if k % 3 = 1 then k / 3 else (k / 3 + 1) % n) := by
  unfold rd identityRing
  rw [if_pos (by omega), Int.toNat_ofNat, List.getElem?_map, List.getElem?_range h]
  rfl

theorem rd_identityRing (n : Nat) (j : Int) (h0 : 0 ≤ j) (h1 : j < n) :
    rd (identityRing n) (3 * j) = some ((j - 1 + n) % n).toNat ∧
      rd (identityRing n) (3 * j + 1) = some j.toNat ∧
      rd (identityRing n) (3 * j + 2) = some ((j + 1) % n).toNat := by
  obtain ⟨i, rfl⟩ := Int.eq_ofNat_of_zero_le h0
  have hi : i < n := by omega
  have e0 : 3 * (i : Int) = ((3 * i : Nat) : Int) := by omega
  have e1 : 3 * (i : Int) + 1 = ((3 * i + 1 : Nat) : Int) := by omega
  have e2 : 3 * (i : Int) + 2 = ((3 * i + 2 : Nat) : Int) := by omega
  have d0 : (3 * i) / 3 = i := by omega
  have d1 : (3 * i + 1) / 3 = i := by omega
  have d2 : (3 * i + 2) / 3 = i := by omega
  have m0 : (3 * i) % 3 = 0 := by omega
  have m1 : (3 * i + 1) % 3 = 1 := by omega
  have m2 : (3 * i + 2) % 3 = 2 := by omega
  have c0 : (((i : Int) - 1 + n) % n).toNat = (i + n - 1) % n := by
    have : (i : Int) - 1 + n = ((i + n - 1 : Nat) : Int) := by omega
    rw [this, ← Int.ofNat_emod, Int.toNat_ofNat]
  have c2 : (((i : Int) + 1) % n).toNat = (i + 1) % n := by
    have : (i : Int) + 1 = ((i + 1 : Nat) : Int) := by omega
    rw [this, ← Int.ofNat_emod, Int.toNat_ofNat]
  refine ⟨?_, ?_, ?_⟩
  · rw [e0, rd_identityRing_nat n _ (by omega), if_pos m0, d0, c0]
  · rw [e1, rd_identityRing_nat n _ (by omega), if_neg (by omega), if_pos m1, d1,
      Int.toNat_ofNat]
  · rw [e2, rd_identityRing_nat n _ (by omega), if_neg (by omega), if_neg (by omega), d2, c2]

theorem triinit_spec (n : Int) : ∀ (m : Nat) (i : Int) (buf : List Nat), 0 ≤ i →
    3 * (i + m) ≤ buf.length →
    ∃ b, triinit n m i buf = some b ∧ b.length = buf.length ∧
      (∀ k : Int, k < 3 * i → rd b k = rd buf k) ∧
      (∀ j : Int, i ≤ j → j < i + m →
        rd b (3 * j) = some ((j - 1 + n) % n).toNat ∧ rd b (3 * j + 1) = some j.toNat ∧
          rd b (3 * j + 2) = some ((j + 1) % n).toNat)
  | 0, i, buf, _, _ => ⟨buf, rfl, rfl, fun _ _ => rfl, fun j h1 h2 => by omega⟩
  | m + 1, i, buf, hi, hlen => by
    have w0 := wr_isSome buf (3 * i + 0) ((i - 1 + n) % n).toNat (by omega) (by omega)
    have w1 := wr_isSome (buf.set (3 * i + 0).toNat ((i - 1 + n) % n).toNat) (3 * i + 1)
      i.toNat (by omega) (by simp; omega)
    have w2 := wr_isSome
      ((buf.set (3 * i + 0).toNat ((i - 1 + n) % n).toNat).set (3 * i + 1).toNat i.toNat)
      (3 * i + 2) ((i + 1) % n).toNat (by omega) (by simp; omega)
    obtain ⟨b, hb, hl, hlow, hrec⟩ := triinit_spec n m (i + 1) _ (by omega)
      (by rw [wr_length w2, wr_length w1, wr_length w0]; omega)
    refine ⟨b, ?_, ?_, ?_, ?_⟩
    · unfold triinit
      simp only [bind, Option.bind, w0, w1, w2]
      exact hb
    · rw [hl, wr_length w2, wr_length w1, wr_length w0]
    · intro k hk
      rw [hlow k (by omega), rd_wr w2, rd_wr w1, rd_wr w0]
      rw [if_neg (by omega), if_neg (by omega), if_neg (by omega)]
    · intro j h1 h2
      by_cases hj : j = i
      · subst hj
        refine ⟨?_, ?_, ?_⟩
        · rw [hlow _ (by omega), rd_wr w2, rd_wr w1, rd_wr w0]
          rw [if_neg (by omega), if_neg (by omega), if_pos (by omega)]
        · rw [hlow _ (by omega), rd_wr w2, rd_wr w1]
          rw [if_neg (by omega), if_pos (by omega)]
        · rw [hlow _ (by omega), rd_wr w2]
          rw [if_pos (by omega)]
      · exact hrec j (by omega) (by omega)

theorem triinit_eq (n : Int) (hn : 0 < n) (buf : List Nat) (hlen : (buf.length : Int) = 3 * n) :
    triinit n n.toNat 0 buf = some (identityRing n.toNat) := by
  obtain ⟨b, hb, hl, -, hrec⟩ := triinit_spec n n.toNat 0 buf (by omega) (by omega)
  rw [hb]
  congr 1
  have hlr : (identityRing n.toNat).length = 3 * n.toNat := by simp [identityRing]
  apply buf_ext (by rw [hl, hlr]; omega)
  intro k h0 h1
  have hk : k = 3 * (k / 3) + k % 3 := by omega
  have hj0 : 0 ≤ k / 3 := by omega
  have hj1 : k / 3 < n := by omega
  obtain ⟨r0, r1, r2⟩ := hrec (k / 3) (by omega) (by omega)
  obtain ⟨i0, i1, i2⟩ := rd_identityRing n.toNat (k / 3) hj0 (by omega)
  have hcast : ((n.toNat : Nat) : Int) = n := by omega
  rw [hcast] at i0 i2
  have hm : k % 3 = 0 ∨ k % 3 = 1 ∨ k % 3 = 2 := by omega
  rcases hm with hm | hm | hm
  · rw [hk, hm, add_zero, r0, i0]
  · rw [hk, hm, r1, i1]
  · rw [hk, hm, r2, i2]

theorem identityRing_length (n : Nat) : (identityRing n).length = 3 * n := by
  simp [identityRing]

theorem identityRing_allLt (n : Nat) : AllLt n (identityRing n) := by
  intro x hx
  simp only [identityRing, List.mem_map, List.mem_range] at hx
  obtain ⟨k, hk, rfl⟩ := hx
  have hn : 0 < n := by omega
  split
  · exact_mod_cast Nat.mod_lt _ hn
  · split
    · have : k / 3 < n := by omega
      exact_mod_cast this
    · exact_mod_cast Nat.mod_lt _ hn


/-! ## The bootstrap never leaves the buffer -/

theorem triconvex_isSome (s : tristate) (i : Int) (h0 : 0 ≤ i)
    (h1 : 3 * i + 2 < s.indices.length) : ∃ b, triconvex s i = some b := by
  obtain ⟨a, ha⟩ := rd_isSome s.indices (3 * i + 1) (by omega) (by omega)
  obtain ⟨b, hb⟩ := rd_isSome s.indices (3 * i + 0) (by omega) (by omega)
  obtain ⟨c, hc⟩ := rd_isSome s.indices (3 * i + 2) (by omega) (by omega)
  unfold triconvex
  simp only [bind, Option.bind, ha, hb, hc, pure]
  exact ⟨_, rfl⟩

theorem triemptyScan_isSome (s : tristate) (ia ib ic : Nat) :
    ∀ (m : Nat) (j : Int), 0 ≤ j → j + 3 * m ≤ s.indices.length →
      ∃ b, triemptyScan s ia ib ic m j = some b
  | 0, _, _, _ => ⟨true, rfl⟩
  | m + 1, j, h0, h1 => by
    obtain ⟨x, hx⟩ := rd_isSome s.indices (j + 1) (by omega) (by omega)
    obtain ⟨b, hb⟩ := triemptyScan_isSome s ia ib ic m (j + 3) (by omega) (by omega)
    unfold triemptyScan
    simp only [bind, Option.bind, hx, hb]
    split
    · exact ⟨_, rfl⟩
    · split
      · exact ⟨_, rfl⟩
      · exact ⟨_, rfl⟩

theorem triempty_isSome (s : tristate) (i : Int) (h0 : 0 ≤ i)
    (h1 : 3 * i + 2 < s.indices.length) (hr : 0 ≤ s.r) (hrc : s.r ≤ s.c)
    (hc : 3 * s.c ≤ s.indices.length) : ∃ b, triempty s i = some b := by
  obtain ⟨a, ha⟩ := rd_isSome s.indices (3 * i + 0) (by omega) (by omega)
  obtain ⟨b, hb⟩ := rd_isSome s.indices (3 * i + 1) (by omega) (by omega)
  obtain ⟨c, hc⟩ := rd_isSome s.indices (3 * i + 2) (by omega) (by omega)
  obtain ⟨r, hr⟩ := triemptyScan_isSome s a b c (s.c - s.r).toNat (3 * s.r) (by omega)
    (by omega)
  unfold triempty
  simp only [bind, Option.bind, ha, hb, hc, hr]
  exact ⟨_, rfl⟩

theorem tripartitionLoop_isSome (f : tristate → Int → Option Bool) (len : Nat) (r c : Int)
    (hf : ∀ (s : tristate) (i : Int), s.indices.length = len → s.r = r → s.c = c →
      0 ≤ i →
      3 * i + 2 < len → ∃ b, f s i = some b) :
    ∀ (m : Nat) (s : tristate) (i l : Int), s.indices.length = len → s.r = r → s.c = c →
      0 ≤ l → l ≤ i → 3 * (i + m) ≤ len →
      ∃ t l2, tripartitionLoop f m s i l = some (t, l2) ∧ l ≤ l2 ∧ l2 - l ≤ m
  | 0, s, i, l, _, _, _, _, _, _ => ⟨s, l, rfl, le_refl _, by omega⟩
  | m + 1, s, i, l, hl, hr, hc, h0, h1, h2 => by
    obtain ⟨b, hb⟩ := hf s i hl hr hc (by omega) (by omega)
    unfold tripartitionLoop
    simp only [bind, Option.bind, hb]
    cases b
    · obtain ⟨buf, hbuf⟩ := triswap_isSome s.indices (3 * i) (3 * l)
        (by omega) (by omega) (by omega) (by omega)
      obtain ⟨t, l2, ht, g1, g2⟩ := tripartitionLoop_isSome f len r c hf m
        { s with indices := buf } (i + 1) (l + 1) (by simp [triswap_length hbuf, hl]) hr hc
        (by omega) (by omega) (by omega)
      simp only [Bool.not_false, if_true, hbuf]
      exact ⟨t, l2, ht, by omega, by omega⟩
    · obtain ⟨t, l2, ht, g1, g2⟩ := tripartitionLoop_isSome f len r c hf m s (i + 1) l hl hr hc
        h0 (by omega) (by omega)
      simp only [Bool.not_true, Bool.false_eq_true, if_false]
      exact ⟨t, l2, ht, g1, by omega⟩

theorem tribootstrap_isSome (pts : Nat → ℚ) (n : Int) (buf : List Nat) (hn : 1 ≤ n)
    (hmax : 3 * n ≤ INT_MAX) (hlen : (buf.length : Int) = 3 * n) :
    ∃ s, tribootstrap pts n buf = some s ∧ s.points = pts ∧ s.npoints = n ∧ s.r = 0 ∧
      0 ≤ s.c ∧ s.c ≤ s.e ∧ s.e ≤ n ∧ (s.indices.length : Int) = 3 * n ∧
      s.indices ⊆ identityRing n.toNat := by
  have hinit := triinit_eq n (by omega) buf hlen
  have hrl : ((identityRing n.toNat).length : Int) = 3 * n := by
    rw [identityRing_length]
    omega
  obtain ⟨s1, c, h1, c0, c1⟩ := tripartitionLoop_isSome triconvex (identityRing n.toNat).length
    0 0 (fun s i hl _ _ h0 h1 => triconvex_isSome s i h0 (by omega)) (n - 0).toNat
    { points := pts, indices := identityRing n.toNat, npoints := n, r := 0, c := 0, e := 0 }
    0 0 rfl rfl rfl (le_refl _) (le_refl _) (by omega)
  obtain ⟨p1, n1, r1, -, -, l1, m1⟩ := tripartitionLoop_frame _ _ h1
  have n1 : s1.npoints = n := n1
  obtain ⟨s2, e, h2, e0, e1⟩ := tripartitionLoop_isSome triempty (identityRing n.toNat).length
    0 c (fun s i hl hr hc h0 h1 =>
      triempty_isSome s i h0 (by omega) (by omega) (by omega) (by omega))
    (s1.npoints - c).toNat { s1 with c := c } c c l1 r1 rfl c0 (le_refl _) (by omega)
  obtain ⟨p2, n2, r2, c2, -, l2, m2⟩ := tripartitionLoop_frame _ _ h2
  refine ⟨{ s2 with e := e }, ?_, ?_, ?_, ?_, ?_, ?_, ?_, ?_, ?_⟩
  · unfold tribootstrap tripartition
    rw [if_pos hmax]
    simp only [bind, Option.bind, hinit, h1, h2, pure]
  · simp [p2, p1]
  · simp [n2, n1]
  · simp [r2, r1]
  · simp [c2, c0]
  · simp [c2, e0]
  · simp only
    omega
  · simp only [l2, l1]
    exact hrl
  · exact fun x hx => m1 (m2 hx)


/-! ## Swaps act on whole records -/

theorem triswap_rd {buf b : List Nat} {x y : Int} (h : triswap buf x y = some b)
    (hxy : x = y ∨ x + 3 ≤ y ∨ y + 3 ≤ x) (k : Int) :
    rd b k = if y ≤ k ∧ k < y + 3 then rd buf (k - y + x)
      else if x ≤ k ∧ k < x + 3 then rd buf (k - x + y) else rd buf k := by
  obtain ⟨t, b0, ht, hcpy, hw3⟩ := triswap_eq_some h
  obtain ⟨t0, t1, t2⟩ := rd3_eq_some ht
  obtain ⟨x0, b1, x1, b2, x2, r0, w0, r1, w1, r2, w2⟩ := tricpy_eq_some hcpy
  obtain ⟨c0, c1, v0, v1, v2⟩ := wr3_eq_some hw3
  rw [rd_wr w0, if_neg (by omega)] at r1
  rw [rd_wr w1, if_neg (by omega), rd_wr w0, if_neg (by omega)] at r2
  rw [rd_wr v2, rd_wr v1, rd_wr v0, rd_wr w2, rd_wr w1, rd_wr w0]
  by_cases h1 : k = y + 2
  · rw [if_pos h1, if_pos (show y ≤ k ∧ k < y + 3 by omega), ← t2]
    congr 1
    omega
  rw [if_neg h1]
  by_cases h2 : k = y + 1
  · rw [if_pos h2, if_pos (show y ≤ k ∧ k < y + 3 by omega), ← t1]
    congr 1
    omega
  rw [if_neg h2]
  by_cases h3 : k = y
  · rw [if_pos h3, if_pos (show y ≤ k ∧ k < y + 3 by omega), ← t0]
    congr 1
    omega
  rw [if_neg h3, if_neg (show ¬(y ≤ k ∧ k < y + 3) by omega)]
  by_cases h4 : k = x + 2
  · rw [if_pos h4, if_pos (show x ≤ k ∧ k < x + 3 by omega), ← r2]
    congr 1
    omega
  rw [if_neg h4]
  by_cases h5 : k = x + 1
  · rw [if_pos h5, if_pos (show x ≤ k ∧ k < x + 3 by omega), ← r1]
    congr 1
    omega
  rw [if_neg h5]
  by_cases h6 : k = x
  · rw [if_pos h6, if_pos (show x ≤ k ∧ k < x + 3 by omega), ← r0]
    congr 1
    omega
  rw [if_neg h6, if_neg (show ¬(x ≤ k ∧ k < x + 3) by omega)]

theorem rd3_congr {b buf : List Nat} {k j : Int} (h0 : rd b k = rd buf j)
    (h1 : rd b (k + 1) = rd buf (j + 1)) (h2 : rd b (k + 2) = rd buf (j + 2)) :
    rd3 b k = rd3 buf j := by
  unfold rd3
  simp only [add_zero, h0, h1, h2]

theorem triswap_rd3 {buf b : List Nat} {i l : Int} (h : triswap buf (3 * i) (3 * l) = some b)
    (k : Int) :
    rd3 b (3 * k) = if k = l then rd3 buf (3 * i) else if k = i then rd3 buf (3 * l)
      else rd3 buf (3 * k) := by
  have hxy : 3 * i = 3 * l ∨ 3 * i + 3 ≤ 3 * l ∨ 3 * l + 3 ≤ 3 * i := by omega
  have key := triswap_rd h hxy
  by_cases h1 : k = l
  · rw [if_pos h1]
    apply rd3_congr
    · rw [key, if_pos (show 3 * l ≤ 3 * k ∧ 3 * k < 3 * l + 3 by omega)]
      congr 1
      omega
    · rw [key, if_pos (show 3 * l ≤ 3 * k + 1 ∧ 3 * k + 1 < 3 * l + 3 by omega)]
      congr 1
      omega
    · rw [key, if_pos (show 3 * l ≤ 3 * k + 2 ∧ 3 * k + 2 < 3 * l + 3 by omega)]
      congr 1
      omega
  rw [if_neg h1]
  by_cases h2 : k = i
  · rw [if_pos h2]
    apply rd3_congr
    · rw [key, if_neg (show ¬(3 * l ≤ 3 * k ∧ 3 * k < 3 * l + 3) by omega),
        if_pos (show 3 * i ≤ 3 * k ∧ 3 * k < 3 * i + 3 by omega)]
      congr 1
      omega
    · rw [key, if_neg (show ¬(3 * l ≤ 3 * k + 1 ∧ 3 * k + 1 < 3 * l + 3) by omega),
        if_pos (show 3 * i ≤ 3 * k + 1 ∧ 3 * k + 1 < 3 * i + 3 by omega)]
      congr 1
      omega
    · rw [key, if_neg (show ¬(3 * l ≤ 3 * k + 2 ∧ 3 * k + 2 < 3 * l + 3) by omega),
        if_pos (show 3 * i ≤ 3 * k + 2 ∧ 3 * k + 2 < 3 * i + 3 by omega)]
      congr 1
      omega
  rw [if_neg h2]
  apply rd3_congr
  · rw [key, if_neg (show ¬(3 * l ≤ 3 * k ∧ 3 * k < 3 * l + 3) by omega),
      if_neg (show ¬(3 * i ≤ 3 * k ∧ 3 * k < 3 * i + 3) by omega)]
  · rw [key, if_neg (show ¬(3 * l ≤ 3 * k + 1 ∧ 3 * k + 1 < 3 * l + 3) by omega),
      if_neg (show ¬(3 * i ≤ 3 * k + 1 ∧ 3 * k + 1 < 3 * i + 3) by omega)]
  · rw [key, if_neg (show ¬(3 * l ≤ 3 * k + 2 ∧ 3 * k + 2 < 3 * l + 3) by omega),
      if_neg (show ¬(3 * i ≤ 3 * k + 2 ∧ 3 * k + 2 < 3 * i + 3) by omega)]

theorem RecPerm.refl (n : Int) (src : List Nat) : RecPerm n src src :=
  ⟨Equiv.refl _, fun _ _ => rfl, fun _ _ _ => rfl⟩

theorem RecPerm.maps_into {n : Int} {σ : Equiv.Perm Int}
    (hfix : ∀ k, (k < 0 ∨ n ≤ k) → σ k = k) {k : Int} (h0 : 0 ≤ k) (h1 : k < n) :
    0 ≤ σ k ∧ σ k < n := by
  by_contra hcon
  have hout : σ k < 0 ∨ n ≤ σ k := by omega
  have := hfix (σ k) hout
  have := σ.injective this
  omega

theorem RecPerm.swap {n : Int} {src buf b : List Nat} {i l : Int} (hp : RecPerm n src buf)
    (h : triswap buf (3 * i) (3 * l) = some b) (hi0 : 0 ≤ i) (hi1 : i < n) (hl0 : 0 ≤ l)
    (hl1 : l < n) : RecPerm n src b := by
  obtain ⟨σ, hfix, hrec⟩ := hp
  refine ⟨(Equiv.swap i l).trans σ, ?_, ?_⟩
  · intro k hk
    have : Equiv.swap i l k = k := Equiv.swap_apply_of_ne_of_ne (by omega) (by omega)
    simp only [Equiv.trans_apply, this]
    exact hfix k hk
  · intro k k0 k1
    rw [triswap_rd3 h k]
    simp only [Equiv.trans_apply]
    by_cases h1 : k = l
    · rw [if_pos h1, h1, Equiv.swap_apply_right]
      exact hrec i hi0 hi1
    rw [if_neg h1]
    by_cases h2 : k = i
    · rw [if_pos h2, h2, Equiv.swap_apply_left]
      exact hrec l hl0 hl1
    rw [if_neg h2, Equiv.swap_apply_of_ne_of_ne h2 h1]
    exact hrec k k0 k1

theorem tripartitionLoop_perm (f : tristate → Int → Option Bool) (n : Int) (src : List Nat) :
    ∀ (m : Nat) (s t : tristate) (i l l2 : Int), tripartitionLoop f m s i l = some (t, l2) →
      0 ≤ l → l ≤ i → i + m ≤ n → RecPerm n src s.indices → RecPerm n src t.indices
  | 0, s, t, i, l, l2, h, _, _, _, hp => by
    unfold tripartitionLoop at h
    cases h
    exact hp
  | m + 1, s, t, i, l, l2, h, h0, h1, h2, hp => by
    unfold tripartitionLoop at h
    simp only [bind, Option.bind_eq_some] at h
    obtain ⟨b, -, h⟩ := h
    split at h
    · simp only [Option.bind_eq_some] at h
      obtain ⟨buf, hbuf, h⟩ := h
      exact tripartitionLoop_perm f n src m _ t (i + 1) (l + 1) l2 h (by omega) (by omega)
        (by omega) (hp.swap hbuf (by omega) (by omega) h0 (by omega))
    · exact tripartitionLoop_perm f n src m s t (i + 1) l l2 h h0 (by omega) (by omega) hp

theorem tribootstrap_perm {pts : Nat → ℚ} {n : Int} {buf : List Nat} {s : tristate}
    (hn : 1 ≤ n) (hlen : (buf.length : Int) = 3 * n) (h : tribootstrap pts n buf = some s) :
    RecPerm n (identityRing n.toNat) s.indices := by
  obtain ⟨s', hs', -, -, -, hc, hce, he, -, -⟩ :=
    tribootstrap_isSome pts n buf hn (tribootstrap_int_max h) hlen
  rw [h] at hs'
  cases hs'
  obtain ⟨b0, s1, c, s2, e, h0, h1, h2, rfl⟩ := tribootstrap_eq_some h
  rw [triinit_eq n (by omega) buf hlen] at h0
  cases h0
  have h1 : tripartitionLoop triconvex (n - 0).toNat
      { points := pts, indices := identityRing n.toNat, npoints := n, r := 0, c := 0, e := 0 }
      0 0 = some (s1, c) := h1
  have p1 := tripartitionLoop_perm triconvex n (identityRing n.toNat) _ _ _ _ _ _ h1
    (le_refl _) (le_refl _) (by omega) (RecPerm.refl _ _)
  obtain ⟨-, n1, -, -, -, -, -⟩ := tripartitionLoop_frame _ _ h1
  have n1 : s1.npoints = n := n1
  have h2 : tripartitionLoop triempty (s1.npoints - c).toNat { s1 with c := c } c c =
      some (s2, e) := h2
  obtain ⟨-, -, -, c2, -, -, -⟩ := tripartitionLoop_frame _ _ h2
  have c2 : s2.c = c := c2
  have hc : 0 ≤ s2.c := hc
  have hce : s2.c ≤ e := hce
  have he : e ≤ n := he
  show RecPerm n (identityRing n.toNat) s2.indices
  exact tripartitionLoop_perm triempty n (identityRing n.toNat) _ _ _ _ _ _ h2 (by omega)
    (le_refl _) (by omega) p1

theorem tribootstrap_total (pts : Nat → ℚ) (n : Int) (buf : List Nat) (hn : 1 ≤ n)
    (hmax : 3 * n ≤ INT_MAX) (hlen : 3 * n ≤ buf.length) :
    ∃ b0 s, triinit n n.toNat 0 buf = some b0 ∧
      (∀ j : Int, 0 ≤ j → j < n →
        rd3 b0 (3 * j) = some (((j - 1 + n) % n).toNat, j.toNat, ((j + 1) % n).toNat)) ∧
      tribootstrap pts n buf = some s ∧ s.npoints = n ∧ s.r = 0 ∧ RecPerm n b0 s.indices := by
  obtain ⟨b0, hb, hl, -, hrec⟩ := triinit_spec n n.toNat 0 buf (le_refl _) (by omega)
  have hl0 : 3 * n ≤ (b0.length : Int) := by omega
  obtain ⟨s1, c, h1, c0, c1⟩ := tripartitionLoop_isSome triconvex b0.length
    0 0 (fun s i hl _ _ h0 h1 => triconvex_isSome s i h0 (by omega)) (n - 0).toNat
    { points := pts, indices := b0, npoints := n, r := 0, c := 0, e := 0 }
    0 0 rfl rfl rfl (le_refl _) (le_refl _) (by omega)
  obtain ⟨-, n1, r1, -, -, l1, -⟩ := tripartitionLoop_frame _ _ h1
  have n1 : s1.npoints = n := n1
  have p1 := tripartitionLoop_perm triconvex n b0 _ _ _ _ _ _ h1
    (le_refl _) (le_refl _) (by omega) (RecPerm.refl _ _)
  obtain ⟨s2, e, h2, e0, e1⟩ := tripartitionLoop_isSome triempty b0.length
    0 c (fun s i hl hr hc h0 h1 =>
      triempty_isSome s i h0 (by omega) (by omega) (by omega) (by omega))
    (s1.npoints - c).toNat { s1 with c := c } c c l1 r1 rfl c0 (le_refl _) (by omega)
  obtain ⟨-, n2, r2, -, -, -, -⟩ := tripartitionLoop_frame _ _ h2
  have p2 := tripartitionLoop_perm triempty n b0 _ _ _ _ _ _ h2 c0 (le_refl _) (by omega) p1
  refine ⟨b0, { s2 with e := e }, hb, ?_, ?_, ?_, ?_, p2⟩
  · intro j j0 j1
    obtain ⟨g0, g1, g2⟩ := hrec j (by omega) (by omega)
    exact rd3_of_rd g0 g1 g2
  · unfold tribootstrap tripartition
    rw [if_pos hmax]
    simp only [bind, Option.bind, hb, h1, h2, pure]
  · simp [n2, n1]
  · simp [r2, r1]


/-! ## Convex polygons: the fan triangulation -/

theorem cross_rotate (pts : Nat → ℚ) (a b c : Nat) : cross pts a b c = cross pts b c a := by
  unfold cross
  ring

theorem LeftTurn.rotate {pts : Nat → ℚ} {a b c : Nat} (h : LeftTurn pts a b c) :
    LeftTurn pts b c a := by
  unfold LeftTurn at *
  rw [← cross_rotate]
  exact h

theorem triconvex_eq {s : tristate} {i : Int} {a b c : Nat}
    (h : rd3 s.indices (3 * i) = some (a, b, c)) :
    triconvex s i = some (decide (LeftTurn s.points a b c)) := by
  obtain ⟨h0, h1, h2⟩ := rd3_eq_some h
  unfold triconvex
  simp only [add_zero, bind, Option.bind, h0, h1, h2, pure]
  congr 1
  rw [decide_eq_decide]
  unfold LeftTurn cross
  constructor
  · intro hgt
    have hgt : 0 < (s.points (2 * c) - s.points (2 * b)) * (s.points (2 * a + 1) -
        s.points (2 * b + 1)) - (s.points (2 * a) - s.points (2 * b)) *
        (s.points (2 * c + 1) - s.points (2 * b + 1)) := hgt
    linarith
  · intro hgt
    show 0 < (s.points (2 * c) - s.points (2 * b)) * (s.points (2 * a + 1) -
        s.points (2 * b + 1)) - (s.points (2 * a) - s.points (2 * b)) *
        (s.points (2 * c + 1) - s.points (2 * b + 1))
    linarith

theorem triempty_empty_zone {s : tristate} {i : Int} {t : Nat × Nat × Nat}
    (h : rd3 s.indices (3 * i) = some t) (hz : s.c ≤ s.r) : triempty s i = some true := by
  obtain ⟨h0, h1, h2⟩ := rd3_eq_some h
  have hm : (s.c - s.r).toNat = 0 := by omega
  unfold triempty
  simp only [add_zero, bind, Option.bind, h0, h1, h2, hm]
  rfl

theorem tripartitionLoop_all_true (f : tristate → Int → Option Bool) (s : tristate) :
    ∀ (m : Nat) (i l : Int), (∀ j, i ≤ j → j < i + m → f s j = some true) →
      tripartitionLoop f m s i l = some (s, l)
  | 0, _, _, _ => rfl
  | m + 1, i, l, h => by
    unfold tripartitionLoop
    simp only [bind, Option.bind, h i (le_refl _) (by omega), Bool.not_true,
      Bool.false_eq_true, if_false]
    exact tripartitionLoop_all_true f s m (i + 1) l
      (fun j h1 h2 => h j (by omega) (by omega))

theorem trimove_keep {s : tristate} {j : Int} (hc : s.c ≤ j) (he : s.e ≤ j)
    (hcv : triconvex s j = some true) (hem : triempty s j = some true) :
    trimove s j = some s := by
  unfold trimove
  rw [if_neg (by omega), if_neg (by omega)]
  simp only [bind, Option.bind, hcv, if_true, hem, pure]

theorem trifind_eq (s : tristate) (v : Nat) :
    ∀ (m j0 : Nat),
      (∀ j : Nat, j0 ≤ j → j < j0 + m → rd s.indices (3 * (j : Int) + 1) = some j) →
      j0 ≤ v → v < j0 + m → trifind s v m (j0 : Int) = some (v : Int)
  | 0, j0, _, h1, h2 => by omega
  | m + 1, j0, h, h1, h2 => by
    unfold trifind
    simp only [bind, Option.bind, h j0 (le_refl _) (by omega)]
    by_cases e : j0 = v
    · rw [if_pos e, e]
    · rw [if_neg e]
      have := trifind_eq s v m (j0 + 1) (fun j g1 g2 => h j (by omega) (by omega)) (by omega)
        (by omega)
      rw [← this]
      congr 1

theorem rd_fanBuf_nat (n r k : Nat) (h : k < 3 * n) :
    rd (fanBuf n r) (k : Int) = some (if k % 3 = 0 then (if k / 3 ≤ r then n - 1 else k / 3 - 1)
      else if k % 3 = 1 then k / 3
      else (if k / 3 < r then k / 3 + 1 else if k / 3 = n - 1 then r else k / 3 + 1)) := by
  unfold rd fanBuf
  rw [if_pos (by omega), Int.toNat_ofNat, List.getElem?_map, List.getElem?_range h]
  rfl

theorem fanBuf_length (n r : Nat) : (fanBuf n r).length = 3 * n := by
  simp [fanBuf]

theorem rd3_fanBuf (n r i : Nat) (h : i < n) :
    rd3 (fanBuf n r) (3 * (i : Int)) = some (if i ≤ r then n - 1 else i - 1, i,
      if i < r then i + 1 else if i = n - 1 then r else i + 1) := by
  have e0 : 3 * (i : Int) = ((3 * i : Nat) : Int) := by omega
  have e1 : 3 * (i : Int) + 1 = ((3 * i + 1 : Nat) : Int) := by omega
  have e2 : 3 * (i : Int) + 2 = ((3 * i + 2 : Nat) : Int) := by omega
  have d0 : (3 * i) / 3 = i := by omega
  have d1 : (3 * i + 1) / 3 = i := by omega
  have d2 : (3 * i + 2) / 3 = i := by omega
  have m0 : (3 * i) % 3 = 0 := by omega
  have m1 : (3 * i + 1) % 3 = 1 := by omega
  have m2 : (3 * i + 2) % 3 = 2 := by omega
  apply rd3_of_rd
  · rw [e0, rd_fanBuf_nat n r _ (by omega), if_pos m0, d0]
  · rw [e1, rd_fanBuf_nat n r _ (by omega), if_neg (by omega), if_pos m1, d1]
  · rw [e2, rd_fanBuf_nat n r _ (by omega), if_neg (by omega), if_neg (by omega), d2]

theorem fanBuf_zero (n : Nat) (hn : 0 < n) : fanBuf n 0 = identityRing n := by
  unfold fanBuf identityRing
  apply List.map_congr_left
  intro k hk
  rw [List.mem_range] at hk
  have hi : k / 3 < n := by omega
  generalize k / 3 = i at hi
  by_cases h0 : k % 3 = 0
  · rw [if_pos h0, if_pos h0]
    by_cases hz : i = 0
    · subst hz
      rw [if_pos (le_refl _)]
      have : 0 + n - 1 = n - 1 := by omega
      rw [this, Nat.mod_eq_of_lt (by omega)]
    · rw [if_neg (by omega)]
      have : i + n - 1 = (i - 1) + 1 * n := by omega
      rw [this, Nat.add_mul_mod_self_right, Nat.mod_eq_of_lt (by omega)]
  · rw [if_neg h0, if_neg h0]
    by_cases h1 : k % 3 = 1
    · rw [if_pos h1, if_pos h1]
    · rw [if_neg h1, if_neg h1, if_neg (by omega)]
      by_cases hl : i = n - 1
      · rw [if_pos hl, hl]
        have : n - 1 + 1 = n := by omega
        rw [this, Nat.mod_self]
      · rw [if_neg hl, Nat.mod_eq_of_lt (by omega)]


theorem fan_relink (n r : Nat) (hr : r + 3 < n) (b1 b2 : List Nat)
    (w1 : wr (fanBuf n r) (3 * ((n - 1 : Nat) : Int) + 2) (r + 1) = some b1)
    (w2 : wr b1 (3 * ((r + 1 : Nat) : Int)) (n - 1) = some b2) :
    b2 = fanBuf n (r + 1) := by
  have hl : b2.length = (fanBuf n (r + 1)).length := by
    rw [wr_length w2, wr_length w1, fanBuf_length, fanBuf_length]
  apply buf_ext hl
  intro k k0 k1
  rw [hl, fanBuf_length] at k1
  obtain ⟨m, rfl⟩ := Int.eq_ofNat_of_zero_le k0
  have hm : m < 3 * n := by omega
  rw [rd_wr w2, rd_wr w1, rd_fanBuf_nat n r m hm, rd_fanBuf_nat n (r + 1) m hm]
  by_cases e1 : (m : Int) = 3 * ((r + 1 : Nat) : Int)
  · rw [if_pos e1]
    have : m = 3 * (r + 1) := by omega
    subst this
    rw [if_pos (by omega), if_pos (by omega)]
  rw [if_neg e1]
  by_cases e2 : (m : Int) = 3 * ((n - 1 : Nat) : Int) + 2
  · rw [if_pos e2]
    have : m = 3 * (n - 1) + 2 := by omega
    subst this
    rw [if_neg (by omega), if_neg (by omega), if_neg (by omega), if_pos (by omega)]
  rw [if_neg e2]
  congr 1
  have hne1 : m ≠ 3 * (r + 1) := by omega
  have hne2 : m ≠ 3 * (n - 1) + 2 := by omega
  split_ifs <;> omega

theorem triremove_fan (pts : Nat → ℚ) (n r : Nat) (hr : r + 3 < n)
    (hconv : ∀ i j k : Nat, i < j → j < k → k < n → LeftTurn pts i j k) :
    triremove (fanState pts n r) = some (fanState pts n (r + 1)) := by
  have hear : rd3 (fanBuf n r) (3 * (r : Int)) = some (n - 1, r, r + 1) := by
    rw [rd3_fanBuf n r r (by omega), if_pos (le_refl _), if_neg (by omega), if_neg (by omega)]
  have hcast : (r : Int) + 1 = ((r + 1 : Nat) : Int) := by omega
  have hlen : (fanBuf n r).length = 3 * n := fanBuf_length n r
  have w1 := wr_isSome (fanBuf n r) (3 * ((n - 1 : Nat) : Int) + 2) (r + 1) (by omega)
    (by omega)
  have w2 := wr_isSome ((fanBuf n r).set (3 * ((n - 1 : Nat) : Int) + 2).toNat (r + 1))
    (3 * ((r + 1 : Nat) : Int)) (n - 1) (by omega) (by rw [List.length_set]; omega)
  have hb2 := fan_relink n r hr _ _ w1 w2
  rw [hb2] at w2
  generalize hb1 : (fanBuf n r).set (3 * ((n - 1 : Nat) : Int) + 2).toNat (r + 1) = b1 at w1 w2
  -- the scan for vertex `n - 1`
  have f1 : trifind
      { points := pts, indices := fanBuf n r, npoints := n, r := r + 1, c := r + 1, e := r + 1 }
      (n - 1) ((n : Int) - ((r : Int) + 1)).toNat ((r : Int) + 1) =
      some ((n - 1 : Nat) : Int) := by
    have hm : ((n : Int) - ((r : Int) + 1)).toNat = n - (r + 1) := by omega
    rw [hm, hcast]
    apply trifind_eq _ _ _ _ _ (by omega) (by omega)
    intro j _ hj
    have := rd3_eq_some (rd3_fanBuf n r j (by omega))
    exact this.2.1
  -- record `n - 1` after relinking
  have g1 : rd3 b1 (3 * ((n - 1 : Nat) : Int)) = some (n - 2, n - 1, r + 1) := by
    have := rd3_eq_some (rd3_fanBuf n r (n - 1) (by omega))
    apply rd3_of_rd
    · rw [rd_wr w1, if_neg (by omega), this.1, if_neg (by omega)]
      congr 1
    · rw [rd_wr w1, if_neg (by omega), this.2.1]
    · rw [rd_wr w1, if_pos rfl]
  -- the scan for vertex `r + 1`
  have f2 : trifind
      { points := pts, indices := b1, npoints := n, r := r + 1, c := r + 1, e := r + 1 }
      (r + 1) ((n : Int) - ((r : Int) + 1)).toNat ((r : Int) + 1) =
      some ((r + 1 : Nat) : Int) := by
    have hm : ((n : Int) - ((r : Int) + 1)).toNat = n - (r + 1) := by omega
    rw [hm, hcast]
    apply trifind_eq _ _ _ _ _ (by omega) (by omega)
    intro j _ hj
    have := rd3_eq_some (rd3_fanBuf n r j (by omega))
    show rd b1 (3 * (j : Int) + 1) = some j
    rw [rd_wr w1, if_neg (by omega)]
    exact this.2.1
  -- record `r + 1` after relinking
  have g2 : rd3 (fanBuf n (r + 1)) (3 * ((r + 1 : Nat) : Int)) = some (n - 1, r + 1, r + 2) := by
    rw [rd3_fanBuf n (r + 1) (r + 1) (by omega), if_pos (le_refl _), if_neg (by omega),
      if_neg (by omega)]
  have t1 : LeftTurn pts (n - 2) (n - 1) (r + 1) :=
    (hconv (r + 1) (n - 2) (n - 1) (by omega) (by omega) (by omega)).rotate
  have t2 : LeftTurn pts (n - 1) (r + 1) (r + 2) :=
    (hconv (r + 1) (r + 2) (n - 1) (by omega) (by omega) (by omega)).rotate.rotate
  have m1 : trimove
      { points := pts, indices := b1, npoints := n, r := r + 1, c := r + 1, e := r + 1 }
      ((n - 1 : Nat) : Int) = some
      { points := pts, indices := b1, npoints := n, r := r + 1, c := r + 1, e := r + 1 } := by
    apply trimove_keep
    · show (r : Int) + 1 ≤ ((n - 1 : Nat) : Int)
      omega
    · show (r : Int) + 1 ≤ ((n - 1 : Nat) : Int)
      omega
    · rw [triconvex_eq g1]
      simp only [t1, decide_True]
    · exact triempty_empty_zone g1 (le_refl _)
  have m2 : trimove
    { points := pts, indices := fanBuf n (r + 1), npoints := n, r := r + 1, c := r + 1, e := r + 1 }
      ((r + 1 : Nat) : Int) = some
    { points := pts, indices := fanBuf n (r + 1), npoints := n, r := r + 1, c := r + 1, e := r + 1 }
      := by
    apply trimove_keep
    · show (r : Int) + 1 ≤ ((r + 1 : Nat) : Int)
      omega
    · show (r : Int) + 1 ≤ ((r + 1 : Nat) : Int)
      omega
    · rw [triconvex_eq g2]
      simp only [t2, decide_True]
    · exact triempty_empty_zone g2 (le_refl _)
  have hw1 : wr (fanBuf n r) (3 * ((n - 1 : Nat) : Int) + 2 - 0) (r + 1) = some b1 := by
    rw [sub_zero]
    exact w1
  have hw2 : wr b1 (3 * ((r + 1 : Nat) : Int) + 2 - 2) (n - 1) = some (fanBuf n (r + 1)) := by
    rw [add_sub_cancel_right]
    exact w2
  have ea0 : earAt (n - 1, r, r + 1) 0 = n - 1 := rfl
  have ea2 : earAt (n - 1, r, r + 1) 2 = r + 1 := rfl
  have ea20 : earAt (n - 1, r, r + 1) (2 - 0) = r + 1 := rfl
  have ea22 : earAt (n - 1, r, r + 1) (2 - 2) = n - 1 := rfl
  unfold triremove fanState
  simp only [bind, Option.bind, hear, tricpy_self hear, wr3_self hear]
  unfold triupdate
  simp only [bind, Option.bind, ea0, ea2, ea20, ea22, f1, hw1, m1, f2, hw2, m2]
  simp only [hcast]


theorem triloop_fan (pts : Nat → ℚ) (n : Nat)
    (hconv : ∀ i j k : Nat, i < j → j < k → k < n → LeftTurn pts i j k) :
    ∀ (m r : Nat), r + m + 3 = n → triloop m (fanState pts n r) = some (fanState pts n (n - 3))
  | 0, r, h => by
    have hr : r = n - 3 := by omega
    unfold triloop
    rw [if_neg (by show ¬((r : Int) < (n : Int) - 3); omega), hr]
  | m + 1, r, h => by
    unfold triloop
    rw [if_pos (by show (r : Int) < (n : Int) - 3; omega)]
    simp only [bind, Option.bind, triremove_fan pts n r (by omega) hconv]
    exact triloop_fan pts n hconv m (r + 1) (by omega)

theorem rd3_identityRing (n i : Nat) (h : i < n) :
    rd3 (identityRing n) (3 * (i : Int)) = some ((i + n - 1) % n, i, (i + 1) % n) := by
  have e0 : 3 * (i : Int) = ((3 * i : Nat) : Int) := by omega
  have e1 : 3 * (i : Int) + 1 = ((3 * i + 1 : Nat) : Int) := by omega
  have e2 : 3 * (i : Int) + 2 = ((3 * i + 2 : Nat) : Int) := by omega
  have d0 : (3 * i) / 3 = i := by omega
  have d1 : (3 * i + 1) / 3 = i := by omega
  have d2 : (3 * i + 2) / 3 = i := by omega
  have m0 : (3 * i) % 3 = 0 := by omega
  have m1 : (3 * i + 1) % 3 = 1 := by omega
  apply rd3_of_rd
  · rw [e0, rd_identityRing_nat n _ (by omega), if_pos m0, d0]
  · rw [e1, rd_identityRing_nat n _ (by omega), if_neg (by omega), if_pos m1, d1]
  · rw [e2, rd_identityRing_nat n _ (by omega), if_neg (by omega), if_neg (by omega), d2]

theorem tribootstrap_convex (pts : Nat → ℚ) (n : Nat) (buf : List Nat) (hn : 1 ≤ n)
    (hmax : 3 * (n : Int) ≤ INT_MAX) (hlen : buf.length = 3 * n)
    (hloc : ∀ i : Nat, i < n → LeftTurn pts ((i + n - 1) % n) i ((i + 1) % n)) :
    tribootstrap pts n buf = some (fanState pts n 0) := by
  have hinit := triinit_eq (n : Int) (by omega) buf (by omega)
  rw [Int.toNat_ofNat] at hinit
  have hrec : ∀ j : Int, 0 ≤ j → j < 0 + ((n : Int) - 0).toNat →
      rd3 (identityRing n) (3 * j) = some ((j.toNat + n - 1) % n, j.toNat, (j.toNat + 1) % n) ∧
        LeftTurn pts ((j.toNat + n - 1) % n) j.toNat ((j.toNat + 1) % n) := by
    intro j j0 j1
    obtain ⟨i, rfl⟩ := Int.eq_ofNat_of_zero_le j0
    rw [Int.toNat_ofNat]
    exact ⟨rd3_identityRing n i (by omega), hloc i (by omega)⟩
  have h1 : tripartition
      { points := pts, indices := identityRing n, npoints := n, r := 0, c := 0, e := 0 } 0
      triconvex = some
      ({ points := pts, indices := identityRing n, npoints := n, r := 0, c := 0, e := 0 }, 0) := by
    apply tripartitionLoop_all_true
    intro j j0 j1
    obtain ⟨g1, g2⟩ := hrec j j0 j1
    rw [triconvex_eq g1]
    simp only [g2, decide_True]
  have h2 : tripartition
      { points := pts, indices := identityRing n, npoints := n, r := 0, c := 0, e := 0 } 0
      triempty = some
      ({ points := pts, indices := identityRing n, npoints := n, r := 0, c := 0, e := 0 }, 0) := by
    apply tripartitionLoop_all_true
    intro j j0 j1
    obtain ⟨g1, -⟩ := hrec j j0 j1
    exact triempty_empty_zone g1 (le_refl _)
  unfold tribootstrap fanState
  rw [if_pos hmax, fanBuf_zero n (by omega)]
  simp only [Int.toNat_ofNat, bind, Option.bind, hinit, h1, h2, pure, Nat.cast_zero]


/-! ## The bound on the number of iterations of the driver loop is enough -/

theorem triloop_fuel_enough : ∀ (m : Nat) (s : tristate),
    (s.npoints - 3 - s.r).toNat ≤ m → triloop (m + 1) s = triloop m s
  | 0, s, h => by
    have hc : ¬(s.r < s.npoints - 3) := by omega
    rw [triloop, triloop, if_neg hc, if_neg hc]
  | m + 1, s, h => by
    rw [triloop, triloop]
    by_cases hc : s.r < s.npoints - 3
    · rw [if_pos hc, if_pos hc]
      cases hrem : triremove s with
      | none => rfl
      | some t =>
        obtain ⟨-, n1, r1, -, -⟩ := triremove_frame hrem
        simp only [bind, Option.bind]
        exact triloop_fuel_enough m t (by rw [n1, r1]; omega)
    · rw [if_neg hc, if_neg hc]


/-! ## The entry point: degenerate calls and the returned count -/

/-- C6: for every `npoints <= 0`, `triangulate` returns 0 and leaves the indices buffer
as it was, whether or not `points` and `indices` are null. -/
theorem triangulate_nonpositive (points : Option (Nat → ℚ)) (npoints : Int)
    (indices : Option (List Nat)) (h : npoints ≤ 0) :
    triangulate points npoints indices = some (0, indices) := by
  unfold triangulate
  rw [if_pos h]

/-- The hypothesis of C6 holds at `npoints = -5` with a null `points`. -/
theorem triangulate_nonpositive_witness :
    (-5 : Int) ≤ 0 ∧ triangulate none (-5) (some [7, 7, 7]) = some (0, some [7, 7, 7]) :=
  ⟨by decide, triangulate_nonpositive none (-5) (some [7, 7, 7]) (by decide)⟩

/-- C7, as stated, fails: with null pointers and `npoints = -1` the call returns 0, not
`3 * npoints = -3`; and with `npoints = 1000000000` the product `3 * npoints` does not
fit in an `int`. -/
theorem triangulate_query_counterexample :
    triangulate none (-1) none = some (0, none) ∧
      triangulate none (-1) none ≠ some (3 * (-1), none) ∧
      triangulate none 1000000000 none = none := by
  refine ⟨by decide, by decide, by decide⟩

/-- C7, amended: for every `npoints` with `0 <= npoints` and `3 * npoints <= INT_MAX`,
when `points` or `indices` is null, `triangulate` returns `3 * npoints` and leaves the
buffer unchanged. -/
theorem triangulate_query (points : Option (Nat → ℚ)) (npoints : Int)
    (indices : Option (List Nat)) (h0 : 0 ≤ npoints) (hmax : 3 * npoints ≤ INT_MAX)
    (hnull : points = none ∨ indices = none) :
    triangulate points npoints indices = some (3 * npoints, indices) := by
  unfold triangulate
  by_cases h : npoints ≤ 0
  · have : npoints = 0 := by omega
    subst this
    simp
  · rw [if_neg h]
    rcases hnull with rfl | rfl
    · simp [hmax]
    · cases points <;> simp [hmax]

/-- The hypotheses of the amended C7 hold at `npoints = 4` with a null `indices`. -/
theorem triangulate_query_witness :
    (0 : Int) ≤ 4 ∧ 3 * (4 : Int) ≤ INT_MAX ∧
      triangulate (some unitSquare) 4 none = some (3 * 4, none) :=
  ⟨by decide, by decide,
    triangulate_query (some unitSquare) 4 none (by decide) (by decide) (Or.inr rfl)⟩

/-- C2: for every input with `npoints >= 3` and non-null `points` and `indices` on which
the run completes, `triangulate` returns exactly `npoints - 2`, whatever the coordinates
are. -/
theorem triangulate_returns_count (pts : Nat → ℚ) (npoints : Int) (buf : List Nat)
    (res : Int × Option (List Nat)) (hn : 3 ≤ npoints)
    (h : triangulate (some pts) npoints (some buf) = some res) :
    res.1 = npoints - 2 := by
  obtain ⟨-, s0, s1, h0, h1, rfl⟩ := triangulate_eq_some (by omega) h
  obtain ⟨-, n0, r0⟩ := tribootstrap_fields h0
  obtain ⟨-, -, r1, -⟩ := triloop_frame _ h1 (by rw [n0, r0]; omega)
  simp only [r1, n0]
  omega

/-- The hypotheses of C2 hold on the unit square, where the run completes and returns 2. -/
theorem triangulate_returns_count_witness :
    (3 : Int) ≤ 4 ∧
      triangulate (some unitSquare) 4 (some (List.replicate 12 0)) =
        some (2, some [3, 0, 1, 3, 1, 2, 1, 2, 3, 2, 3, 1]) ∧
      (2 : Int) = 4 - 2 :=
  ⟨by decide, by decide!,
    triangulate_returns_count unitSquare 4 (List.replicate 12 0)
      (2, some [3, 0, 1, 3, 1, 2, 1, 2, 3, 2, 3, 1]) (by decide) (by decide!)⟩

/-- C8: the header promises the return value `3 * (npoints - 2)`; on the right triangle
(`npoints = 3`) the code returns 1, the number of triangles, and not 3. -/
theorem triangulate_header_count_mismatch :
    triangulate (some rightTriangle) 3 (some (List.replicate 9 0)) =
        some (1, some [2, 0, 1, 0, 1, 2, 1, 2, 0]) ∧
      (1 : Int) ≠ 3 * (3 - 2) := by
  refine ⟨by decide!, by decide⟩


/-! ## Indices stay below `npoints`; the bootstrap stays inside the buffer -/

/-- C3, as stated, fails on the clockwise unit square with a buffer of 15 slots whose last
three hold `0, 7, 0`: the bootstrap classifies all four vertices as reflex
(`c = e = 4`), the driver reads the ear at offset `3 * e = 12`, inside the buffer, and
copies `(0, 7, 0)` to the output; the run stays inside the buffer and returns 2, and the
index 7 of the first returned triangle is not below `npoints = 4`. -/
theorem triangulate_index_not_lt :
    3 * (4 : Int) ≤ (List.replicate 12 0 ++ [0, 7, 0]).length ∧
    (tribootstrap clockwiseSquare 4 (List.replicate 12 0 ++ [0, 7, 0])).map tristate.view =
      some ([3, 0, 1, 0, 1, 2, 1, 2, 3, 2, 3, 0, 0, 7, 0], 4, 0, 4, 4) ∧
    triangulate (some clockwiseSquare) 4 (some (List.replicate 12 0 ++ [0, 7, 0])) =
      some (2, some [0, 7, 0, 0, 1, 2, 1, 2, 3, 2, 3, 0, 0, 0, 0]) ∧
    rd [0, 7, 0, 0, 1, 2, 1, 2, 3, 2, 3, 0, 0, 0, 0] 1 = some 7 ∧ ¬((7 : Int) < 4) ∧
    ¬AllLt 4 [0, 7, 0, 0, 1, 2, 1, 2, 3, 2, 3, 0, 0, 0, 0] := by
  refine ⟨by decide, by decide!, by decide!, by decide, by decide, ?_⟩
  intro h
  exact absurd (h 7 (by decide)) (by decide)

/-- C3, amended: for every input with `npoints >= 3`, non-null arguments and a buffer of
exactly `3 * npoints` slots on which the run stays inside the buffer, each of the
`3 * (npoints - 2)` indices of the returned triangles is in `[0, npoints)`; indeed every
slot of the buffer holds a value below `npoints` when the call returns. -/
theorem triangulate_indices_lt (pts : Nat → ℚ) (npoints : Int) (buf out : List Nat)
    (ret : Int) (hn : 3 ≤ npoints) (hlen : (buf.length : Int) = 3 * npoints)
    (h : triangulate (some pts) npoints (some buf) = some (ret, some out)) :
    (∀ k : Int, 0 ≤ k → k < 3 * (npoints - 2) →
        ∃ v, rd out k = some v ∧ (v : Int) < npoints) ∧
      AllLt npoints out := by
  obtain ⟨hmax, s0, s1, h0, h1, hres⟩ := triangulate_eq_some (by omega) h
  obtain ⟨s, hs, -, hnp, hr, -, -, -, hl, hsub⟩ := tribootstrap_isSome pts npoints buf
    (by omega) hmax hlen
  rw [h0] at hs
  cases hs
  obtain ⟨-, -, -, l1, m1⟩ := triloop_frame _ h1 (by rw [hnp, hr]; omega)
  simp only [Prod.mk.injEq, Option.some.injEq] at hres
  obtain ⟨-, rfl⟩ := hres
  have hall : AllLt npoints s1.indices := by
    intro x hx
    have := identityRing_allLt npoints.toNat x (hsub (m1 hx))
    omega
  refine ⟨?_, hall⟩
  intro k k0 k1
  obtain ⟨v, hv⟩ := rd_isSome s1.indices k k0 (by omega)
  exact ⟨v, hv, hall v (rd_mem hv)⟩

/-- The hypotheses of the amended C3 hold on the unit square with a buffer of 12 slots. -/
theorem triangulate_indices_lt_witness :
    (3 : Int) ≤ 4 ∧ ((List.replicate 12 0).length : Int) = 3 * 4 ∧
      triangulate (some unitSquare) 4 (some (List.replicate 12 0)) =
        some (2, some [3, 0, 1, 3, 1, 2, 1, 2, 3, 2, 3, 1]) ∧
      ((∀ k : Int, 0 ≤ k → k < 3 * (4 - 2) →
          ∃ v, rd [3, 0, 1, 3, 1, 2, 1, 2, 3, 2, 3, 1] k = some v ∧ (v : Int) < 4) ∧
        AllLt 4 [3, 0, 1, 3, 1, 2, 1, 2, 3, 2, 3, 1]) :=
  ⟨by decide, by decide, by decide!,
    triangulate_indices_lt unitSquare 4 (List.replicate 12 0)
      [3, 0, 1, 3, 1, 2, 1, 2, 3, 2, 3, 1] 2 (by decide) (by decide) (by decide!)⟩

/-- C4, as stated, fails on the clockwise unit square with a buffer of 12 slots: the
bootstrap classifies all four vertices as reflex (`r = 0`, `c = e = 4`), the driver
enters its loop (`0 < 4 - 3`) with an empty ear zone and reads the ear at offset
`3 * e = 12`, outside the buffer. -/
theorem clockwiseSquare_out_of_bounds :
    (tribootstrap clockwiseSquare 4 (List.replicate 12 0)).map
        (fun s => (s.indices, s.npoints, s.r, s.c, s.e)) =
      some ([3, 0, 1, 0, 1, 2, 1, 2, 3, 2, 3, 0], 4, 0, 4, 4) ∧
    rd [3, 0, 1, 0, 1, 2, 1, 2, 3, 2, 3, 0] (3 * 4) = none ∧
    triangulate (some clockwiseSquare) 4 (some (List.replicate 12 0)) = none := by
  refine ⟨by decide!, by decide, by decide!⟩

/-- C4, amended: for every point set with `npoints >= 1`, `3 * npoints <= INT_MAX` (the
offsets are computed in `int`) and a buffer of exactly `3 * npoints` slots, malformed
input included, the initialisation and the two bulk partitions stay inside the buffer and
end with `0 = r <= c <= e <= npoints`; and when `npoints <= 3`, where no ear is removed,
the whole call stays inside the buffer. -/
theorem tribootstrap_in_bounds (pts : Nat → ℚ) (npoints : Int) (buf : List Nat)
    (hn : 1 ≤ npoints) (hmax : 3 * npoints ≤ INT_MAX)
    (hlen : (buf.length : Int) = 3 * npoints) :
    (∃ s, tribootstrap pts npoints buf = some s ∧ s.r = 0 ∧ 0 ≤ s.c ∧ s.c ≤ s.e ∧
      s.e ≤ npoints ∧ (s.indices.length : Int) = 3 * npoints) ∧
    (npoints ≤ 3 → ∃ res, triangulate (some pts) npoints (some buf) = some res) := by
  obtain ⟨s, hs, -, hnp, hr, hc, hce, he, hl, -⟩ :=
    tribootstrap_isSome pts npoints buf hn hmax hlen
  refine ⟨⟨s, hs, hr, hc, hce, he, hl⟩, ?_⟩
  intro h3
  have hloop : triloop (npoints - 3).toNat s = some s := by
    have : (npoints - 3).toNat = 0 := by omega
    rw [this]
    unfold triloop
    rw [if_neg (by rw [hr, hnp]; omega)]
  refine ⟨(s.r + 1, some s.indices), ?_⟩
  unfold triangulate
  rw [if_neg (by omega)]
  simp only [hmax, if_true, bind, Option.bind, hs, hloop, pure]

/-- The hypotheses of the amended C4 hold on a clockwise triangle with a buffer of 9 slots. -/
theorem tribootstrap_in_bounds_witness :
    (1 : Int) ≤ 3 ∧ 3 * (3 : Int) ≤ INT_MAX ∧ ((List.replicate 9 0).length : Int) = 3 * 3 ∧
      ((∃ s, tribootstrap clockwiseTriangle 3 (List.replicate 9 0) = some s ∧ s.r = 0 ∧
          0 ≤ s.c ∧ s.c ≤ s.e ∧ s.e ≤ 3 ∧ (s.indices.length : Int) = 3 * 3) ∧
        ((3 : Int) ≤ 3 →
          ∃ res,
            triangulate (some clockwiseTriangle) 3 (some (List.replicate 9 0)) = some res)) :=
  ⟨by decide, by decide, by decide,
    tribootstrap_in_bounds clockwiseTriangle 3 (List.replicate 9 0) (by decide) (by decide)
      (by decide)⟩


/-! ## Three points -/

/-- C5: for `npoints = 3`, any three points and a buffer of at least 9 slots,
`triangulate` returns 1 and the first output triple is one of the three cyclic rotations
`(2,0,1)`, `(0,1,2)`, `(1,2,0)` of the input triangle. -/
theorem triangulate_three (pts : Nat → ℚ) (buf : List Nat) (hlen : 9 ≤ buf.length) :
    ∃ out, triangulate (some pts) 3 (some buf) = some (1, some out) ∧
      (tripleAt out 0 = some (2, 0, 1) ∨ tripleAt out 0 = some (0, 1, 2) ∨
        tripleAt out 0 = some (1, 2, 0)) := by
  obtain ⟨b0, s, -, hring, hs, hnp, hr, σ, hfix, hrec⟩ := tribootstrap_total pts 3 buf
    (by decide) (by unfold INT_MAX; omega) (by omega)
  have hloop : triloop ((3 : Int) - 3).toNat s = some s := by
    have : ((3 : Int) - 3).toNat = 0 := by decide
    rw [this]
    unfold triloop
    rw [if_neg (by rw [hr, hnp]; decide)]
  refine ⟨s.indices, ?_, ?_⟩
  · unfold triangulate
    rw [if_neg (show ¬((3 : Int) ≤ 0) by decide)]
    simp only [show 3 * (3 : Int) ≤ INT_MAX by decide, if_true, bind, Option.bind, hs, hloop,
      pure, hr]
    rfl
  · have h0 := hrec 0 (by decide) (by decide)
    obtain ⟨g0, g1⟩ := RecPerm.maps_into hfix (k := 0) (by decide) (by decide)
    have hcase : σ 0 = 0 ∨ σ 0 = 1 ∨ σ 0 = 2 := by omega
    have e0 : rd3 b0 (3 * 0) = some (2, 0, 1) := hring 0 (by decide) (by decide)
    have e1 : rd3 b0 (3 * 1) = some (0, 1, 2) := hring 1 (by decide) (by decide)
    have e2 : rd3 b0 (3 * 2) = some (1, 2, 0) := hring 2 (by decide) (by decide)
    unfold tripleAt
    simp only [Nat.cast_zero]
    rcases hcase with hc | hc | hc
    · rw [hc, e0] at h0
      exact Or.inl h0
    · rw [hc, e1] at h0
      exact Or.inr (Or.inl h0)
    · rw [hc, e2] at h0
      exact Or.inr (Or.inr h0)

/-- The hypothesis of C5 holds for a buffer of 9 slots, here with a clockwise triangle. -/
theorem triangulate_three_witness :
    9 ≤ (List.replicate 9 5).length ∧
      ∃ out, triangulate (some clockwiseTriangle) 3 (some (List.replicate 9 5)) =
          some (1, some out) ∧
        (tripleAt out 0 = some (2, 0, 1) ∨ tripleAt out 0 = some (0, 1, 2) ∨
          tripleAt out 0 = some (1, 2, 0)) :=
  ⟨by decide, triangulate_three clockwiseTriangle (List.replicate 9 5) (by decide)⟩


/-! ## Convex polygons -/

/-- Locally convex polygons: for every polygon with `n >= 3` and `3 * n <= INT_MAX` in
which each consecutive triple `prev, self, next` is a strict left turn, with exact
coordinates, the bootstrap classifies every vertex as an ear without moving any record
(`r = c = e = 0`, the buffer is the identity ring); and when moreover every triple of
vertices `i < j < k` is a strict left turn (the polygon is convex as a whole),
`triangulate` returns `n - 2`, leaving the fan `fanBuf n (n - 3)`. -/
theorem convex_bootstrap_and_count (pts : Nat → ℚ) (n : Nat) (buf : List Nat) (hn : 3 ≤ n)
    (hmax : 3 * (n : Int) ≤ INT_MAX) (hlen : buf.length = 3 * n)
    (hloc : ∀ i : Nat, i < n → LeftTurn pts ((i + n - 1) % n) i ((i + 1) % n)) :
    (tribootstrap pts n buf).map (fun s => (s.indices, s.npoints, s.r, s.c, s.e)) =
        some (identityRing n, (n : Int), 0, 0, 0) ∧
      ((∀ i j k : Nat, i < j → j < k → k < n → LeftTurn pts i j k) →
        triangulate (some pts) n (some buf) = some ((n : Int) - 2, some (fanBuf n (n - 3)))) := by
  have hb := tribootstrap_convex pts n buf (by omega) hmax hlen hloc
  refine ⟨?_, ?_⟩
  · rw [hb]
    simp only [Option.map_some', fanState, fanBuf_zero n (by omega)]
    rfl
  · intro hconv
    have hl := triloop_fan pts n hconv (n - 3) 0 (by omega)
    have hm : ((n : Int) - 3).toNat = n - 3 := by omega
    unfold triangulate
    rw [if_neg (show ¬((n : Int) ≤ 0) by omega)]
    simp only [hmax, if_true, bind, Option.bind, hb, hm, hl, pure]
    simp only [fanState]
    congr 2
    omega

/-- The hypotheses of `convex_bootstrap_and_count`, the convexity of the whole polygon
included, hold on the unit square. -/
theorem convex_bootstrap_and_count_witness :
    3 ≤ 4 ∧ 3 * ((4 : Nat) : Int) ≤ INT_MAX ∧ (List.replicate 12 0).length = 3 * 4 ∧
      (∀ i : Nat, i < 4 → LeftTurn unitSquare ((i + 4 - 1) % 4) i ((i + 1) % 4)) ∧
      (∀ i j k : Nat, i < j → j < k → k < 4 → LeftTurn unitSquare i j k) ∧
      (tribootstrap unitSquare (4 : Nat) (List.replicate 12 0)).map
          (fun s => (s.indices, s.npoints, s.r, s.c, s.e)) =
        some (identityRing 4, ((4 : Nat) : Int), 0, 0, 0) ∧
      triangulate (some unitSquare) (4 : Nat) (some (List.replicate 12 0)) =
        some (((4 : Nat) : Int) - 2, some (fanBuf 4 (4 - 3))) := by
  have hloc : ∀ i : Nat, i < 4 → LeftTurn unitSquare ((i + 4 - 1) % 4) i ((i + 1) % 4) := by
    intro i hi
    interval_cases i <;> decide!
  have hconv : ∀ i j k : Nat, i < j → j < k → k < 4 → LeftTurn unitSquare i j k := by
    intro i j k hij hjk hk
    interval_cases k <;> interval_cases j <;> interval_cases i <;> decide!
  have h := convex_bootstrap_and_count unitSquare 4 (List.replicate 12 0) (by decide)
    (by decide) (by decide) hloc
  exact ⟨by decide, by decide, by decide, hloc, hconv, h.1, h.2 hconv⟩



/-! ## The two geometric predicates -/

theorem cross_reverse (pts : Nat → ℚ) (a b c : Nat) : cross pts c b a = -cross pts a b c := by
  unfold cross
  ring

theorem triinside_bary {p a b c : ℚ × ℚ} {u v : ℚ} (hnd : Nondegenerate a b c)
    (hp : Barycentric p a b c u v) :
    triinside p a b c = true ↔ 0 ≤ u ∧ 0 ≤ v ∧ u + v < 1 := by
  obtain ⟨p1, p2⟩ := p
  obtain ⟨a1, a2⟩ := a
  obtain ⟨b1, b2⟩ := b
  obtain ⟨c1, c2⟩ := c
  unfold Nondegenerate at hnd
  unfold Barycentric at hp
  simp only at hnd hp
  obtain ⟨hp1, hp2⟩ := hp
  have key : ∀ A B : ℚ, A = u → B = v →
      (((A ≥ 0 ∧ B ≥ 0) ∧ A + B < 1) ↔ 0 ≤ u ∧ 0 ≤ v ∧ u + v < 1) := by
    intro A B hA hB
    rw [hA, hB]
    constructor
    · rintro ⟨⟨h1, h2⟩, h3⟩
      exact ⟨h1, h2, h3⟩
    · rintro ⟨h1, h2, h3⟩
      exact ⟨⟨h1, h2⟩, h3⟩
  unfold triinside
  simp only
  split
  · rename_i h
    exfalso
    apply hnd
    have hsq : ((b1 - a1) * (c2 - a2) - (b2 - a2) * (c1 - a1)) ^ 2 = 0 := by
      linear_combination h
    exact pow_eq_zero_iff (by norm_num) |>.mp hsq
  · rename_i h
    simp only [Bool.and_eq_true, decide_eq_true_eq]
    apply key
    · rw [hp1, hp2]
      field_simp
      ring
    · rw [hp1, hp2]
      field_simp
      ring

theorem barycentric_exists {p a b c : ℚ × ℚ} (hnd : Nondegenerate a b c) :
    ∃ u v, Barycentric p a b c u v := by
  unfold Nondegenerate at hnd
  refine ⟨((b.1 - a.1) * (p.2 - a.2) - (b.2 - a.2) * (p.1 - a.1)) /
      ((b.1 - a.1) * (c.2 - a.2) - (b.2 - a.2) * (c.1 - a.1)),
    ((p.1 - a.1) * (c.2 - a.2) - (p.2 - a.2) * (c.1 - a.1)) /
      ((b.1 - a.1) * (c.2 - a.2) - (b.2 - a.2) * (c.1 - a.1)), ?_, ?_⟩
  · field_simp
    ring
  · field_simp
    ring

theorem barycentric_unique {p a b c : ℚ × ℚ} {u v u2 v2 : ℚ} (hnd : Nondegenerate a b c)
    (h1 : Barycentric p a b c u v) (h2 : Barycentric p a b c u2 v2) : u2 = u ∧ v2 = v := by
  unfold Nondegenerate at hnd
  obtain ⟨e1, e2⟩ := h1
  obtain ⟨f1, f2⟩ := h2
  have hu : (u2 - u) * ((b.1 - a.1) * (c.2 - a.2) - (b.2 - a.2) * (c.1 - a.1)) = 0 := by
    linear_combination (b.2 - a.2) * (f1 - e1) - (b.1 - a.1) * (f2 - e2)
  have hv : (v2 - v) * ((b.1 - a.1) * (c.2 - a.2) - (b.2 - a.2) * (c.1 - a.1)) = 0 := by
    linear_combination (c.1 - a.1) * (f2 - e2) - (c.2 - a.2) * (f1 - e1)
  rcases mul_eq_zero.mp hu with h | h
  · rcases mul_eq_zero.mp hv with g | g
    · exact ⟨by linarith, by linarith⟩
    · exact absurd g hnd
  · exact absurd h hnd


/-! ## The bulk partition -/

theorem ZonePerm.refl_zone (lo hi : Int) (src : List Nat) : ZonePerm lo hi src src :=
  ⟨Equiv.refl _, fun _ _ => rfl, fun _ _ _ => rfl⟩

theorem ZonePerm.zone_maps_into {lo hi : Int} {σ : Equiv.Perm Int}
    (hfix : ∀ k, (k < lo ∨ hi ≤ k) → σ k = k) {k : Int} (h0 : lo ≤ k) (h1 : k < hi) :
    lo ≤ σ k ∧ σ k < hi := by
  by_contra hcon
  have hout : σ k < lo ∨ hi ≤ σ k := by omega
  have := hfix (σ k) hout
  have := σ.injective this
  omega

theorem ZonePerm.swap_zone {lo hi : Int} {src buf b : List Nat} {i l : Int}
    (hp : ZonePerm lo hi src buf) (h : triswap buf (3 * i) (3 * l) = some b) (hlo : 0 ≤ lo)
    (hi0 : lo ≤ i) (hi1 : i < hi) (hl0 : lo ≤ l) (hl1 : l < hi) : ZonePerm lo hi src b := by
  obtain ⟨σ, hfix, hrec⟩ := hp
  refine ⟨(Equiv.swap i l).trans σ, ?_, ?_⟩
  · intro k hk
    have : Equiv.swap i l k = k := Equiv.swap_apply_of_ne_of_ne (by omega) (by omega)
    simp only [Equiv.trans_apply, this]
    exact hfix k hk
  · intro k k0 k1
    rw [triswap_rd3 h k]
    simp only [Equiv.trans_apply]
    by_cases h1 : k = l
    · rw [if_pos h1, h1, Equiv.swap_apply_right]
      exact hrec i (by omega) hi1
    rw [if_neg h1]
    by_cases h2 : k = i
    · rw [if_pos h2, h2, Equiv.swap_apply_left]
      exact hrec l (by omega) hl1
    rw [if_neg h2, Equiv.swap_apply_of_ne_of_ne h2 h1]
    exact hrec k k0 k1

theorem ZonePerm.trans {lo hi : Int} {a b c : List Nat} (h1 : ZonePerm lo hi a b)
    (h2 : ZonePerm lo hi b c) (hlo : 0 ≤ lo) : ZonePerm lo hi a c := by
  obtain ⟨σ, hfix, hrec⟩ := h1
  obtain ⟨τ, gfix, grec⟩ := h2
  refine ⟨τ.trans σ, ?_, ?_⟩
  · intro k hk
    simp only [Equiv.trans_apply, gfix k hk, hfix k hk]
  · intro k k0 k1
    simp only [Equiv.trans_apply]
    rw [grec k k0 k1]
    by_cases hk : k < lo
    · rw [gfix k (Or.inl hk)]
      exact hrec k k0 k1
    · obtain ⟨g0, g1⟩ := ZonePerm.zone_maps_into gfix (k := k) (by omega) k1
      exact hrec (τ k) (by omega) g1

theorem ZonePerm.mono {lo lo2 hi : Int} {a b : List Nat} (h : ZonePerm lo hi a b)
    (hle : lo2 ≤ lo) : ZonePerm lo2 hi a b := by
  obtain ⟨σ, hfix, hrec⟩ := h
  exact ⟨σ, fun k hk => hfix k (by omega), hrec⟩

theorem SameBelow.refl_below (s : tristate) (l : Int) : SameBelow s l s :=
  ⟨rfl, rfl, rfl, rfl, rfl, rfl, fun _ _ => rfl⟩

theorem triswap_rd_below {buf b : List Nat} {i l : Int}
    (h : triswap buf (3 * i) (3 * l) = some b) {k : Int} (hi : k < 3 * i) (hl : k < 3 * l) :
    rd b k = rd buf k := by
  have hxy : 3 * i = 3 * l ∨ 3 * i + 3 ≤ 3 * l ∨ 3 * l + 3 ≤ 3 * i := by omega
  rw [triswap_rd h hxy, if_neg (show ¬(3 * l ≤ k ∧ k < 3 * l + 3) by omega),
    if_neg (show ¬(3 * i ≤ k ∧ k < 3 * i + 3) by omega)]

theorem tripartitionLoop_spec (f : tristate → Int → Option Bool)
    (g : Nat × Nat × Nat → Bool) (s : tristate) (l0 : Int) (hl0 : 0 ≤ l0)
    (hlen : 3 * s.npoints ≤ s.indices.length)
    (hf : ∀ (t : tristate) (i : Int) (rec : Nat × Nat × Nat), SameBelow s l0 t →
      rd3 t.indices (3 * i) = some rec → f t i = some (g rec)) :
    ∀ (m : Nat) (t : tristate) (i lc : Int), SameBelow s l0 t → l0 ≤ lc → lc ≤ i →
      i + m = s.npoints → ZonePerm l0 s.npoints s.indices t.indices →
      (∀ k, l0 ≤ k → k < lc → ∃ rec, rd3 t.indices (3 * k) = some rec ∧ g rec = false) →
      (∀ k, lc ≤ k → k < i → ∃ rec, rd3 t.indices (3 * k) = some rec ∧ g rec = true) →
      ∃ t2 l2, tripartitionLoop f m t i lc = some (t2, l2) ∧ lc ≤ l2 ∧ l2 ≤ s.npoints ∧
        SameBelow s l0 t2 ∧ ZonePerm l0 s.npoints s.indices t2.indices ∧
        (∀ k, l0 ≤ k → k < l2 → ∃ rec, rd3 t2.indices (3 * k) = some rec ∧ g rec = false) ∧
        (∀ k, l2 ≤ k → k < s.npoints →
          ∃ rec, rd3 t2.indices (3 * k) = some rec ∧ g rec = true)
  | 0, t, i, lc, hsb, h1, h2, h3, hp, hfail, hsat => by
    refine ⟨t, lc, rfl, le_refl _, by omega, hsb, hp, hfail, ?_⟩
    intro k k0 k1
    exact hsat k k0 (by omega)
  | m + 1, t, i, lc, hsb, h1, h2, h3, hp, hfail, hsat => by
    obtain ⟨hpts, hnp, hr, hc, he, hl, hlow⟩ := hsb
    have hex : ∃ rec, rd3 t.indices (3 * i) = some rec := rd3_isSome (by omega) (by omega)
    obtain ⟨rec, hrec⟩ := hex
    have hfi := hf t i rec ⟨hpts, hnp, hr, hc, he, hl, hlow⟩ hrec
    unfold tripartitionLoop
    simp only [bind, Option.bind, hfi]
    cases hg : g rec
    · obtain ⟨buf, hbuf⟩ := triswap_isSome t.indices (3 * i) (3 * lc) (by omega) (by omega)
        (by omega) (by omega)
      simp only [Bool.not_false, if_true, hbuf]
      have hswap := triswap_rd3 hbuf
      have ih := tripartitionLoop_spec f g s l0 hl0 hlen hf m
        { t with indices := buf } (i + 1) (lc + 1)
      suffices hsuf : ∃ t2 l2, tripartitionLoop f m { t with indices := buf } (i + 1) (lc + 1) =
          some (t2, l2) ∧ lc + 1 ≤ l2 ∧ l2 ≤ s.npoints ∧ SameBelow s l0 t2 ∧
          ZonePerm l0 s.npoints s.indices t2.indices ∧
          (∀ k, l0 ≤ k → k < l2 → ∃ rec, rd3 t2.indices (3 * k) = some rec ∧ g rec = false) ∧
          (∀ k, l2 ≤ k → k < s.npoints →
            ∃ rec, rd3 t2.indices (3 * k) = some rec ∧ g rec = true) by
        obtain ⟨t2, l2, a1, a2, a3, a4, a5, a6, a7⟩ := hsuf
        exact ⟨t2, l2, a1, by omega, a3, a4, a5, a6, a7⟩
      apply ih
      · refine ⟨hpts, hnp, hr, hc, he, ?_, ?_⟩
        · show buf.length = s.indices.length
          rw [triswap_length hbuf, hl]
        · intro k hk
          show rd buf k = rd s.indices k
          rw [triswap_rd_below hbuf (by omega) (by omega)]
          exact hlow k hk
      · omega
      · omega
      · omega
      · exact hp.swap_zone hbuf hl0 (by omega) (by omega) h1 (by omega)
      · intro k k0 k1
        show ∃ rec, rd3 buf (3 * k) = some rec ∧ g rec = false
        rw [hswap k]
        by_cases e1 : k = lc
        · rw [if_pos e1]
          exact ⟨rec, hrec, hg⟩
        · rw [if_neg e1, if_neg (by omega)]
          exact hfail k k0 (by omega)
      · intro k k0 k1
        show ∃ rec, rd3 buf (3 * k) = some rec ∧ g rec = true
        rw [hswap k, if_neg (by omega)]
        by_cases e2 : k = i
        · rw [if_pos e2]
          exact hsat lc (le_refl _) (by omega)
        · rw [if_neg e2]
          exact hsat k (by omega) (by omega)
    · simp only [Bool.not_true, Bool.false_eq_true, if_false]
      apply tripartitionLoop_spec f g s l0 hl0 hlen hf m t (i + 1) lc
        ⟨hpts, hnp, hr, hc, he, hl, hlow⟩ h1 (by omega) (by omega) hp hfail
      intro k k0 k1
      by_cases e2 : k = i
      · rw [e2]
        exact ⟨rec, hrec, hg⟩
      · exact hsat k k0 (by omega)


theorem tripartition_spec_aux (f : tristate → Int → Option Bool)
    (g : Nat × Nat × Nat → Bool) (s : tristate) (l : Int) (hl0 : 0 ≤ l) (hln : l ≤ s.npoints)
    (hlen : 3 * s.npoints ≤ s.indices.length)
    (hf : ∀ (t : tristate) (i : Int) (rec : Nat × Nat × Nat), SameBelow s l t →
      rd3 t.indices (3 * i) = some rec → f t i = some (g rec)) :
    ∃ t l2, tripartition s l f = some (t, l2) ∧ l ≤ l2 ∧ l2 ≤ s.npoints ∧ SameBelow s l t ∧
      ZonePerm l s.npoints s.indices t.indices ∧
      (∀ k, l ≤ k → k < l2 → ∃ rec, rd3 t.indices (3 * k) = some rec ∧ g rec = false) ∧
      (∀ k, l2 ≤ k → k < s.npoints → ∃ rec, rd3 t.indices (3 * k) = some rec ∧ g rec = true) := by
  unfold tripartition
  exact tripartitionLoop_spec f g s l hl0 hlen hf (s.npoints - l).toNat s l l
    (SameBelow.refl_below s l) (le_refl _) (le_refl _) (by omega) (ZonePerm.refl_zone _ _ _)
    (fun k k0 k1 => by omega) (fun k k0 k1 => by omega)

theorem triconvex_local (s : tristate) (l : Int) (t : tristate) (i : Int)
    (rec : Nat × Nat × Nat) (hsb : SameBelow s l t) (h : rd3 t.indices (3 * i) = some rec) :
    triconvex t i = some (decide (LeftTurn s.points rec.1 rec.2.1 rec.2.2)) := by
  obtain ⟨a, b, c⟩ := rec
  rw [triconvex_eq h, hsb.1]

theorem triemptyScan_spec (s : tristate) (ia ib ic : Nat) :
    ∀ (m : Nat) (j : Int), 0 ≤ j → j + 3 * m ≤ s.indices.length →
      ∃ b, triemptyScan s ia ib ic m j = some b ∧
        (b = false ↔ ∃ k : Int, 0 ≤ k ∧ k < m ∧ ∃ x, rd s.indices (j + 3 * k + 1) = some x ∧
          x ≠ ia ∧ x ≠ ib ∧ x ≠ ic ∧
          triinside (pointAt s.points x) (pointAt s.points ia) (pointAt s.points ib)
            (pointAt s.points ic) = true)
  | 0, j, _, _ => ⟨true, rfl, by
      constructor
      · intro h
        exact absurd h (by simp)
      · rintro ⟨k, k0, k1, -⟩
        omega⟩
  | m + 1, j, h0, h1 => by
    obtain ⟨x0, hx0⟩ := rd_isSome s.indices (j + 1) (by omega) (by omega)
    obtain ⟨b, hb, hiff⟩ := triemptyScan_spec s ia ib ic m (j + 3) (by omega) (by omega)
    have shift : (∃ k : Int, 0 ≤ k ∧ k < m ∧ ∃ x, rd s.indices (j + 3 + 3 * k + 1) = some x ∧
          x ≠ ia ∧ x ≠ ib ∧ x ≠ ic ∧
          triinside (pointAt s.points x) (pointAt s.points ia) (pointAt s.points ib)
            (pointAt s.points ic) = true) ↔
        ∃ k : Int, 1 ≤ k ∧ k < (m + 1 : Nat) ∧ ∃ x, rd s.indices (j + 3 * k + 1) = some x ∧
          x ≠ ia ∧ x ≠ ib ∧ x ≠ ic ∧
          triinside (pointAt s.points x) (pointAt s.points ia) (pointAt s.points ib)
            (pointAt s.points ic) = true := by
      constructor
      · rintro ⟨k, k0, k1, x, hx, rest⟩
        refine ⟨k + 1, by omega, by omega, x, ?_, rest⟩
        rw [← hx]
        congr 1
        ring
      · rintro ⟨k, k0, k1, x, hx, rest⟩
        refine ⟨k - 1, by omega, by omega, x, ?_, rest⟩
        rw [← hx]
        congr 1
        ring
    unfold triemptyScan
    simp only [bind, Option.bind, hx0]
    by_cases hcor : x0 = ia ∨ x0 = ib ∨ x0 = ic
    · rw [if_pos hcor]
      refine ⟨b, hb, ?_⟩
      rw [hiff, shift]
      constructor
      · rintro ⟨k, k0, k1, rest⟩
        exact ⟨k, by omega, k1, rest⟩
      · rintro ⟨k, k0, k1, x, hx, n1, n2, n3, hin⟩
        by_cases hk : k = 0
        · subst hk
          rw [show j + 3 * 0 + 1 = j + 1 by ring, hx0] at hx
          cases hx
          rcases hcor with h | h | h
          · exact absurd h n1
          · exact absurd h n2
          · exact absurd h n3
        · exact ⟨k, by omega, k1, x, hx, n1, n2, n3, hin⟩
    · rw [if_neg hcor]
      have hn1 : x0 ≠ ia := fun h => hcor (Or.inl h)
      have hn2 : x0 ≠ ib := fun h => hcor (Or.inr (Or.inl h))
      have hn3 : x0 ≠ ic := fun h => hcor (Or.inr (Or.inr h))
      cases hin : triinside (pointAt s.points x0) (pointAt s.points ia) (pointAt s.points ib)
          (pointAt s.points ic)
      · simp only [Bool.false_eq_true, if_false]
        refine ⟨b, hb, ?_⟩
        rw [hiff, shift]
        constructor
        · rintro ⟨k, k0, k1, rest⟩
          exact ⟨k, by omega, k1, rest⟩
        · rintro ⟨k, k0, k1, x, hx, n1, n2, n3, hin2⟩
          by_cases hk : k = 0
          · subst hk
            rw [show j + 3 * 0 + 1 = j + 1 by ring, hx0] at hx
            cases hx
            rw [hin] at hin2
            exact absurd hin2 (by simp)
          · exact ⟨k, by omega, k1, x, hx, n1, n2, n3, hin2⟩
      · simp only [if_true]
        refine ⟨false, rfl, ?_⟩
        constructor
        · intro _
          refine ⟨0, le_refl _, by omega, x0, ?_, hn1, hn2, hn3, hin⟩
          rw [← hx0]
          congr 1
          ring
        · intro _
          rfl

theorem triempty_spec (s : tristate) (i : Int) (rec : Nat × Nat × Nat) (hr : 0 ≤ s.r)
    (hrc : s.r ≤ s.c) (hc : 3 * s.c ≤ s.indices.length)
    (h : rd3 s.indices (3 * i) = some rec) :
    ∃ b, triempty s i = some b ∧ (b = false ↔ Blocked s.points s.indices s.r s.c rec) := by
  obtain ⟨h0, h1, h2⟩ := rd3_eq_some h
  obtain ⟨b, hb, hiff⟩ := triemptyScan_spec s rec.1 rec.2.1 rec.2.2 (s.c - s.r).toNat (3 * s.r)
    (by omega) (by omega)
  refine ⟨b, ?_, ?_⟩
  · unfold triempty
    simp only [add_zero, bind, Option.bind, h0, h1, h2]
    exact hb
  · rw [hiff]
    unfold Blocked
    constructor
    · rintro ⟨k, k0, k1, x, hx, rest⟩
      refine ⟨s.r + k, by omega, by omega, x, ?_, rest⟩
      rw [← hx]
      congr 1
      ring
    · rintro ⟨m, m0, m1, x, hx, rest⟩
      refine ⟨m - s.r, by omega, by omega, x, ?_, rest⟩
      rw [← hx]
      congr 1
      ring

theorem Blocked.congr {pts : Nat → ℚ} {buf buf2 : List Nat} {r c : Int}
    {t : Nat × Nat × Nat} (hsame : ∀ k : Int, k < 3 * c → rd buf2 k = rd buf k) :
    Blocked pts buf2 r c t ↔ Blocked pts buf r c t := by
  unfold Blocked
  constructor
  · rintro ⟨m, m0, m1, x, hx, rest⟩
    exact ⟨m, m0, m1, x, by rw [← hsame _ (by omega)]; exact hx, rest⟩
  · rintro ⟨m, m0, m1, x, hx, rest⟩
    exact ⟨m, m0, m1, x, by rw [hsame _ (by omega)]; exact hx, rest⟩

theorem triempty_local (s : tristate) (l : Int) (hr : 0 ≤ s.r) (hrc : s.r ≤ s.c)
    (hcl : s.c ≤ l) (hc : 3 * s.c ≤ s.indices.length) (t : tristate) (i : Int)
    (rec : Nat × Nat × Nat) (hsb : SameBelow s l t) (h : rd3 t.indices (3 * i) = some rec) :
    ∃ b, triempty t i = some b ∧ (b = false ↔ Blocked s.points s.indices s.r s.c rec) := by
  obtain ⟨hpts, hnp, htr, htc, hte, hl, hlow⟩ := hsb
  obtain ⟨b, hb, hiff⟩ := triempty_spec t i rec (by omega) (by omega) (by omega) h
  refine ⟨b, hb, ?_⟩
  rw [hiff, hpts, htr, htc]
  exact Blocked.congr (fun k hk => hlow k (by omega))


theorem rd3_same_below {b b2 : List Nat} {l k : Int}
    (h : ∀ j : Int, j < 3 * l → rd b2 j = rd b j) (hk : k < l) :
    rd3 b2 (3 * k) = rd3 b (3 * k) :=
  rd3_congr (h _ (by omega)) (h _ (by omega)) (h _ (by omega))

theorem tribootstrap_zones_aux (pts : Nat → ℚ) (n : Int) (buf : List Nat) (hn : 1 ≤ n)
    (hmax : 3 * n ≤ INT_MAX) (hlen : 3 * n ≤ buf.length) :
    ∃ b0 s, triinit n n.toNat 0 buf = some b0 ∧ tribootstrap pts n buf = some s ∧
      s.points = pts ∧ s.npoints = n ∧ s.r = 0 ∧ 0 ≤ s.c ∧ s.c ≤ s.e ∧ s.e ≤ n ∧
      ZonePerm 0 n b0 s.indices ∧
      ∀ k, 0 ≤ k → k < n → ∃ rec, rd3 s.indices (3 * k) = some rec ∧
        (k < s.c → ¬LeftTurn pts rec.1 rec.2.1 rec.2.2) ∧
        (s.c ≤ k → LeftTurn pts rec.1 rec.2.1 rec.2.2) ∧
        (s.c ≤ k → k < s.e → Blocked pts s.indices 0 s.c rec) ∧
        (s.e ≤ k → ¬Blocked pts s.indices 0 s.c rec) := by
  classical
  obtain ⟨b0, hb, hl, -, -⟩ := triinit_spec n n.toNat 0 buf (le_refl _) (by omega)
  have hl0 : 3 * n ≤ (b0.length : Int) := by omega
  -- first partition: convexity
  obtain ⟨t1, c, h1, c0, c1, sb1, zp1, fail1, sat1⟩ := tripartition_spec_aux triconvex
    (fun rec => decide (LeftTurn pts rec.1 rec.2.1 rec.2.2))
    { points := pts, indices := b0, npoints := n, r := 0, c := 0, e := 0 } 0 (le_refl _)
    (by show (0 : Int) ≤ n; omega) hl0
    (fun t i rec hsb h => triconvex_local _ 0 t i rec hsb h)
  obtain ⟨p1, n1, r1, -, -, l1, -⟩ := sb1
  have p1 : t1.points = pts := p1
  have n1 : t1.npoints = n := n1
  have r1 : t1.r = 0 := r1
  have l1 : t1.indices.length = b0.length := l1
  -- second partition: emptiness
  obtain ⟨t2, e, h2, e0, e1, sb2, zp2, fail2, sat2⟩ := tripartition_spec_aux triempty
    (fun rec => !decide (Blocked pts t1.indices 0 c rec))
    { t1 with c := c } c c0 (by show c ≤ t1.npoints; omega)
    (by show 3 * t1.npoints ≤ (t1.indices.length : Int); omega)
    (by
      intro t i rec hsb h
      obtain ⟨b, hb1, hb2⟩ := triempty_local { t1 with c := c } c
        (by show (0 : Int) ≤ t1.r; omega) (by show t1.r ≤ c; omega) (le_refl _)
        (by show 3 * c ≤ (t1.indices.length : Int); omega) t i rec hsb h
      have hb2 : b = false ↔ Blocked pts t1.indices 0 c rec := by
        have := hb2
        simp only [p1, r1] at this
        exact this
      rw [hb1]
      congr 1
      by_cases hB : Blocked pts t1.indices 0 c rec
      · rw [hb2.mpr hB]
        simp [hB]
      · have : b = true := by
          cases b
          · exact absurd (hb2.mp rfl) hB
          · rfl
        rw [this]
        simp [hB])
  obtain ⟨p2, n2, r2, c2, -, l2, low2⟩ := sb2
  have p2 : t2.points = t1.points := p2
  have n2 : t2.npoints = t1.npoints := n2
  have r2 : t2.r = t1.r := r2
  have c2 : t2.c = c := c2
  have low2 : ∀ k : Int, k < 3 * c → rd t2.indices k = rd t1.indices k := low2
  have e1 : e ≤ n := by
    have : e ≤ t1.npoints := e1
    omega
  have zp2 : ZonePerm c n t1.indices t2.indices := by
    have : ZonePerm c t1.npoints t1.indices t2.indices := zp2
    rw [n1] at this
    exact this
  refine ⟨b0, { t2 with e := e }, hb, ?_, ?_, ?_, ?_, ?_, ?_, ?_, ?_, ?_⟩
  · unfold tribootstrap
    rw [if_pos hmax]
    simp only [bind, Option.bind, hb, h1, h2, pure]
  · show t2.points = pts
    rw [p2, p1]
  · show t2.npoints = n
    rw [n2, n1]
  · show t2.r = 0
    rw [r2, r1]
  · show 0 ≤ t2.c
    omega
  · show t2.c ≤ e
    omega
  · exact e1
  · exact ZonePerm.trans zp1 (zp2.mono c0) (le_refl _)
  · intro k k0 k1
    show ∃ rec, rd3 t2.indices (3 * k) = some rec ∧
      (k < t2.c → ¬LeftTurn pts rec.1 rec.2.1 rec.2.2) ∧
      (t2.c ≤ k → LeftTurn pts rec.1 rec.2.1 rec.2.2) ∧
      (t2.c ≤ k → k < e → Blocked pts t2.indices 0 t2.c rec) ∧
      (e ≤ k → ¬Blocked pts t2.indices 0 t2.c rec)
    rw [c2]
    by_cases hk : k < c
    · obtain ⟨rec, hrec, hg⟩ := fail1 k k0 hk
      refine ⟨rec, ?_, ?_, ?_, ?_, ?_⟩
      · rw [rd3_same_below low2 hk]
        exact hrec
      · intro _
        simpa using hg
      · intro h
        omega
      · intro h
        omega
      · intro h
        omega
    · obtain ⟨σ, hfix, hperm⟩ := zp2
      obtain ⟨g0, g1⟩ := ZonePerm.zone_maps_into hfix (k := k) (by omega) k1
      obtain ⟨rec, hrec, hg⟩ := sat1 (σ k) g0 g1
      have hrec2 : rd3 t2.indices (3 * k) = some rec := by
        rw [hperm k k0 k1]
        exact hrec
      refine ⟨rec, hrec2, ?_, ?_, ?_, ?_⟩
      · intro h
        omega
      · intro _
        simpa using hg
      · intro _ hke
        obtain ⟨rec2, hr2, hg2⟩ := fail2 k (by omega) hke
        have hr2 : rd3 t2.indices (3 * k) = some rec2 := hr2
        rw [hrec2] at hr2
        cases hr2
        have hB : Blocked pts t1.indices 0 c rec := by simpa using hg2
        exact (Blocked.congr low2).mpr hB
      · intro hke
        have hk1 : k < t1.npoints := by omega
        obtain ⟨rec2, hr2, hg2⟩ := sat2 k hke hk1
        have hr2 : rd3 t2.indices (3 * k) = some rec2 := hr2
        rw [hrec2] at hr2
        cases hr2
        have hB : ¬Blocked pts t1.indices 0 c rec := by simpa using hg2
        exact fun h => hB ((Blocked.congr low2).mp h)


/-! ## Moving a relinked neighbour between the zones -/

theorem trimove_reflex (s : tristate) (j : Int) (hr : 0 ≤ s.r) (hrj : s.r ≤ j)
    (hjc : j < s.c) (hce : s.c ≤ s.e) (hen : s.e ≤ s.npoints)
    (hlen : 3 * s.npoints ≤ s.indices.length) :
    ∃ cv, triconvex s j = some cv ∧
      (cv = false → trimove s j = some s) ∧
      (cv = true → ∃ b1, triswap s.indices (3 * (s.c - 1)) (3 * j) = some b1 ∧
        ∃ em, triempty { s with c := s.c - 1, indices := b1 } (s.c - 1) = some em ∧
          (em = false → trimove s j = some { s with c := s.c - 1, indices := b1 }) ∧
          (em = true → ∃ b2, triswap b1 (3 * (s.e - 1)) (3 * (s.c - 1)) = some b2 ∧
            trimove s j = some { s with c := s.c - 1, e := s.e - 1, indices := b2 })) := by
  obtain ⟨cv, hcv⟩ := triconvex_isSome s j (by omega) (by omega)
  refine ⟨cv, hcv, ?_, ?_⟩
  · intro h
    unfold trimove
    rw [if_pos hjc]
    simp only [bind, Option.bind, hcv, h, Bool.not_false, if_true, pure]
  · intro h
    obtain ⟨b1, hb1⟩ := triswap_isSome s.indices (3 * (s.c - 1)) (3 * j) (by omega) (by omega)
      (by omega) (by omega)
    have hl1 := triswap_length hb1
    obtain ⟨em, hem⟩ := triempty_isSome { s with c := s.c - 1, indices := b1 } (s.c - 1)
      (by omega) (by show 3 * (s.c - 1) + 2 < (b1.length : Int); omega) hr
      (by show s.r ≤ s.c - 1; omega) (by show 3 * (s.c - 1) ≤ (b1.length : Int); omega)
    refine ⟨b1, hb1, em, hem, ?_, ?_⟩
    · intro he
      unfold trimove
      rw [if_pos hjc]
      simp only [bind, Option.bind, hcv, h, Bool.not_true, Bool.false_eq_true, if_false, hb1,
        hem, he, pure]
    · intro he
      obtain ⟨b2, hb2⟩ := triswap_isSome b1 (3 * (s.e - 1)) (3 * (s.c - 1)) (by omega)
        (by omega) (by omega) (by omega)
      refine ⟨b2, hb2, ?_⟩
      unfold trimove
      rw [if_pos hjc]
      simp only [bind, Option.bind, hcv, h, Bool.not_true, Bool.false_eq_true, if_false, hb1,
        hem, he, if_true, hb2, pure]

theorem trimove_convex (s : tristate) (j : Int) (hr : 0 ≤ s.r) (hrc : s.r ≤ s.c)
    (hcj : s.c ≤ j) (hje : j < s.e) (hen : s.e ≤ s.npoints)
    (hlen : 3 * s.npoints ≤ s.indices.length) :
    ∃ em, triempty s j = some em ∧
      (em = false → trimove s j = some s) ∧
      (em = true → ∃ b1, triswap s.indices (3 * (s.e - 1)) (3 * j) = some b1 ∧
        trimove s j = some { s with e := s.e - 1, indices := b1 }) := by
  obtain ⟨em, hem⟩ := triempty_isSome s j (by omega) (by omega) hr hrc (by omega)
  refine ⟨em, hem, ?_, ?_⟩
  · intro he
    unfold trimove
    rw [if_neg (show ¬(j < s.c) by omega), if_pos hje]
    simp only [bind, Option.bind, hem, he, Bool.false_eq_true, if_false, pure]
  · intro he
    obtain ⟨b1, hb1⟩ := triswap_isSome s.indices (3 * (s.e - 1)) (3 * j) (by omega) (by omega)
      (by omega) (by omega)
    refine ⟨b1, hb1, ?_⟩
    unfold trimove
    rw [if_neg (show ¬(j < s.c) by omega), if_pos hje]
    simp only [bind, Option.bind, hem, he, if_true, hb1, pure]

theorem trimove_ear (s : tristate) (j : Int) (hr : 0 ≤ s.r) (hrc : s.r ≤ s.c)
    (hce : s.c ≤ s.e) (hej : s.e ≤ j) (hjn : j < s.npoints)
    (hlen : 3 * s.npoints ≤ s.indices.length) (hcv : triconvex s j = some true) :
    ∃ em, triempty s j = some em ∧
      (em = true → trimove s j = some s) ∧
      (em = false → ∃ b1, triswap s.indices (3 * s.e) (3 * j) = some b1 ∧
        trimove s j = some { s with indices := b1, e := s.e + 1 }) := by
  obtain ⟨em, hem⟩ := triempty_isSome s j (by omega) (by omega) hr hrc (by omega)
  refine ⟨em, hem, ?_, ?_⟩
  · intro he
    unfold trimove
    rw [if_neg (show ¬(j < s.c) by omega), if_neg (show ¬(j < s.e) by omega)]
    simp only [bind, Option.bind, hcv, if_true, hem, he, pure]
  · intro he
    obtain ⟨b1, hb1⟩ := triswap_isSome s.indices (3 * s.e) (3 * j) (by omega) (by omega)
      (by omega) (by omega)
    have hrecj : ∃ rec, rd3 s.indices (3 * j) = some rec := rd3_isSome (by omega) (by omega)
    obtain ⟨⟨a, b, c⟩, hrec⟩ := hrecj
    have hrec2 : rd3 b1 (3 * (s.e + 1 - 1)) = some (a, b, c) := by
      rw [show s.e + 1 - 1 = s.e by ring, triswap_rd3 hb1 s.e]
      by_cases h : s.e = j
      · rw [if_pos h, h]
        exact hrec
      · rw [if_neg h, if_pos rfl]
        exact hrec
    have hcv1 : decide (LeftTurn s.points a b c) = true := by
      have := triconvex_eq hrec
      rw [hcv] at this
      exact (Option.some.inj this).symm
    have hcv2 : triconvex { s with indices := b1, e := s.e + 1 } (s.e + 1 - 1) = some true := by
      have := triconvex_eq (s := { s with indices := b1, e := s.e + 1 }) hrec2
      rw [this]
      exact congrArg some hcv1
    refine ⟨b1, hb1, ?_⟩
    unfold trimove
    rw [if_neg (show ¬(j < s.c) by omega), if_neg (show ¬(j < s.e) by omega)]
    simp only [bind, Option.bind, hcv, if_true, hem, he, Bool.false_eq_true, if_false, hb1,
      hcv2, Bool.not_true, pure]


theorem trimove_perm (s : tristate) (j : Int) (hwf : WellFormed s) (hrj : s.r ≤ j)
    (hjn : j < s.npoints) (hconv : s.e ≤ j → triconvex s j = some true) :
    ∃ t, trimove s j = some t ∧ t.points = s.points ∧ t.npoints = s.npoints ∧ t.r = s.r ∧
      WellFormed t ∧ ZonePerm s.r s.npoints s.indices t.indices := by
  obtain ⟨hr, hrc, hce, hen, hlen⟩ := hwf
  by_cases h1 : j < s.c
  · obtain ⟨cv, -, hf, ht⟩ := trimove_reflex s j hr hrj h1 hce hen hlen
    cases cv
    · exact ⟨s, hf rfl, rfl, rfl, rfl, ⟨hr, hrc, hce, hen, hlen⟩, ZonePerm.refl_zone _ _ _⟩
    · obtain ⟨b1, hb1, em, -, hef, het⟩ := ht rfl
      have z1 : ZonePerm s.r s.npoints s.indices b1 :=
        (ZonePerm.refl_zone _ _ _).swap_zone hb1 hr (by omega) (by omega) (by omega) (by omega)
      cases em
      · refine ⟨_, hef rfl, rfl, rfl, rfl, ⟨hr, ?_, ?_, hen, ?_⟩, z1⟩
        · show s.r ≤ s.c - 1
          omega
        · show s.c - 1 ≤ s.e
          omega
        · show 3 * s.npoints ≤ (b1.length : Int)
          rw [triswap_length hb1]
          exact hlen
      · obtain ⟨b2, hb2, hres⟩ := het rfl
        refine ⟨_, hres, rfl, rfl, rfl, ⟨hr, ?_, ?_, ?_, ?_⟩, ?_⟩
        · show s.r ≤ s.c - 1
          omega
        · show s.c - 1 ≤ s.e - 1
          omega
        · show s.e - 1 ≤ s.npoints
          omega
        · show 3 * s.npoints ≤ (b2.length : Int)
          rw [triswap_length hb2, triswap_length hb1]
          exact hlen
        · exact z1.swap_zone hb2 hr (by omega) (by omega) (by omega) (by omega)
  · by_cases h2 : j < s.e
    · obtain ⟨em, -, hf, ht⟩ := trimove_convex s j hr hrc (by omega) h2 hen hlen
      cases em
      · exact ⟨s, hf rfl, rfl, rfl, rfl, ⟨hr, hrc, hce, hen, hlen⟩, ZonePerm.refl_zone _ _ _⟩
      · obtain ⟨b1, hb1, hres⟩ := ht rfl
        refine ⟨_, hres, rfl, rfl, rfl, ⟨hr, hrc, ?_, ?_, ?_⟩, ?_⟩
        · show s.c ≤ s.e - 1
          omega
        · show s.e - 1 ≤ s.npoints
          omega
        · show 3 * s.npoints ≤ (b1.length : Int)
          rw [triswap_length hb1]
          exact hlen
        · exact (ZonePerm.refl_zone _ _ _).swap_zone hb1 hr (by omega) (by omega) (by omega) (by omega)
    · obtain ⟨em, -, ht, hf⟩ := trimove_ear s j hr hrc hce (by omega) hjn hlen
        (hconv (by omega))
      cases em
      · obtain ⟨b1, hb1, hres⟩ := hf rfl
        refine ⟨_, hres, rfl, rfl, rfl, ⟨hr, hrc, ?_, ?_, ?_⟩, ?_⟩
        · show s.c ≤ s.e + 1
          omega
        · show s.e + 1 ≤ s.npoints
          omega
        · show 3 * s.npoints ≤ (b1.length : Int)
          rw [triswap_length hb1]
          exact hlen
        · exact (ZonePerm.refl_zone _ _ _).swap_zone hb1 hr (by omega) (by omega) (by omega) (by omega)
      · exact ⟨s, ht rfl, rfl, rfl, rfl, ⟨hr, hrc, hce, hen, hlen⟩, ZonePerm.refl_zone _ _ _⟩

theorem trifind_spec (s : tristate) (v : Nat) :
    ∀ (m : Nat) (j0 : Int), 0 ≤ j0 → 3 * (j0 + m) ≤ s.indices.length →
      ∃ j, trifind s v m j0 = some j ∧ j0 ≤ j ∧ j ≤ j0 + m ∧
        (∀ k, j0 ≤ k → k < j → rd s.indices (3 * k + 1) ≠ some v) ∧
        (j < j0 + m → rd s.indices (3 * j + 1) = some v)
  | 0, j0, _, _ => ⟨j0, rfl, le_refl _, by omega, fun k k0 k1 => by omega, fun h => by omega⟩
  | m + 1, j0, h0, h1 => by
    obtain ⟨x, hx⟩ := rd_isSome s.indices (3 * j0 + 1) (by omega) (by omega)
    unfold trifind
    simp only [bind, Option.bind, hx]
    by_cases e : x = v
    · rw [if_pos e]
      exact ⟨j0, rfl, le_refl _, by omega, fun k k0 k1 => by omega, fun _ => by rw [hx, e]⟩
    · rw [if_neg e]
      obtain ⟨j, hj, a1, a2, a3, a4⟩ := trifind_spec s v m (j0 + 1) (by omega) (by omega)
      refine ⟨j, hj, by omega, by omega, ?_, fun h => a4 (by omega)⟩
      intro k k0 k1
      by_cases hk : k = j0
      · rw [hk, hx]
        intro hcon
        exact e (Option.some.inj hcon)
      · exact a3 k (by omega) k1

theorem rd3_wr_other {buf b : List Nat} {o : Int} {v : Nat} (h : wr buf o v = some b)
    {k : Int} (hk : o < 3 * k ∨ 3 * k + 3 ≤ o) : rd3 b (3 * k) = rd3 buf (3 * k) := by
  apply rd3_congr
  · rw [rd_wr h, if_neg (by omega)]
  · rw [rd_wr h, if_neg (by omega)]
  · rw [rd_wr h, if_neg (by omega)]

theorem rd3_wr_next {buf b : List Nat} {j : Int} {v : Nat} {t : Nat × Nat × Nat}
    (h : wr buf (3 * j + 2) v = some b) (ht : rd3 buf (3 * j) = some t) :
    rd3 b (3 * j) = some (t.1, t.2.1, v) := by
  obtain ⟨h0, h1, h2⟩ := rd3_eq_some ht
  apply rd3_of_rd
  · rw [rd_wr h, if_neg (by omega), h0]
  · rw [rd_wr h, if_neg (by omega), h1]
  · rw [rd_wr h, if_pos rfl]

theorem rd3_wr_prev {buf b : List Nat} {j : Int} {v : Nat} {t : Nat × Nat × Nat}
    (h : wr buf (3 * j) v = some b) (ht : rd3 buf (3 * j) = some t) :
    rd3 b (3 * j) = some (v, t.2.1, t.2.2) := by
  obtain ⟨h0, h1, h2⟩ := rd3_eq_some ht
  apply rd3_of_rd
  · rw [rd_wr h, if_pos rfl]
  · rw [rd_wr h, if_neg (by omega), h1]
  · rw [rd_wr h, if_neg (by omega), h2]


/-! ## Relinking the two neighbours of a removed ear -/

theorem relinkRec_self (ear : Nat × Nat × Nat) (i : Int) (t : Nat × Nat × Nat) :
    (relinkRec ear i t).2.1 = t.2.1 := by
  unfold relinkRec
  split
  · split <;> rfl
  · rfl

theorem relinkRec_other (ear : Nat × Nat × Nat) (i : Int) (t : Nat × Nat × Nat)
    (h : t.2.1 ≠ earAt ear i) : relinkRec ear i t = t := by
  unfold relinkRec
  rw [if_neg h]

theorem rd3_self {buf : List Nat} {k : Int} {t : Nat × Nat × Nat}
    (h : rd3 buf (3 * k) = some t) : rd buf (3 * k + 1) = some t.2.1 :=
  (rd3_eq_some h).2.1

theorem triupdate_step (s : tristate) (ear : Nat × Nat × Nat) (i : Int) (hi : i = 0 ∨ i = 2)
    (hwf : WellFormed s) (hd : ActiveDistinct s) (hh : ActiveHas s (earAt ear i))
    (hconv : ∀ (j : Int) (t : Nat × Nat × Nat), s.e ≤ j → j < s.npoints →
      rd3 s.indices (3 * j) = some t → t.2.1 = earAt ear i →
      LeftTurn s.points (relinkRec ear i t).1 (relinkRec ear i t).2.1 (relinkRec ear i t).2.2) :
    ∃ s1, triupdate s ear i = some s1 ∧ s1.points = s.points ∧ s1.npoints = s.npoints ∧
      s1.r = s.r ∧ WellFormed s1 ∧
      ∃ σ : Equiv.Perm Int, (∀ k, (k < s.r ∨ s.npoints ≤ k) → σ k = k) ∧
        ∀ k, 0 ≤ k → k < s.npoints → rd3 s1.indices (3 * k) =
          (rd3 s.indices (3 * σ k)).map (fun t => if k < s.r then t else relinkRec ear i t) := by
  obtain ⟨hr, hrc, hce, hen, hlen⟩ := hwf
  -- the scan finds the record of `ear[i]`
  obtain ⟨j, hj, j0, j1, hbelow, hat⟩ := trifind_spec s (earAt ear i) (s.npoints - s.r).toNat
    s.r hr (by omega)
  have hjn : j < s.npoints := by
    obtain ⟨j2, a0, a1, a2⟩ := hh
    by_contra hcon
    exact hbelow j2 a0 (by omega) a2
  have hself := hat (by omega)
  have hex : ∃ t, rd3 s.indices (3 * j) = some t := rd3_isSome (by omega) (by omega)
  obtain ⟨t, ht⟩ := hex
  have hts : t.2.1 = earAt ear i := by
    have := rd3_self ht
    rw [hself] at this
    exact (Option.some.inj this).symm
  -- the relinking write
  have hw := wr_isSome s.indices (3 * j + 2 - i) (earAt ear (2 - i)) (by omega) (by omega)
  generalize hb : s.indices.set (3 * j + 2 - i).toNat (earAt ear (2 - i)) = buf at hw
  have hlb : buf.length = s.indices.length := wr_length hw
  have hrecj : rd3 buf (3 * j) = some (relinkRec ear i t) := by
    unfold relinkRec
    rw [if_pos hts]
    rcases hi with h0 | h2
    · subst h0
      rw [if_pos rfl]
      exact rd3_wr_next (by rw [← hw]; congr 1; ring) ht
    · subst h2
      rw [if_neg (by decide)]
      exact rd3_wr_prev (by rw [← hw]; congr 1; ring) ht
  have hrec : ∀ k, 0 ≤ k → k < s.npoints → rd3 buf (3 * k) =
      (rd3 s.indices (3 * k)).map (fun t => if k < s.r then t else relinkRec ear i t) := by
    intro k k0 k1
    by_cases hk : k = j
    · subst hk
      rw [hrecj, ht, Option.map_some', if_neg (by omega)]
    · rw [rd3_wr_other hw (by omega)]
      have hex : ∃ t2, rd3 s.indices (3 * k) = some t2 := rd3_isSome (by omega) (by omega)
      obtain ⟨t2, ht2⟩ := hex
      rw [ht2, Option.map_some']
      by_cases hkr : k < s.r
      · rw [if_pos hkr]
      · rw [if_neg hkr, relinkRec_other]
        intro hcon
        apply hk
        exact hd k j (earAt ear i) (by omega) k1 j0 hjn (by rw [rd3_self ht2, hcon]) hself
  -- the move
  obtain ⟨s1, hm, p1, n1, r1, wf1, σ, hfix, hperm⟩ := trimove_perm { s with indices := buf } j
    ⟨hr, hrc, hce, hen, by show 3 * s.npoints ≤ (buf.length : Int); omega⟩ j0 hjn
    (by
      intro hej
      rw [triconvex_eq (s := { s with indices := buf }) (a := (relinkRec ear i t).1)
        (b := (relinkRec ear i t).2.1) (c := (relinkRec ear i t).2.2) hrecj]
      have := hconv j t hej hjn ht hts
      simp only [this, decide_True])
  refine ⟨s1, ?_, p1, n1, r1, wf1, σ, hfix, ?_⟩
  · unfold triupdate
    simp only [bind, Option.bind, hj, hw]
    exact hm
  · intro k k0 k1
    have hperm : rd3 s1.indices (3 * k) = rd3 buf (3 * σ k) := hperm k k0 k1
    have hfix : ∀ k, (k < s.r ∨ s.npoints ≤ k) → σ k = k := hfix
    by_cases hkr : k < s.r
    · rw [hperm, hfix k (Or.inl hkr), hrec k k0 k1]
    · obtain ⟨g0, g1⟩ := ZonePerm.zone_maps_into hfix (k := k) (by omega) k1
      have hnot : ¬(σ k < s.r) := by omega
      rw [hperm, hrec (σ k) (by omega) g1]
      simp only [hkr, hnot, if_false]


theorem self_transfer {s s1 : tristate} {ear : Nat × Nat × Nat} {i : Int}
    {σ : Equiv.Perm Int} (hr : 0 ≤ s.r) (hlen : 3 * s.npoints ≤ s.indices.length)
    (hfix : ∀ k, (k < s.r ∨ s.npoints ≤ k) → σ k = k)
    (hmap : ∀ k, 0 ≤ k → k < s.npoints → rd3 s1.indices (3 * k) =
      (rd3 s.indices (3 * σ k)).map (fun t => if k < s.r then t else relinkRec ear i t))
    {k : Int} (k0 : 0 ≤ k) (k1 : k < s.npoints) :
    0 ≤ σ k ∧ σ k < s.npoints ∧ rd s1.indices (3 * k + 1) = rd s.indices (3 * σ k + 1) := by
  have hin : 0 ≤ σ k ∧ σ k < s.npoints := by
    by_cases hk : k < s.r
    · rw [hfix k (Or.inl hk)]
      exact ⟨k0, k1⟩
    · obtain ⟨g0, g1⟩ := ZonePerm.zone_maps_into hfix (k := k) (by omega) k1
      exact ⟨by omega, g1⟩
  have hex : ∃ t, rd3 s.indices (3 * σ k) = some t := rd3_isSome (by omega) (by omega)
  obtain ⟨t, ht⟩ := hex
  have h1 := hmap k k0 k1
  rw [ht, Option.map_some'] at h1
  refine ⟨hin.1, hin.2, ?_⟩
  rw [rd3_self h1, rd3_self ht]
  congr 1
  by_cases hk : k < s.r
  · simp only [hk, if_true]
  · simp only [hk, if_false]
    exact relinkRec_self ear i t

theorem active_step {s s1 : tristate} {ear : Nat × Nat × Nat} {i : Int}
    {σ : Equiv.Perm Int} (hr : 0 ≤ s.r) (hlen : 3 * s.npoints ≤ s.indices.length)
    (hn1 : s1.npoints = s.npoints) (hr1 : s1.r = s.r)
    (hfix : ∀ k, (k < s.r ∨ s.npoints ≤ k) → σ k = k)
    (hmap : ∀ k, 0 ≤ k → k < s.npoints → rd3 s1.indices (3 * k) =
      (rd3 s.indices (3 * σ k)).map (fun t => if k < s.r then t else relinkRec ear i t))
    (hd : ActiveDistinct s) :
    ActiveDistinct s1 ∧ ∀ x, ActiveHas s x → ActiveHas s1 x := by
  constructor
  · intro j k x j0 j1 k0 k1 hj hk
    rw [hr1] at j0 k0
    rw [hn1] at j1 k1
    obtain ⟨-, -, ej⟩ := self_transfer hr hlen hfix hmap (k := j) (by omega) j1
    obtain ⟨-, -, ek⟩ := self_transfer hr hlen hfix hmap (k := k) (by omega) k1
    obtain ⟨a0, a1⟩ := ZonePerm.zone_maps_into hfix (k := j) j0 j1
    obtain ⟨b0, b1⟩ := ZonePerm.zone_maps_into hfix (k := k) k0 k1
    have := hd (σ j) (σ k) x a0 a1 b0 b1 (by rw [← ej]; exact hj) (by rw [← ek]; exact hk)
    exact σ.injective this
  · rintro x ⟨j, j0, j1, hj⟩
    have hfix2 : ∀ k, (k < s.r ∨ s.npoints ≤ k) → σ.symm k = k := by
      intro k hk
      have := hfix k hk
      rw [Equiv.symm_apply_eq]
      exact this.symm
    obtain ⟨a0, a1⟩ := ZonePerm.zone_maps_into hfix2 (k := j) j0 j1
    obtain ⟨-, -, e⟩ := self_transfer hr hlen hfix hmap (k := σ.symm j) (by omega) a1
    rw [Equiv.apply_symm_apply] at e
    exact ⟨σ.symm j, by rw [hr1]; exact a0, by rw [hn1]; exact a1, by rw [e]; exact hj⟩


/-! ## The reflex branch of `triupdate` -/

theorem triswap_rd3_swap {buf b : List Nat} {i l : Int}
    (h : triswap buf (3 * i) (3 * l) = some b) (k : Int) :
    rd3 b (3 * k) = rd3 buf (3 * Equiv.swap i l k) := by
  rw [triswap_rd3 h k, Equiv.swap_apply_def]
  by_cases h1 : k = l
  · rw [if_pos h1]
    by_cases h2 : k = i
    · rw [if_pos h2, ← h2, h1]
    · rw [if_neg h2, if_pos h1]
  · rw [if_neg h1]
    by_cases h2 : k = i
    · rw [if_pos h2, if_pos h2]
    · rw [if_neg h2, if_neg h2, if_neg h1]

theorem zone_after_one_swap (r c e j k : Int) (hrj : r ≤ j) (hjc : j < c) (hce : c ≤ e)
    (hk : k ≠ c - 1) : zoneOf r (c - 1) e k = zoneOf r c e (Equiv.swap (c - 1) j k) := by
  unfold zoneOf
  rw [Equiv.swap_apply_def]
  split_ifs <;> omega

theorem zone_after_two_swaps (r c e j k : Int) (hrj : r ≤ j) (hjc : j < c) (hce : c ≤ e)
    (hk : k ≠ e - 1) :
    zoneOf r (c - 1) (e - 1) k =
      zoneOf r c e (Equiv.swap (c - 1) j (Equiv.swap (e - 1) (c - 1) k)) := by
  unfold zoneOf
  rw [Equiv.swap_apply_def, Equiv.swap_apply_def]
  split_ifs <;> omega

theorem swap_fix_outside (lo hi a b k : Int) (ha : lo ≤ a ∧ a < hi) (hb : lo ≤ b ∧ b < hi)
    (hk : k < lo ∨ hi ≤ k) : Equiv.swap a b k = k :=
  Equiv.swap_apply_of_ne_of_ne (by omega) (by omega)


/-! ## Convexity and containment tests -/

/-- C16: with exact coordinates, `triconvex` on a record `(prev, self, next)` returns
true exactly when the cross product `(self - prev) x (next - self)`, which equals the
code's `x2 * y1 - x1 * y2` for the vectors `prev - self` and `next - self`, is strictly
positive; a collinear triple is classified as not convex, and reversing the winding of a
non-collinear triple inverts the result. -/
theorem triconvex_iff_left_turn (s : tristate) (i : Int) (a b c : Nat)
    (h : rd3 s.indices (3 * i) = some (a, b, c)) :
    triconvex s i = some (decide (0 < cross s.points a b c)) ∧
      cross s.points a b c =
        (s.points (2 * c + 0) - s.points (2 * b + 0)) *
            (s.points (2 * a + 1) - s.points (2 * b + 1)) -
          (s.points (2 * a + 0) - s.points (2 * b + 0)) *
            (s.points (2 * c + 1) - s.points (2 * b + 1)) ∧
      (cross s.points a b c = 0 → triconvex s i = some false) ∧
      (cross s.points a b c ≠ 0 → ∀ (t : tristate) (j : Int), t.points = s.points →
        rd3 t.indices (3 * j) = some (c, b, a) →
        triconvex t j = some (!decide (0 < cross s.points a b c))) := by
  have h1 : triconvex s i = some (decide (0 < cross s.points a b c)) := triconvex_eq h
  refine ⟨h1, ?_, ?_, ?_⟩
  · unfold cross
    simp only [add_zero]
    ring
  · intro h0
    rw [h1, h0]
    simp
  · intro hne t j hp ht
    have h2 : triconvex t j = some (decide (0 < cross t.points c b a)) := triconvex_eq ht
    rw [h2, hp, cross_reverse]
    congr 1
    rcases lt_or_gt_of_ne hne with hlt | hgt
    · have e1 : decide (0 < -cross s.points a b c) = true := by
        rw [decide_eq_true_eq]
        linarith
      have e2 : decide (0 < cross s.points a b c) = false := by
        rw [decide_eq_false_iff_not]
        linarith
      rw [e1, e2]
      rfl
    · have e1 : decide (0 < -cross s.points a b c) = false := by
        rw [decide_eq_false_iff_not]
        linarith
      have e2 : decide (0 < cross s.points a b c) = true := by
        rw [decide_eq_true_eq]
        linarith
      rw [e1, e2]
      rfl

/-- The hypothesis of C16 holds for record 0 of the identity ring of the unit square. -/
theorem triconvex_iff_left_turn_witness :
    rd3 (fanState unitSquare 4 0).indices (3 * 0) = some (3, 0, 1) ∧
      triconvex (fanState unitSquare 4 0) 0 = some (decide (0 < cross unitSquare 3 0 1)) :=
  ⟨by decide, (triconvex_iff_left_turn (fanState unitSquare 4 0) 0 3 0 1 (by decide)).1⟩

/-- C17, as stated, fails: in the triangle `a = (0,0)`, `b = (0,1)`, `c = (1,0)` the point
`p = (1/2, 0)` lies on the edge from `a` to `c` and `triinside` reports it as inside. -/
theorem triinside_edge_counterexample :
    Nondegenerate (0, 0) (0, 1) (1, 0) ∧
      Barycentric (1 / 2, 0) (0, 0) (0, 1) (1, 0) (1 / 2) 0 ∧
      triinside (1 / 2, 0) (0, 0) (0, 1) (1, 0) = true := by
  refine ⟨?_, ?_, by decide!⟩
  · unfold Nondegenerate
    norm_num
  · unfold Barycentric
    norm_num

/-- C17, amended: for every non-degenerate triangle `(a, b, c)`, `triinside` is false at
every point of the line through `b` and `c` (the edge opposite to `a`), and true at every
point of the edges from `a` to `c` and from `a` to `b` other than the end points `c` and
`b`, the corner `a` included: the test is half-open, not strict. -/
theorem triinside_on_edges (p a b c : ℚ × ℚ) (hnd : Nondegenerate a b c) :
    (∀ t : ℚ, p.1 = b.1 + t * (c.1 - b.1) → p.2 = b.2 + t * (c.2 - b.2) →
        triinside p a b c = false) ∧
      (∀ t : ℚ, 0 ≤ t → t < 1 → p.1 = a.1 + t * (c.1 - a.1) → p.2 = a.2 + t * (c.2 - a.2) →
        triinside p a b c = true) ∧
      (∀ t : ℚ, 0 ≤ t → t < 1 → p.1 = a.1 + t * (b.1 - a.1) → p.2 = a.2 + t * (b.2 - a.2) →
        triinside p a b c = true) := by
  refine ⟨?_, ?_, ?_⟩
  · intro t h1 h2
    have hb : Barycentric p a b c t (1 - t) := by
      unfold Barycentric
      exact ⟨by rw [h1]; ring, by rw [h2]; ring⟩
    have := triinside_bary hnd hb
    cases hin : triinside p a b c
    · rfl
    · have := this.mp hin
      linarith [this.2.2]
  · intro t t0 t1 h1 h2
    have hb : Barycentric p a b c t 0 := by
      unfold Barycentric
      exact ⟨by rw [h1]; ring, by rw [h2]; ring⟩
    exact (triinside_bary hnd hb).mpr ⟨t0, le_refl _, by linarith⟩
  · intro t t0 t1 h1 h2
    have hb : Barycentric p a b c 0 t := by
      unfold Barycentric
      exact ⟨by rw [h1]; ring, by rw [h2]; ring⟩
    exact (triinside_bary hnd hb).mpr ⟨le_refl _, t0, by linarith⟩

/-- The hypothesis of the amended C17 holds for the triangle `(0,0)`, `(0,1)`, `(1,0)`. -/
theorem triinside_on_edges_witness :
    Nondegenerate (0, 0) (0, 1) (1, 0) ∧
      (∀ t : ℚ, 0 ≤ t → t < 1 → ((1 / 2, 0) : ℚ × ℚ).1 = (0 : ℚ) + t * (1 - 0) →
        ((1 / 2, 0) : ℚ × ℚ).2 = (0 : ℚ) + t * (0 - 0) →
        triinside (1 / 2, 0) (0, 0) (0, 1) (1, 0) = true) :=
  ⟨by unfold Nondegenerate; norm_num,
    (triinside_on_edges (1 / 2, 0) (0, 0) (0, 1) (1, 0)
      (by unfold Nondegenerate; norm_num)).2.1⟩

/-- C18: with exact coordinates, for every non-degenerate triangle `(a, b, c)` and every
point `p` there is exactly one pair `(u, v)` with `p = a + u * (c - a) + v * (b - a)`, and
`triinside p a b c` is true if and only if `u >= 0`, `v >= 0` and `u + v < 1`. -/
theorem triinside_iff_barycentric (p a b c : ℚ × ℚ) (hnd : Nondegenerate a b c) :
    ∃ u v, Barycentric p a b c u v ∧
      (∀ u2 v2, Barycentric p a b c u2 v2 → u2 = u ∧ v2 = v) ∧
      (triinside p a b c = true ↔ 0 ≤ u ∧ 0 ≤ v ∧ u + v < 1) := by
  obtain ⟨u, v, huv⟩ := barycentric_exists (p := p) hnd
  exact ⟨u, v, huv, fun u2 v2 h2 => barycentric_unique hnd huv h2, triinside_bary hnd huv⟩

/-- The hypothesis of C18 holds for the triangle `(0,0)`, `(0,1)`, `(1,0)`. -/
theorem triinside_iff_barycentric_witness :
    Nondegenerate (0, 0) (0, 1) (1, 0) ∧
      ∃ u v, Barycentric (1 / 4, 1 / 4) (0, 0) (0, 1) (1, 0) u v ∧
        (∀ u2 v2, Barycentric (1 / 4, 1 / 4) (0, 0) (0, 1) (1, 0) u2 v2 → u2 = u ∧ v2 = v) ∧
        (triinside (1 / 4, 1 / 4) (0, 0) (0, 1) (1, 0) = true ↔ 0 ≤ u ∧ 0 ≤ v ∧ u + v < 1) :=
  ⟨by unfold Nondegenerate; norm_num,
    triinside_iff_barycentric (1 / 4, 1 / 4) (0, 0) (0, 1) (1, 0)
      (by unfold Nondegenerate; norm_num)⟩


/-! ## The fan of a convex polygon; one and two points -/

/-- C19: for every strictly convex counter-clockwise polygon with `n >= 3` (every triple
of vertices `i < j < k`, hence every cyclically ordered triple, is a strict left turn) the
run on a buffer of `3 * n` slots returns `n - 2` and the triples at positions
`0 .. n - 3` of the buffer are exactly `(n - 1, i, i + 1)`: ear `r` is removed in step `r`
(`triremove` takes `fanState pts n r` to `fanState pts n (r + 1)`), and in every such
state position `i` holds the record of vertex `i`. -/
theorem convex_fan (pts : Nat → ℚ) (n : Nat) (buf : List Nat) (hn : 3 ≤ n)
    (hlen : buf.length = 3 * n) (hmax : 3 * (n : Int) ≤ INT_MAX)
    (hconv : ∀ i j k : Nat, i < j → j < k → k < n → LeftTurn pts i j k) :
    ∃ out, triangulate (some pts) n (some buf) = some ((n : Int) - 2, some out) ∧
      (∀ i : Nat, i + 3 ≤ n → tripleAt out i = some (n - 1, i, i + 1)) ∧
      tribootstrap pts n buf = some (fanState pts n 0) ∧
      (∀ r : Nat, r + 3 < n → triremove (fanState pts n r) = some (fanState pts n (r + 1))) ∧
      (∀ r i : Nat, i < n → ∃ a c, tripleAt (fanState pts n r).indices i = some (a, i, c)) := by
  have hloc : ∀ i : Nat, i < n → LeftTurn pts ((i + n - 1) % n) i ((i + 1) % n) := by
    intro i hi
    by_cases h0 : i = 0
    · subst h0
      have e1 : (0 + n - 1) % n = n - 1 := by
        rw [Nat.zero_add]
        exact Nat.mod_eq_of_lt (by omega)
      have e2 : (0 + 1) % n = 1 := Nat.mod_eq_of_lt (by omega)
      rw [e1, e2]
      exact (hconv 0 1 (n - 1) (by omega) (by omega) (by omega)).rotate.rotate
    · by_cases h1 : i = n - 1
      · subst h1
        have e1 : (n - 1 + n - 1) % n = n - 2 := by
          have : n - 1 + n - 1 = (n - 2) + 1 * n := by omega
          rw [this, Nat.add_mul_mod_self_right]
          exact Nat.mod_eq_of_lt (by omega)
        have e2 : (n - 1 + 1) % n = 0 := by
          have : n - 1 + 1 = n := by omega
          rw [this, Nat.mod_self]
        rw [e1, e2]
        exact (hconv 0 (n - 2) (n - 1) (by omega) (by omega) (by omega)).rotate
      · have e1 : (i + n - 1) % n = i - 1 := by
          have : i + n - 1 = (i - 1) + 1 * n := by omega
          rw [this, Nat.add_mul_mod_self_right]
          exact Nat.mod_eq_of_lt (by omega)
        have e2 : (i + 1) % n = i + 1 := Nat.mod_eq_of_lt (by omega)
        rw [e1, e2]
        exact hconv (i - 1) i (i + 1) (by omega) (by omega) (by omega)
  have hb := tribootstrap_convex pts n buf (by omega) hmax hlen hloc
  have hl := triloop_fan pts n hconv (n - 3) 0 (by omega)
  have hm : ((n : Int) - 3).toNat = n - 3 := by omega
  refine ⟨fanBuf n (n - 3), ?_, ?_, hb, ?_, ?_⟩
  · unfold triangulate
    rw [if_neg (show ¬((n : Int) ≤ 0) by omega)]
    simp only [hmax, if_true, bind, Option.bind, hb, hm, hl, pure]
    simp only [fanState]
    congr 2
    omega
  · intro i hi
    unfold tripleAt
    rw [rd3_fanBuf n (n - 3) i (by omega), if_pos (by omega)]
    congr 2
    by_cases h : i < n - 3
    · rw [if_pos h]
    · rw [if_neg h, if_neg (by omega)]
  · intro r hr
    exact triremove_fan pts n r hr hconv
  · intro r i hi
    unfold tripleAt fanState
    rw [rd3_fanBuf n r i hi]
    exact ⟨_, _, rfl⟩

/-- The hypotheses of C19 hold on the unit square. -/
theorem convex_fan_witness :
    3 ≤ 4 ∧ (List.replicate 12 0).length = 3 * 4 ∧ 3 * ((4 : Nat) : Int) ≤ INT_MAX ∧
      (∀ i j k : Nat, i < j → j < k → k < 4 → LeftTurn unitSquare i j k) ∧
      ∃ out, triangulate (some unitSquare) (4 : Nat) (some (List.replicate 12 0)) =
          some (((4 : Nat) : Int) - 2, some out) ∧
        (∀ i : Nat, i + 3 ≤ 4 → tripleAt out i = some (4 - 1, i, i + 1)) := by
  have hconv : ∀ i j k : Nat, i < j → j < k → k < 4 → LeftTurn unitSquare i j k := by
    intro i j k hij hjk hk
    interval_cases k <;> interval_cases j <;> interval_cases i <;> decide!
  obtain ⟨out, h1, h2, -⟩ := convex_fan unitSquare 4 (List.replicate 12 0) (by decide)
    (by decide) (by decide) hconv
  exact ⟨by decide, by decide, by decide, hconv, out, h1, h2⟩

/-- C20: for `npoints = 1` and for `npoints = 2` with non-null arguments (and a buffer of
at least `3 * npoints` slots) `triangulate` performs no ear removal (it returns the buffer
of the bootstrap) and returns 1; the first buffer triple is `(0,0,0)` when `npoints = 1`
and has a repeated vertex when `npoints = 2`. -/
theorem triangulate_one_two (pts : Nat → ℚ) (buf : List Nat) :
    (3 ≤ buf.length → ∃ s, tribootstrap pts 1 buf = some s ∧
        triangulate (some pts) 1 (some buf) = some (1, some s.indices) ∧
        tripleAt s.indices 0 = some (0, 0, 0)) ∧
      (6 ≤ buf.length → ∃ s, tribootstrap pts 2 buf = some s ∧
        triangulate (some pts) 2 (some buf) = some (1, some s.indices) ∧
        ∃ a b, tripleAt s.indices 0 = some (a, b, a)) := by
  constructor
  · intro hlen
    obtain ⟨b0, s, -, hring, hs, hnp, hr, σ, hfix, hrec⟩ := tribootstrap_total pts 1 buf
      (by decide) (by unfold INT_MAX; omega) (by omega)
    have hloop : triloop ((1 : Int) - 3).toNat s = some s := by
      have : ((1 : Int) - 3).toNat = 0 := by decide
      rw [this]
      unfold triloop
      rw [if_neg (by rw [hr, hnp]; decide)]
    refine ⟨s, hs, ?_, ?_⟩
    · unfold triangulate
      rw [if_neg (show ¬((1 : Int) ≤ 0) by decide)]
      simp only [show 3 * (1 : Int) ≤ INT_MAX by decide, if_true, bind, Option.bind, hs,
        hloop, pure, hr]
      rfl
    · have h0 := hrec 0 (by decide) (by decide)
      obtain ⟨g0, g1⟩ := RecPerm.maps_into hfix (k := 0) (by decide) (by decide)
      have hc : σ 0 = 0 := by omega
      have e0 : rd3 b0 (3 * 0) = some (0, 0, 0) := hring 0 (by decide) (by decide)
      unfold tripleAt
      simp only [Nat.cast_zero]
      rw [hc, e0] at h0
      exact h0
  · intro hlen
    obtain ⟨b0, s, -, hring, hs, hnp, hr, σ, hfix, hrec⟩ := tribootstrap_total pts 2 buf
      (by decide) (by unfold INT_MAX; omega) (by omega)
    have hloop : triloop ((2 : Int) - 3).toNat s = some s := by
      have : ((2 : Int) - 3).toNat = 0 := by decide
      rw [this]
      unfold triloop
      rw [if_neg (by rw [hr, hnp]; decide)]
    refine ⟨s, hs, ?_, ?_⟩
    · unfold triangulate
      rw [if_neg (show ¬((2 : Int) ≤ 0) by decide)]
      simp only [show 3 * (2 : Int) ≤ INT_MAX by decide, if_true, bind, Option.bind, hs,
        hloop, pure, hr]
      rfl
    · have h0 := hrec 0 (by decide) (by decide)
      obtain ⟨g0, g1⟩ := RecPerm.maps_into hfix (k := 0) (by decide) (by decide)
      have hc : σ 0 = 0 ∨ σ 0 = 1 := by omega
      have e0 : rd3 b0 (3 * 0) = some (1, 0, 1) := hring 0 (by decide) (by decide)
      have e1 : rd3 b0 (3 * 1) = some (0, 1, 0) := hring 1 (by decide) (by decide)
      unfold tripleAt
      simp only [Nat.cast_zero]
      rcases hc with hc | hc
      · rw [hc, e0] at h0
        exact ⟨1, 0, h0⟩
      · rw [hc, e1] at h0
        exact ⟨0, 1, h0⟩

/-- Both cases of C20 on concrete buffers of exactly 3 and 6 slots. -/
theorem triangulate_one_two_witness :
    (∃ s, tribootstrap unitSquare 1 (List.replicate 3 7) = some s ∧
        triangulate (some unitSquare) 1 (some (List.replicate 3 7)) = some (1, some s.indices) ∧
        tripleAt s.indices 0 = some (0, 0, 0)) ∧
      (∃ s, tribootstrap unitSquare 2 (List.replicate 6 7) = some s ∧
        triangulate (some unitSquare) 2 (some (List.replicate 6 7)) = some (1, some s.indices) ∧
        ∃ a b, tripleAt s.indices 0 = some (a, b, a)) :=
  ⟨(triangulate_one_two unitSquare (List.replicate 3 7)).1 (by decide),
    (triangulate_one_two unitSquare (List.replicate 6 7)).2 (by decide)⟩


/-! ## The bulk partition and the zones after the bootstrap -/

/-- C15: for every buffer with room for `n` records, every start `l` with `0 <= l <= n`
and every predicate `f` whose value on a record depends on the record alone, as long as
the state below offset `3 * l` is the one of the call (`g` is that value), `tripartition`
returns `l2` with `l <= l2 <= n` such that every record in `[l, l2)` fails `f` and every
record in `[l2, n)` satisfies `f`, the records of `[l, n)` are permuted as whole triples,
and the positions below `l` are unchanged. -/
theorem tripartition_spec (f : tristate → Int → Option Bool) (g : Nat × Nat × Nat → Bool)
    (s : tristate) (l : Int) (hl0 : 0 ≤ l) (hln : l ≤ s.npoints)
    (hlen : 3 * s.npoints ≤ s.indices.length)
    (hf : ∀ (t : tristate) (i : Int) (rec : Nat × Nat × Nat), SameBelow s l t →
      rd3 t.indices (3 * i) = some rec → f t i = some (g rec)) :
    ∃ t l2, tripartition s l f = some (t, l2) ∧ l ≤ l2 ∧ l2 ≤ s.npoints ∧
      (∀ k, l ≤ k → k < l2 → f t k = some false) ∧
      (∀ k, l2 ≤ k → k < s.npoints → f t k = some true) ∧
      ZonePerm l s.npoints s.indices t.indices ∧
      (∀ k : Int, k < 3 * l → rd t.indices k = rd s.indices k) := by
  obtain ⟨t, l2, h, a1, a2, sb, zp, fail, sat⟩ := tripartition_spec_aux f g s l hl0 hln hlen hf
  refine ⟨t, l2, h, a1, a2, ?_, ?_, zp, sb.2.2.2.2.2.2⟩
  · intro k k0 k1
    obtain ⟨rec, hrec, hg⟩ := fail k k0 k1
    rw [hf t k rec sb hrec, hg]
  · intro k k0 k1
    obtain ⟨rec, hrec, hg⟩ := sat k k0 k1
    rw [hf t k rec sb hrec, hg]

/-- The hypotheses of C15 hold for `triconvex` on the identity ring of the clockwise
square, from `l = 0`. -/
theorem tripartition_spec_witness :
    (0 : Int) ≤ 0 ∧ (0 : Int) ≤ (fanState clockwiseSquare 4 0).npoints ∧
      3 * (fanState clockwiseSquare 4 0).npoints ≤ (fanState clockwiseSquare 4 0).indices.length ∧
      ∃ t l2, tripartition (fanState clockwiseSquare 4 0) 0 triconvex = some (t, l2) ∧
        0 ≤ l2 ∧ l2 ≤ (fanState clockwiseSquare 4 0).npoints ∧
        (∀ k, 0 ≤ k → k < l2 → triconvex t k = some false) ∧
        (∀ k, l2 ≤ k → k < (fanState clockwiseSquare 4 0).npoints → triconvex t k = some true) ∧
        ZonePerm 0 (fanState clockwiseSquare 4 0).npoints (fanState clockwiseSquare 4 0).indices
          t.indices ∧
        (∀ k : Int, k < 3 * 0 → rd t.indices k = rd (fanState clockwiseSquare 4 0).indices k) :=
  ⟨by decide, by decide, by decide,
    tripartition_spec triconvex
      (fun rec => decide (LeftTurn clockwiseSquare rec.1 rec.2.1 rec.2.2))
      (fanState clockwiseSquare 4 0) 0 (by decide) (by decide) (by decide)
      (fun t i rec hsb h => triconvex_local _ 0 t i rec hsb h)⟩

/-- C14: for every input with `n >= 1`, `3 * n <= INT_MAX` (the offsets are `int`),
non-null arguments and a buffer of at least `3 * n` slots, the two bulk partitions return
and end with `0 = r <= c <= e <= n`, the buffer holds
the `n` records `((i - 1) mod n, i, (i + 1) mod n)` of the identity ring in some order,
and every record sits in the zone of its classification: the records in `[0, c)` are not
convex, those in `[c, e)` are convex and blocked by a vertex of the zone `[0, c)` other
than their corners, those in `[e, n)` are convex and not blocked. -/
theorem tribootstrap_zones (pts : Nat → ℚ) (n : Int) (buf : List Nat) (hn : 1 ≤ n)
    (hmax : 3 * n ≤ INT_MAX) (hlen : 3 * n ≤ buf.length) :
    ∃ s, tribootstrap pts n buf = some s ∧ s.npoints = n ∧ s.r = 0 ∧ 0 ≤ s.c ∧ s.c ≤ s.e ∧
      s.e ≤ n ∧
      (∃ σ : Equiv.Perm Int, (∀ k, (k < 0 ∨ n ≤ k) → σ k = k) ∧
        ∀ k, 0 ≤ k → k < n → rd3 s.indices (3 * k) =
          some (((σ k - 1 + n) % n).toNat, (σ k).toNat, ((σ k + 1) % n).toNat)) ∧
      ∀ k, 0 ≤ k → k < n → ∃ rec, rd3 s.indices (3 * k) = some rec ∧
        (k < s.c → ¬LeftTurn pts rec.1 rec.2.1 rec.2.2) ∧
        (s.c ≤ k → LeftTurn pts rec.1 rec.2.1 rec.2.2) ∧
        (s.c ≤ k → k < s.e → Blocked pts s.indices 0 s.c rec) ∧
        (s.e ≤ k → ¬Blocked pts s.indices 0 s.c rec) := by
  obtain ⟨b0, s, hb, hs, -, hnp, hr, hc, hce, he, ⟨σ, hfix, hperm⟩, hz⟩ :=
    tribootstrap_zones_aux pts n buf hn hmax hlen
  obtain ⟨b1, hb1, -, -, hring⟩ := triinit_spec n n.toNat 0 buf (le_refl _) (by omega)
  rw [hb] at hb1
  cases hb1
  refine ⟨s, hs, hnp, hr, hc, hce, he, ⟨σ, hfix, ?_⟩, hz⟩
  intro k k0 k1
  obtain ⟨g0, g1⟩ := ZonePerm.zone_maps_into hfix (k := k) k0 k1
  obtain ⟨r0, r1, r2⟩ := hring (σ k) (by omega) (by omega)
  rw [hperm k k0 k1]
  exact rd3_of_rd r0 r1 r2

/-- The hypotheses of C14 hold on the L-shaped hexagon with a buffer of 18 slots. -/
theorem tribootstrap_zones_witness :
    (1 : Int) ≤ 6 ∧ 3 * (6 : Int) ≤ INT_MAX ∧ 3 * (6 : Int) ≤ (List.replicate 18 0).length ∧
      ∃ s, tribootstrap lShape 6 (List.replicate 18 0) = some s ∧ s.npoints = 6 ∧ s.r = 0 ∧
        0 ≤ s.c ∧ s.c ≤ s.e ∧ s.e ≤ 6 ∧
        (∃ σ : Equiv.Perm Int, (∀ k, (k < 0 ∨ 6 ≤ k) → σ k = k) ∧
          ∀ k, 0 ≤ k → k < 6 → rd3 s.indices (3 * k) =
            some (((σ k - 1 + 6) % 6).toNat, (σ k).toNat, ((σ k + 1) % 6).toNat)) ∧
        ∀ k, 0 ≤ k → k < 6 → ∃ rec, rd3 s.indices (3 * k) = some rec ∧
          (k < s.c → ¬LeftTurn lShape rec.1 rec.2.1 rec.2.2) ∧
          (s.c ≤ k → LeftTurn lShape rec.1 rec.2.1 rec.2.2) ∧
          (s.c ≤ k → k < s.e → Blocked lShape s.indices 0 s.c rec) ∧
          (s.e ≤ k → ¬Blocked lShape s.indices 0 s.c rec) :=
  ⟨by decide, by decide, by decide,
    tribootstrap_zones lShape 6 (List.replicate 18 0) (by decide) (by decide) (by decide)⟩


/-! ## The two relinking updates after an ear removal -/

/-- C13: in a well-formed state whose active `self` fields are pairwise distinct and
contain `p` and `q`, the two neighbours of the removed ear `(p, v, q)` (a triangle:
`p` and `q` differ), when neither neighbour is an ear that has ceased to be convex, the
calls `triupdate(ear, 0)` and `triupdate(ear, 2)` return and leave at every position `k`
of the active zone the record of some position `σ k` of the state before, with `next = q`
if its `self` is `p`, with `prev = p` if its `self` is `q`, and unchanged otherwise; the
positions of the output zone are untouched. -/
theorem triupdate_relinks (s : tristate) (p v q : Nat) (hpq : p ≠ q) (hwf : WellFormed s)
    (hd : ActiveDistinct s) (hp : ActiveHas s p) (hq : ActiveHas s q)
    (hconv0 : ∀ (j : Int) (t : Nat × Nat × Nat), s.e ≤ j → j < s.npoints →
      rd3 s.indices (3 * j) = some t → t.2.1 = p → LeftTurn s.points t.1 p q) :
    ∃ s1, triupdate s (p, v, q) 0 = some s1 ∧
      ((∀ (j : Int) (t : Nat × Nat × Nat), s1.e ≤ j → j < s1.npoints →
          rd3 s1.indices (3 * j) = some t → t.2.1 = q → LeftTurn s1.points p q t.2.2) →
        ∃ s2, triupdate s1 (p, v, q) 2 = some s2 ∧ s2.r = s.r ∧ s2.npoints = s.npoints ∧
          WellFormed s2 ∧
          ∃ σ : Equiv.Perm Int, (∀ k, (k < s.r ∨ s.npoints ≤ k) → σ k = k) ∧
            ∀ k, 0 ≤ k → k < s.npoints → ∃ t, rd3 s.indices (3 * σ k) = some t ∧
              rd3 s2.indices (3 * k) = some (if k < s.r then t
                else if t.2.1 = p then (t.1, p, q)
                else if t.2.1 = q then (p, q, t.2.2) else t)) := by
  have e0 : earAt (p, v, q) 0 = p := rfl
  have e2 : earAt (p, v, q) 2 = q := rfl
  have e20 : earAt (p, v, q) (2 - 0) = q := rfl
  have e22 : earAt (p, v, q) (2 - 2) = p := rfl
  have rl0 : ∀ t : Nat × Nat × Nat, t.2.1 = p → relinkRec (p, v, q) 0 t = (t.1, p, q) := by
    intro t ht
    unfold relinkRec
    rw [e0, if_pos ht, if_pos rfl, e20, ht]
  have rl2 : ∀ t : Nat × Nat × Nat, t.2.1 = q → relinkRec (p, v, q) 2 t = (p, q, t.2.2) := by
    intro t ht
    unfold relinkRec
    rw [e2, if_pos ht, if_neg (by decide), e22, ht]
  obtain ⟨hr, hrc, hce, hen, hlen⟩ := hwf
  obtain ⟨s1, h1, p1, n1, r1, wf1, σ1, fix1, map1⟩ := triupdate_step s (p, v, q) 0 (Or.inl rfl)
    ⟨hr, hrc, hce, hen, hlen⟩ hd hp
    (by
      intro j t hj hjn ht hts
      rw [rl0 t hts]
      exact hconv0 j t hj hjn ht hts)
  refine ⟨s1, h1, ?_⟩
  intro hconv2
  obtain ⟨hd1, hh1⟩ := active_step hr hlen n1 r1 fix1 map1 hd
  obtain ⟨s2, h2, p2, n2, r2, wf2, σ2, fix2, map2⟩ := triupdate_step s1 (p, v, q) 2 (Or.inr rfl)
    wf1 hd1 (hh1 q hq)
    (by
      intro j t hj hjn ht hts
      rw [rl2 t hts]
      exact hconv2 j t hj hjn ht hts)
  rw [r1, n1] at fix2 map2
  refine ⟨s2, h2, by rw [r2, r1], by rw [n2, n1], wf2, σ2.trans σ1, ?_, ?_⟩
  · intro k hk
    simp only [Equiv.trans_apply, fix2 k hk, fix1 k hk]
  · intro k k0 k1
    have hin2 : 0 ≤ σ2 k ∧ σ2 k < s.npoints ∧ (k < s.r ↔ σ2 k < s.r) := by
      by_cases hk : k < s.r
      · rw [fix2 k (Or.inl hk)]
        exact ⟨k0, k1, Iff.rfl⟩
      · obtain ⟨g0, g1⟩ := ZonePerm.zone_maps_into fix2 (k := k) (by omega) k1
        exact ⟨by omega, g1, by constructor <;> intro h <;> omega⟩
    obtain ⟨a0, a1, a2⟩ := hin2
    have hin1 : 0 ≤ σ1 (σ2 k) ∧ σ1 (σ2 k) < s.npoints := by
      by_cases hk : σ2 k < s.r
      · rw [fix1 _ (Or.inl hk)]
        exact ⟨a0, a1⟩
      · obtain ⟨g0, g1⟩ := ZonePerm.zone_maps_into fix1 (k := σ2 k) (by omega) a1
        exact ⟨by omega, g1⟩
    have hex : ∃ t, rd3 s.indices (3 * σ1 (σ2 k)) = some t :=
      rd3_isSome (by omega) (by omega)
    obtain ⟨t, ht⟩ := hex
    refine ⟨t, ht, ?_⟩
    rw [map2 k k0 k1, map1 (σ2 k) a0 a1, ht, Option.map_some', Option.map_some']
    congr 1
    by_cases hk : k < s.r
    · have hk2 : σ2 k < s.r := a2.mp hk
      simp only [hk, hk2, if_true]
    · have hk2 : ¬(σ2 k < s.r) := fun h => hk (a2.mpr h)
      simp only [hk, hk2, if_false]
      by_cases htp : t.2.1 = p
      · have hne : (t.1, p, q).2.1 ≠ earAt (p, v, q) 2 := hpq
        rw [rl0 t htp, if_pos htp, relinkRec_other (p, v, q) 2 (t.1, p, q) hne]
      · have hne0 : t.2.1 ≠ earAt (p, v, q) 0 := htp
        rw [relinkRec_other (p, v, q) 0 t hne0, if_neg htp]
        by_cases htq : t.2.1 = q
        · rw [rl2 t htq, if_pos htq]
        · have hne2 : t.2.1 ≠ earAt (p, v, q) 2 := htq
          rw [relinkRec_other (p, v, q) 2 t hne2, if_neg htq]


/-- C12: in a well-formed state where the scan of `triupdate` finds the neighbour in the
reflex zone `[r, c)`: if the relinked record is still not convex, `triupdate` changes
nothing but the relinked field; if it is convex, `c` decreases by one and the record ends
at position `c - 1`, in the convex zone, when its triangle is blocked by a vertex of the
new reflex zone, or at position `e - 1`, in the ear zone, with `e` also decreased by one
when it is not; in both cases the buffer holds the same whole records (`σ`) and every
other record stays in the zone it was in. -/
theorem triupdate_reflex (s : tristate) (ear : Nat × Nat × Nat) (i : Int)
    (hi : i = 0 ∨ i = 2) (hwf : WellFormed s) (j : Int)
    (hfind : trifind s (earAt ear i) (s.npoints - s.r).toNat s.r = some j) (hrj : s.r ≤ j)
    (hjc : j < s.c) :
    ∃ buf rec cv, wr s.indices (3 * j + 2 - i) (earAt ear (2 - i)) = some buf ∧
      rd3 buf (3 * j) = some rec ∧ triconvex { s with indices := buf } j = some cv ∧
      (cv = false → triupdate s ear i = some { s with indices := buf }) ∧
      (cv = true → ∃ t pos, triupdate s ear i = some t ∧ t.points = s.points ∧
        t.npoints = s.npoints ∧ t.r = s.r ∧ t.c = s.c - 1 ∧
        rd3 t.indices (3 * pos) = some rec ∧
        ((Blocked s.points t.indices t.r t.c rec ∧ t.e = s.e ∧ pos = s.c - 1) ∨
          (¬Blocked s.points t.indices t.r t.c rec ∧ t.e = s.e - 1 ∧ pos = s.e - 1)) ∧
        ∃ σ : Equiv.Perm Int, σ pos = j ∧ (∀ k, (k < s.r ∨ s.npoints ≤ k) → σ k = k) ∧
          (∀ k, rd3 t.indices (3 * k) = rd3 buf (3 * σ k)) ∧
          (∀ k, k ≠ pos → zoneOf t.r t.c t.e k = zoneOf s.r s.c s.e (σ k))) := by
  obtain ⟨hr, hrc, hce, hen, hlen⟩ := hwf
  have hw := wr_isSome s.indices (3 * j + 2 - i) (earAt ear (2 - i)) (by omega) (by omega)
  generalize hb : s.indices.set (3 * j + 2 - i).toNat (earAt ear (2 - i)) = buf at hw
  have hlb : buf.length = s.indices.length := wr_length hw
  have hex : ∃ rec, rd3 buf (3 * j) = some rec := rd3_isSome (by omega) (by omega)
  obtain ⟨rec, hrec⟩ := hex
  have hlen2 : 3 * s.npoints ≤ (buf.length : Int) := by omega
  obtain ⟨cv, hcv, hf, ht⟩ := trimove_reflex { s with indices := buf } j hr hrj hjc hce hen hlen2
  have hupd : triupdate s ear i = trimove { s with indices := buf } j := by
    unfold triupdate
    simp only [bind, Option.bind, hfind, hw]
  refine ⟨buf, rec, cv, hw, hrec, hcv, ?_, ?_⟩
  · intro h
    rw [hupd]
    exact hf h
  · intro h
    obtain ⟨b1, hb1, em, hem, hef, het⟩ := ht h
    have hb1 : triswap buf (3 * (s.c - 1)) (3 * j) = some b1 := hb1
    have hrec1 : rd3 b1 (3 * (s.c - 1)) = some rec := by
      rw [triswap_rd3_swap hb1, Equiv.swap_apply_left]
      exact hrec
    obtain ⟨em2, hem2, hblk⟩ := triempty_spec { s with c := s.c - 1, indices := b1 } (s.c - 1) rec
      hr (by show s.r ≤ s.c - 1; omega)
      (by show 3 * (s.c - 1) ≤ (b1.length : Int); rw [triswap_length hb1]; omega) hrec1
    rw [hem] at hem2
    cases hem2
    have hblk : em = false ↔ Blocked s.points b1 s.r (s.c - 1) rec := hblk
    cases em
    · refine ⟨{ s with c := s.c - 1, indices := b1 }, s.c - 1, by rw [hupd]; exact hef rfl,
        rfl, rfl, rfl, rfl, hrec1,
        Or.inl ⟨hblk.mp rfl, rfl, rfl⟩, Equiv.swap (s.c - 1) j, Equiv.swap_apply_left _ _,
        ?_, ?_, ?_⟩
      · intro k hk
        exact swap_fix_outside s.r s.npoints _ _ k (by omega) (by omega) hk
      · intro k
        exact triswap_rd3_swap hb1 k
      · intro k hk
        exact zone_after_one_swap s.r s.c s.e j k hrj hjc hce hk
    · obtain ⟨b2, hb2, hres⟩ := het rfl
      have hb2 : triswap b1 (3 * (s.e - 1)) (3 * (s.c - 1)) = some b2 := hb2
      have hnb : ¬Blocked s.points b1 s.r (s.c - 1) rec := fun hB => by
        have := hblk.mpr hB
        exact absurd this (by simp)
      have hlow : ∀ k : Int, k < 3 * (s.c - 1) → rd b2 k = rd b1 k := fun k hk =>
        triswap_rd_below hb2 (by omega) (by omega)
      refine ⟨{ s with c := s.c - 1, e := s.e - 1, indices := b2 }, s.e - 1,
        by rw [hupd]; exact hres, rfl, rfl, rfl, rfl, ?_,
        Or.inr ⟨?_, rfl, rfl⟩,
        (Equiv.swap (s.e - 1) (s.c - 1)).trans (Equiv.swap (s.c - 1) j), ?_, ?_, ?_, ?_⟩
      · show rd3 b2 (3 * (s.e - 1)) = some rec
        rw [triswap_rd3_swap hb2, Equiv.swap_apply_left]
        exact hrec1
      · show ¬Blocked s.points b2 s.r (s.c - 1) rec
        exact fun hB => hnb ((Blocked.congr hlow).mp hB)
      · simp only [Equiv.trans_apply, Equiv.swap_apply_left]
      · intro k hk
        simp only [Equiv.trans_apply]
        rw [swap_fix_outside s.r s.npoints _ _ k (by omega) (by omega) hk,
          swap_fix_outside s.r s.npoints _ _ k (by omega) (by omega) hk]
      · intro k
        show rd3 b2 (3 * k) = _
        simp only [Equiv.trans_apply]
        rw [triswap_rd3_swap hb2 k, triswap_rd3_swap hb1]
      · intro k hk
        simp only [Equiv.trans_apply]
        exact zone_after_two_swaps s.r s.c s.e j k hrj hjc hce hk


/-- The hypotheses of C12 hold in a state of the run on the L-shaped hexagon, for the
second neighbour of the ear `(1, 2, 3)`. -/
theorem triupdate_reflex_witness :
    ((2 : Int) = 0 ∨ (2 : Int) = 2) ∧ WellFormed lShapeCut ∧
      trifind lShapeCut (earAt (1, 2, 3) 2) (lShapeCut.npoints - lShapeCut.r).toNat
        lShapeCut.r = some 1 ∧
      lShapeCut.r ≤ 1 ∧ 1 < lShapeCut.c ∧
      ∃ buf rec cv, wr lShapeCut.indices (3 * 1 + 2 - 2) (earAt (1, 2, 3) (2 - 2)) = some buf ∧
        rd3 buf (3 * 1) = some rec ∧
        triconvex { lShapeCut with indices := buf } 1 = some cv ∧
        (cv = false → triupdate lShapeCut (1, 2, 3) 2 = some { lShapeCut with indices := buf }) := by
  have hwf : WellFormed lShapeCut := by
    unfold WellFormed lShapeCut
    decide
  obtain ⟨buf, rec, cv, h1, h2, h3, h4, -⟩ := triupdate_reflex lShapeCut (1, 2, 3) 2
    (Or.inr rfl) hwf 1 (by decide) (by decide) (by decide)
  exact ⟨Or.inr rfl, hwf, by decide, by decide, by decide, buf, rec, cv, h1, h2, h3, h4⟩

/-- The hypotheses of C13 hold on the unit square after its first ear `(3, 0, 1)` has been
moved to the output zone, the condition on the second neighbour included. -/
theorem triupdate_relinks_witness :
    3 ≠ 1 ∧ WellFormed squareCut ∧ ActiveDistinct squareCut ∧ ActiveHas squareCut 3 ∧
      ActiveHas squareCut 1 ∧
      ∃ s1 s2, triupdate squareCut (3, 0, 1) 0 = some s1 ∧
        triupdate s1 (3, 0, 1) 2 = some s2 ∧
        ∃ σ : Equiv.Perm Int, (∀ k, (k < squareCut.r ∨ squareCut.npoints ≤ k) → σ k = k) ∧
          ∀ k, 0 ≤ k → k < squareCut.npoints →
            ∃ t, rd3 squareCut.indices (3 * σ k) = some t ∧
              rd3 s2.indices (3 * k) = some (if k < squareCut.r then t
                else if t.2.1 = 3 then (t.1, 3, 1)
                else if t.2.1 = 1 then (3, 1, t.2.2) else t) := by
  have hwf : WellFormed squareCut := by
    unfold WellFormed squareCut
    decide
  have a1 : rd squareCut.indices (3 * 1 + 1) = some 1 := by decide
  have a2 : rd squareCut.indices (3 * 2 + 1) = some 2 := by decide
  have a3 : rd squareCut.indices (3 * 3 + 1) = some 3 := by decide
  have hd : ActiveDistinct squareCut := by
    intro j k x j0 j1 k0 k1 hj hk
    have j0 : (1 : Int) ≤ j := j0
    have j1 : j < 4 := j1
    have k0 : (1 : Int) ≤ k := k0
    have k1 : k < 4 := k1
    interval_cases j <;> interval_cases k <;> simp only [a1, a2, a3] at hj hk <;>
      first
        | rfl
        | exact absurd (Option.some.inj (hj.trans hk.symm)) (by decide)
  have hp : ActiveHas squareCut 3 := ⟨3, by decide, by decide, a3⟩
  have hq : ActiveHas squareCut 1 := ⟨1, by decide, by decide, a1⟩
  have r1 : rd3 squareCut.indices (3 * 1) = some (0, 1, 2) := by decide
  have r2 : rd3 squareCut.indices (3 * 2) = some (1, 2, 3) := by decide
  have r3 : rd3 squareCut.indices (3 * 3) = some (2, 3, 0) := by decide
  obtain ⟨s1, h1, hrest⟩ := triupdate_relinks squareCut 3 0 1 (by decide) hwf hd hp hq
    (by
      intro j t j0 j1 ht hts
      have j0 : (1 : Int) ≤ j := j0
      have j1 : j < 4 := j1
      interval_cases j
      · rw [r1] at ht
        cases ht
        exact absurd hts (by decide)
      · rw [r2] at ht
        cases ht
        exact absurd hts (by decide)
      · rw [r3] at ht
        cases ht
        show LeftTurn unitSquare 2 3 1
        decide!)
  have hv : (triupdate squareCut (3, 0, 1) 0).map tristate.view =
      some ([3, 0, 1, 0, 1, 2, 1, 2, 3, 2, 3, 1], 4, 1, 1, 1) := by decide!
  rw [h1] at hv
  simp only [Option.map_some', Option.some.injEq, tristate.view, Prod.mk.injEq] at hv
  obtain ⟨v1, v2, v3, v4, v5⟩ := hv
  have hpts : s1.points = unitSquare := (triupdate_frame h1).1
  have q1 : rd3 s1.indices (3 * 1) = some (0, 1, 2) := by rw [v1]; decide
  have q2 : rd3 s1.indices (3 * 2) = some (1, 2, 3) := by rw [v1]; decide
  have q3 : rd3 s1.indices (3 * 3) = some (2, 3, 1) := by rw [v1]; decide
  obtain ⟨s2, h2, -, -, -, σ, hfix, hmap⟩ := hrest
    (by
      intro j t j0 j1 ht hts
      rw [v5] at j0
      rw [v2] at j1
      rw [hpts]
      interval_cases j
      · rw [q1] at ht
        cases ht
        show LeftTurn unitSquare 3 1 2
        decide!
      · rw [q2] at ht
        cases ht
        exact absurd hts (by decide)
      · rw [q3] at ht
        cases ht
        exact absurd hts (by decide))
  exact ⟨by decide, hwf, hd, hp, hq, s1, s2, h1, h2, σ, hfix, hmap⟩

/-! ## The demotion of an ear that is no longer convex -/

/-- C11 fails on the code: in the well-formed state `pentagramCut` (a state of the run on
the pentagram) the scan for the first neighbour of the ear `(4, 0, 1)` finds vertex 4 at
position 4, in the ear zone, and the relinked record `(3, 4, 1)` is not convex.
`triupdate` leaves `c = e = 2`, but position `c - 1 = 1` holds `(1, 1, 3)` and not the
neighbour's record, and position 2 holds `(4, 1, 3)` instead of `(1, 2, 3)`: the second
swap was made at offset `3 * e - 1` and not at the record `e - 1`. -/
theorem triupdate_demote_breaks_records :
    WellFormed pentagramCut ∧
      trifind pentagramCut (earAt (4, 0, 1) 0) (pentagramCut.npoints - pentagramCut.r).toNat
        pentagramCut.r = some 4 ∧
      pentagramCut.e ≤ 4 ∧ ¬LeftTurn pentagram 3 4 1 ∧
      (triupdate pentagramCut (4, 0, 1) 0).map tristate.view =
        some ([4, 0, 1, 1, 1, 3, 4, 1, 3, 2, 3, 4, 0, 1, 2], 5, 1, 2, 2) ∧
      tripleAt [4, 0, 1, 1, 1, 3, 4, 1, 3, 2, 3, 4, 0, 1, 2] 1 = some (1, 1, 3) ∧
      tripleAt [4, 0, 1, 1, 1, 3, 4, 1, 3, 2, 3, 4, 0, 1, 2] 2 = some (4, 1, 3) ∧
      (triremove (fanState pentagram 5 0)).map tristate.view =
        some ([4, 0, 1, 4, 1, 3, 4, 1, 3, 2, 3, 4, 0, 1, 2], 5, 1, 2, 2) := by
  refine ⟨?_, by decide, by decide, by decide!, by decide!, by decide, by decide, by decide!⟩
  unfold WellFormed pentagramCut
  decide

end Triangulate
